import Mathlib

/-!
Verification of the merge engine, diff engine, format adapters and lenient
parsers of the sync-project-mcps repository, shallowly embedded from the
TypeScript sources.  JavaScript strings are modelled as `List Char`, JS
objects as association lists in insertion order, and `undefined` fields as
`Option.none`.
-/

set_option maxRecDepth 8000

namespace SyncMcp

/-- JavaScript strings, modelled as lists of characters. -/
abbrev JStr := List Char

/-- Object key lookup on an association list (first binding wins; a JS object
cannot hold two bindings for one key, so lists built by the embedded code have
unique keys). -/
def jget {α : Type} (m : List (JStr × α)) (k : JStr) : Option α :=
  match m with
  | [] => none
  | (k2, v) :: r => if k2 = k then some v else jget r k

/-- JS object property assignment `m[k] = v`: replaces the value in place when
the key is already bound, appends a new binding otherwise. -/
def jset {α : Type} (m : List (JStr × α)) (k : JStr) (v : α) : List (JStr × α) :=
  match m with
  | [] => [(k, v)]
  | (k2, w) :: r => if k2 = k then (k2, v) :: r else (k2, w) :: jset r k v

/-- JS object property deletion `delete m[k]` (removes every binding of `k`;
on objects there is at most one). -/
def jdel {α : Type} (m : List (JStr × α)) (k : JStr) : List (JStr × α) :=
  m.filter (fun p => decide (p.1 ≠ k))

/-- `Object.keys` in insertion order. -/
def jkeys {α : Type} (m : List (JStr × α)) : List JStr := m.map Prod.fst

/-- Canonical MCP server definition (TS type in src/types.ts, used by
src/merge.ts):
`{ command: string; args?: string[]; env?: Record<string,string>; disabled?: boolean }`.
`command` is an `Option` because the OpenCode adapter can produce `undefined`
at runtime by destructuring an empty `command` array
(src/clients/opencode.ts line 53); `none` models an absent or `undefined`
property, and `env` holds the object's key/value pairs in insertion order. -/
structure McpServer where
  command : Option JStr := none
  args : Option (List JStr) := none
  env : Option (List (JStr × JStr)) := none
  disabled : Option Bool := none
deriving DecidableEq, Repr

/-- Canonical config: `{ mcpServers: Record<string, McpServer> }`. -/
structure McpConfig where
  mcpServers : List (JStr × McpServer)
deriving DecidableEq, Repr

/-- Client descriptor (src/types.ts): display name, path, optional parsed
config, and the existence flag.  The source field `exists` is renamed
`fileExists` because `exists` is reserved in Lean. -/
structure ClientConfig where
  name : JStr
  path : JStr
  config : Option McpConfig
  fileExists : Bool
deriving DecidableEq, Repr

/-- Structural server equality, src/merge.ts lines 3-9.  The source compares
`a.command === b.command`, `JSON.stringify(a.args ?? [])` with the same for
`b`, and `JSON.stringify(a.env ?? {})` likewise.  `JSON.stringify` is
injective on arrays of strings and on string-keyed objects taken in insertion
order, so stringify-equality is exactly list equality of the argument list and
of the env binding list in insertion order. -/
def serversEqual (a b : McpServer) : Bool :=
  decide (a.command = b.command) &&
  decide (a.args.getD [] = b.args.getD []) &&
  decide (a.env.getD [] = b.env.getD [])

/-- The server entries contributed to the merge, in client order then object
insertion order: clients whose `config` is null are skipped
(src/merge.ts line 15). -/
def mergeEntries (cs : List ClientConfig) : List (JStr × McpServer) :=
  cs.flatMap (fun c =>
    match c.config with
    | some cfg => cfg.mcpServers
    | none => [])

/-- One iteration of the merge loop, src/merge.ts lines 17-28: an unseen name
is inserted (the source copies the server with `{...server}`, which is the
identity on values); a seen name is kept, and a warning naming the server is
recorded when the two definitions differ structurally. -/
def mergeStep (st : List (JStr × McpServer) × List JStr) (e : JStr × McpServer) :
    List (JStr × McpServer) × List JStr :=
  match jget st.1 e.1 with
  | none => (st.1 ++ [e], st.2)
  | some prev => if serversEqual prev e.2 then st else (st.1, st.2 ++ [e.1])

/-- `mergeConfigs`, src/merge.ts lines 11-32, returning the merged config
together with the list of conflict-warning server names printed by the
source's `console.log`. -/
def mergeConfigs (cs : List ClientConfig) : McpConfig × List JStr :=
  let st := (mergeEntries cs).foldl mergeStep ([], [])
  (⟨st.1⟩, st.2)

/-- Insertion-order deduplication, the iteration order of a JS `Set`
constructed from a list (first occurrence kept). -/
def dedupAcc (seen : List JStr) : List JStr → List JStr
  | [] => []
  | x :: r => if x ∈ seen then dedupAcc seen r else x :: dedupAcc (x :: seen) r

/-- The key set of the client's current config, empty when the config is null
(`client.config?.mcpServers ?? {}`, src/merge.ts lines 38-40). -/
def clientServers (client : ClientConfig) : List (JStr × McpServer) :=
  match client.config with
  | some c => c.mcpServers
  | none => []

/-- `getChanges`, src/merge.ts lines 34-47: `added` is merged-key iteration
minus current keys, `removed` is current-key iteration minus merged keys;
`new Set` gives insertion-order iteration with first-occurrence
deduplication. -/
def getChanges (client : ClientConfig) (merged : McpConfig) :
    List JStr × List JStr :=
  let currentServers := dedupAcc [] (jkeys (clientServers client))
  let mergedServers := dedupAcc [] (jkeys merged.mcpServers)
  let added := mergedServers.filter (fun s => decide (s ∉ jkeys (clientServers client)))
  let removed := currentServers.filter (fun s => decide (s ∉ jkeys merged.mcpServers))
  (added, removed)

/-! ### Merge engine lemmas -/

/-- Left-biased choice on options (`a` when present, else `b`). -/
def oor {α : Type} : Option α → Option α → Option α
  | some v, _ => some v
  | none, b => b

theorem oor_none_left {α : Type} (b : Option α) : oor none b = b := rfl

theorem oor_some_left {α : Type} (v : α) (b : Option α) : oor (some v) b = some v := rfl

theorem oor_none_right {α : Type} (a : Option α) : oor a none = a := by
  cases a <;> rfl

theorem jget_append {α : Type} (m n : List (JStr × α)) (k : JStr) :
    jget (m ++ n) k = oor (jget m k) (jget n k) := by
  induction m with
  | nil => simp [jget, oor]
  | cons p r ih =>
      by_cases h : p.1 = k
      · simp [jget, h, oor]
      · simp [jget, h, ih]

theorem serversEqual_refl (s : McpServer) : serversEqual s s = true := by
  simp [serversEqual]

/-- First-wins invariant of the merge fold: the final binding of `k` is the
accumulator's binding when present, else the first occurrence among the
remaining entries. -/
theorem mergeFold_first (es : List (JStr × McpServer)) :
    ∀ acc ws k, jget (es.foldl mergeStep (acc, ws)).1 k =
      oor (jget acc k) (jget es k) := by
  induction es with
  | nil => intro acc ws k; simp [jget, oor_none_right]
  | cons e r ih =>
      intro acc ws k
      simp only [List.foldl_cons]
      cases hacc : jget acc e.1 with
      | none =>
          have hstep : mergeStep (acc, ws) e = (acc ++ [e], ws) := by
            simp [mergeStep, hacc]
          rw [hstep, ih, jget_append]
          by_cases hek : e.1 = k
          · subst hek
            rw [hacc, oor_none_left, oor_none_left]
            simp [jget, oor]
          · have h1 : jget [e] k = none := by simp [jget, hek]
            rw [h1, oor_none_right]
            have h2 : jget (e :: r) k = jget r k := by simp [jget, hek]
            rw [h2]
      | some prev =>
          have hstep1 : (mergeStep (acc, ws) e).1 = acc := by
            simp only [mergeStep, hacc]
            by_cases hse : serversEqual prev e.2 <;> simp [hse]
          have hstep2 : ∃ t, mergeStep (acc, ws) e = (acc, t) := by
            refine ⟨(mergeStep (acc, ws) e).2, ?_⟩
            cases hm : mergeStep (acc, ws) e
            simp only [hm] at hstep1
            simp [hstep1]
          obtain ⟨t, ht⟩ := hstep2
          rw [ht, ih]
          by_cases hek : e.1 = k
          · subst hek
            rw [hacc, oor_some_left]
            have h2 : jget (e :: r) e.1 = some e.2 := by simp [jget]
            rw [h2, oor_some_left]
          · have h2 : jget (e :: r) k = jget r k := by simp [jget, hek]
            rw [h2]

/-- Warnings already recorded survive the rest of the merge fold. -/
theorem mergeFold_warn_mono (es : List (JStr × McpServer)) :
    ∀ acc ws k, k ∈ ws → k ∈ (es.foldl mergeStep (acc, ws)).2 := by
  induction es with
  | nil => intro acc ws k h; exact h
  | cons e r ih =>
      intro acc ws k h
      simp only [List.foldl_cons]
      cases hacc : jget acc e.1 with
      | none =>
          have hstep : mergeStep (acc, ws) e = (acc ++ [e], ws) := by
            simp [mergeStep, hacc]
          rw [hstep]; exact ih _ _ _ h
      | some prev =>
          by_cases hse : serversEqual prev e.2
          · have hstep : mergeStep (acc, ws) e = (acc, ws) := by
              simp [mergeStep, hacc, hse]
            rw [hstep]; exact ih _ _ _ h
          · have hstep : mergeStep (acc, ws) e = (acc, ws ++ [e.1]) := by
              simp [mergeStep, hacc, hse]
            rw [hstep]
            exact ih _ _ _ (List.mem_append_left _ h)

/-- When the accumulator already binds `k` to `s0`, any remaining entry named
`k` that differs structurally from `s0` produces a warning naming `k`. -/
theorem mergeFold_warn_of_acc (es : List (JStr × McpServer)) :
    ∀ acc ws k s0, jget acc k = some s0 →
      ∀ p ∈ es, p.1 = k → serversEqual s0 p.2 = false →
        k ∈ (es.foldl mergeStep (acc, ws)).2 := by
  induction es with
  | nil => intro acc ws k s0 _ p hp; exact absurd hp (List.not_mem_nil p)
  | cons e r ih =>
      intro acc ws k s0 hk p hp hpk hne
      simp only [List.foldl_cons]
      rcases List.mem_cons.1 hp with hpe | hpr
      · subst hpe
        have hgp : jget acc p.1 = some s0 := by rw [hpk]; exact hk
        have hstep : mergeStep (acc, ws) p = (acc, ws ++ [p.1]) := by
          simp [mergeStep, hgp, hne]
        rw [hstep]
        have hmem : k ∈ ws ++ [p.1] := by
          rw [hpk]
          exact List.mem_append_right _ (List.mem_singleton.2 rfl)
        exact mergeFold_warn_mono r acc (ws ++ [p.1]) k hmem
      · cases hacc : jget acc e.1 with
        | none =>
            have hstep : mergeStep (acc, ws) e = (acc ++ [e], ws) := by
              simp [mergeStep, hacc]
            rw [hstep]
            have hk2 : jget (acc ++ [e]) k = some s0 := by
              rw [jget_append, hk, oor_some_left]
            exact ih _ _ _ _ hk2 p hpr hpk hne
        | some prev =>
            by_cases hse : serversEqual prev e.2
            · have hstep : mergeStep (acc, ws) e = (acc, ws) := by
                simp [mergeStep, hacc, hse]
              rw [hstep]; exact ih _ _ _ _ hk p hpr hpk hne
            · have hstep : mergeStep (acc, ws) e = (acc, ws ++ [e.1]) := by
                simp [mergeStep, hacc, hse]
              rw [hstep]; exact ih _ _ _ _ hk p hpr hpk hne

/-- When the accumulator does not bind `k` yet, the first remaining entry
named `k` wins, and any later structurally different entry named `k` produces
a warning. -/
theorem mergeFold_warn (es : List (JStr × McpServer)) :
    ∀ acc ws k s, jget acc k = none → jget es k = some s →
      ∀ p ∈ es, p.1 = k → serversEqual s p.2 = false →
        k ∈ (es.foldl mergeStep (acc, ws)).2 := by
  induction es with
  | nil => intro acc ws k s _ hes; simp [jget] at hes
  | cons e r ih =>
      intro acc ws k s hacc hes p hp hpk hne
      simp only [List.foldl_cons]
      by_cases hek : e.1 = k
      · have hs : s = e.2 := by
          have : jget (e :: r) k = some e.2 := by simp [jget, hek]
          rw [this] at hes; exact (Option.some_inj.1 hes).symm
        have haccs : jget acc e.1 = none := by rw [hek]; exact hacc
        have hstep : mergeStep (acc, ws) e = (acc ++ [e], ws) := by
          simp [mergeStep, haccs]
        rw [hstep]
        rcases List.mem_cons.1 hp with hpe | hpr
        · subst hpe
          rw [hs] at hne
          rw [serversEqual_refl] at hne
          exact absurd hne (by simp)
        · have hk2 : jget (acc ++ [e]) k = some s := by
            rw [jget_append, hacc, oor_none_left]
            simp [jget, hek, hs]
          exact mergeFold_warn_of_acc r _ _ _ _ hk2 p hpr hpk hne
      · have hes2 : jget r k = some s := by
          have : jget (e :: r) k = jget r k := by simp [jget, hek]
          rw [this] at hes; exact hes
        rcases List.mem_cons.1 hp with hpe | hpr
        · subst hpe; exact absurd hpk hek
        · cases haccE : jget acc e.1 with
          | none =>
              have hstep : mergeStep (acc, ws) e = (acc ++ [e], ws) := by
                simp [mergeStep, haccE]
              rw [hstep]
              have hk2 : jget (acc ++ [e]) k = none := by
                rw [jget_append, hacc, oor_none_left]
                simp [jget, hek]
              exact ih _ _ _ _ hk2 hes2 p hpr hpk hne
          | some prev =>
              by_cases hse : serversEqual prev e.2
              · have hstep : mergeStep (acc, ws) e = (acc, ws) := by
                  simp [mergeStep, haccE, hse]
                rw [hstep]; exact ih _ _ _ _ hacc hes2 p hpr hpk hne
              · have hstep : mergeStep (acc, ws) e = (acc, ws ++ [e.1]) := by
                  simp [mergeStep, haccE, hse]
                rw [hstep]; exact ih _ _ _ _ hacc hes2 p hpr hpk hne

theorem mem_dedupAcc (l : List JStr) :
    ∀ seen a, a ∈ dedupAcc seen l ↔ a ∈ l ∧ a ∉ seen := by
  induction l with
  | nil => intro seen a; simp [dedupAcc]
  | cons x r ih =>
      intro seen a
      by_cases hx : x ∈ seen
      · simp only [dedupAcc, if_pos hx, ih, List.mem_cons]
        constructor
        · rintro ⟨h1, h2⟩; exact ⟨Or.inr h1, h2⟩
        · rintro ⟨h1 | h1, h2⟩
          · exact absurd (h1 ▸ hx) h2
          · exact ⟨h1, h2⟩
      · rw [dedupAcc, if_neg hx]
        constructor
        · intro hmem
          rcases List.mem_cons.1 hmem with rfl | hmem2
          · exact ⟨List.mem_cons_self a r, hx⟩
          · obtain ⟨h1, h2⟩ := (ih (x :: seen) a).1 hmem2
            exact ⟨List.mem_cons_of_mem _ h1,
              fun hs => h2 (List.mem_cons_of_mem _ hs)⟩
        · rintro ⟨h1, h2⟩
          rcases List.mem_cons.1 h1 with rfl | h1r
          · exact List.mem_cons_self a _
          · by_cases hax : a = x
            · exact hax ▸ List.mem_cons_self x _
            · refine List.mem_cons_of_mem _ ((ih (x :: seen) a).2 ⟨h1r, ?_⟩)
              intro hs
              rcases List.mem_cons.1 hs with h | h
              · exact hax h
              · exact h2 h

/-- C1: merge is first-occurrence-wins.  For every ordered list of client
descriptors, the merged mapping binds each server name to the first
definition seen for it across the flattened entry stream (so a later,
structurally different definition never replaces it), and every later entry
whose definition differs structurally from that first one makes the merge
emit a warning naming the server; `mergeConfigs` is a total function, so no
error or abort can occur. -/
theorem mergeConfigs_first_wins (cs : List ClientConfig) (name : JStr) :
    jget (mergeConfigs cs).1.mcpServers name = jget (mergeEntries cs) name
    ∧ (∀ s, jget (mergeEntries cs) name = some s →
        ∀ p ∈ mergeEntries cs, p.1 = name → serversEqual s p.2 = false →
          name ∈ (mergeConfigs cs).2) := by
  constructor
  · show jget ((mergeEntries cs).foldl mergeStep ([], [])).1 name = _
    rw [mergeFold_first]
    rfl
  · intro s hs p hp hpk hne
    exact mergeFold_warn (mergeEntries cs) [] [] name s rfl hs p hp hpk hne

/-- Witness for C1: two clients that both define `srv`, with different args;
the merged mapping keeps the first definition and the conflict warning names
`srv`. -/
theorem mergeConfigs_first_wins_witness :
    (jget (mergeConfigs
        [⟨"Cursor".data, "p1".data,
            some ⟨[("srv".data, { command := some ("npx".data), args := some ["v1".data] })]⟩, true⟩,
         ⟨"Claude".data, "p2".data,
            some ⟨[("srv".data, { command := some ("npx".data), args := some ["v2".data] })]⟩, true⟩]).1.mcpServers
        "srv".data
      = some { command := some ("npx".data), args := some ["v1".data] })
    ∧ "srv".data ∈ (mergeConfigs
        [⟨"Cursor".data, "p1".data,
            some ⟨[("srv".data, { command := some ("npx".data), args := some ["v1".data] })]⟩, true⟩,
         ⟨"Claude".data, "p2".data,
            some ⟨[("srv".data, { command := some ("npx".data), args := some ["v2".data] })]⟩, true⟩]).2 := by
  have h := mergeConfigs_first_wins
    [⟨"Cursor".data, "p1".data,
        some ⟨[("srv".data, { command := some ("npx".data), args := some ["v1".data] })]⟩, true⟩,
     ⟨"Claude".data, "p2".data,
        some ⟨[("srv".data, { command := some ("npx".data), args := some ["v2".data] })]⟩, true⟩]
    "srv".data
  refine ⟨?_, ?_⟩
  · rw [h.1]; decide
  · exact h.2 { command := some ("npx".data), args := some ["v1".data] } (by decide)
      ("srv".data, { command := some ("npx".data), args := some ["v2".data] })
      (by decide) (by decide) (by decide)

/-- C2: diff correctness.  `added` holds exactly the names present in the
merged mapping and absent from the client's config, `removed` exactly the
names present in the client's config and absent from the merged mapping (a
null client config counting as the empty mapping, via `clientServers`), and
the two lists are disjoint. -/
theorem getChanges_spec (client : ClientConfig) (merged : McpConfig) :
    (∀ name, name ∈ (getChanges client merged).1 ↔
        name ∈ jkeys merged.mcpServers ∧ name ∉ jkeys (clientServers client))
    ∧ (∀ name, name ∈ (getChanges client merged).2 ↔
        name ∈ jkeys (clientServers client) ∧ name ∉ jkeys merged.mcpServers)
    ∧ List.Disjoint (getChanges client merged).1 (getChanges client merged).2 := by
  have hadd : ∀ name, name ∈ (getChanges client merged).1 ↔
      name ∈ jkeys merged.mcpServers ∧ name ∉ jkeys (clientServers client) := by
    intro name
    simp [getChanges, List.mem_filter, mem_dedupAcc]
  have hrem : ∀ name, name ∈ (getChanges client merged).2 ↔
      name ∈ jkeys (clientServers client) ∧ name ∉ jkeys merged.mcpServers := by
    intro name
    simp [getChanges, List.mem_filter, mem_dedupAcc]
  refine ⟨hadd, hrem, ?_⟩
  intro a ha hr
  exact ((hadd a).1 ha).2 ((hrem a).1 hr).1

/-- Witness for C2 at a concrete diff: merged defines `s1, s2`, the client
only `s1`, so `s2` is reported added and nothing removed. -/
theorem getChanges_spec_witness :
    "s2".data ∈ (getChanges
        ⟨"Cursor".data, "p".data, some ⟨[("s1".data, { command := some ("a".data) })]⟩, true⟩
        ⟨[("s1".data, { command := some ("a".data) }),
          ("s2".data, { command := some ("b".data) })]⟩).1 := by
  exact ((getChanges_spec
    ⟨"Cursor".data, "p".data, some ⟨[("s1".data, { command := some ("a".data) })]⟩, true⟩
    ⟨[("s1".data, { command := some ("a".data) }),
      ("s2".data, { command := some ("b".data) })]⟩).1 "s2".data).2 (by decide)

/-- A server whose env binds A then B, used in the C3 scenario. -/
def srvEnvAB : McpServer :=
  { command := some ("npx".data), env := some [("A".data, "1".data), ("B".data, "2".data)] }

/-- The same env content with the opposite insertion order. -/
def srvEnvBA : McpServer :=
  { command := some ("npx".data), env := some [("B".data, "2".data), ("A".data, "1".data)] }

/-- A one-server client descriptor around a given definition. -/
def oneServerClient (cname p name : JStr) (s : McpServer) : ClientConfig :=
  ⟨cname, p, some ⟨[(name, s)]⟩, true⟩

/-- Counterexample for C3: two definitions with equal command, equal args and
env mappings that are content-equal as key/value sets but in different
insertion order.  The source compares env via `JSON.stringify`, which is
insertion-order sensitive, so `serversEqual` is `false` and merging two
clients that bind the same name to them emits a conflict warning instead of
silently deduplicating. -/
theorem serversEqual_env_order_counterexample :
    (srvEnvAB.env.getD []).Perm (srvEnvBA.env.getD [])
    ∧ srvEnvAB.command = srvEnvBA.command
    ∧ srvEnvAB.args.getD [] = srvEnvBA.args.getD []
    ∧ serversEqual srvEnvAB srvEnvBA = false
    ∧ (mergeConfigs
        [oneServerClient ("c1".data) ("p1".data) ("s".data) srvEnvAB,
         oneServerClient ("c2".data) ("p2".data) ("s".data) srvEnvBA]).2
      = ["s".data] := by
  refine ⟨?_, by decide, by decide, by decide, by decide⟩
  exact List.Perm.swap ("B".data, "2".data) ("A".data, "1".data) []

/-- C3 (amended): the merge engine's structural equality on env is
insertion-order sensitive.  When two definitions have equal command, equal
args (after the `?? []` default) and env bindings equal as ordered lists
(equal `JSON.stringify` serialisations), `serversEqual` holds and
deduplicating a same-named pair of them yields exactly one entry, equal to
the first, with no conflict warning. -/
theorem serversEqual_env_same_order (n1 p1 n2 p2 name : JStr) (a b : McpServer)
    (h1 : a.command = b.command) (h2 : a.args.getD [] = b.args.getD [])
    (h3 : a.env.getD [] = b.env.getD []) :
    serversEqual a b = true
    ∧ mergeConfigs
        [⟨n1, p1, some ⟨[(name, a)]⟩, true⟩, ⟨n2, p2, some ⟨[(name, b)]⟩, true⟩]
      = (⟨[(name, a)]⟩, []) := by
  have hse : serversEqual a b = true := by
    simp [serversEqual, h1, h2, h3]
  refine ⟨hse, ?_⟩
  simp [mergeConfigs, mergeEntries, mergeStep, jget, hse]

/-- A concrete server with a one-entry env, for the C3 witness. -/
def srvEnvA : McpServer :=
  { command := some ("npx".data), env := some [("A".data, "1".data)] }

/-- Witness for C3 (amended) at a concrete pair with identical env order. -/
theorem serversEqual_env_same_order_witness :
    serversEqual srvEnvA srvEnvA = true
    ∧ mergeConfigs
        [oneServerClient ("c1".data) ("p1".data) ("s".data) srvEnvA,
         oneServerClient ("c2".data) ("p2".data) ("s".data) srvEnvA]
      = (⟨[("s".data, srvEnvA)]⟩, []) :=
  serversEqual_env_same_order ("c1".data) ("p1".data) ("c2".data) ("p2".data) ("s".data)
    srvEnvA srvEnvA rfl rfl rfl

/-! ### JSON values, `JSON.stringify(v, null, 2)` and `JSON.parse`

The adapters call the JavaScript runtime's `JSON.stringify` and `JSON.parse`;
these library functions are embedded below.  `JSON.parse` produces doubles
for fractional numbers, which are outside the scope of this development: the
embedded parser accepts integer numerals only (the repository round-trips
only strings, arrays and objects, so nothing here depends on non-integer
numbers). -/

/-- A JSON value: JS strings, numbers (integral only), booleans, null,
arrays, and objects as binding lists in insertion order. -/
inductive JVal where
  | str (s : JStr)
  | num (n : Int)
  | bool (b : Bool)
  | null
  | arr (xs : List JVal)
  | obj (kvs : List (JStr × JVal))

/-- JS truthiness of a JSON value (objects and arrays are always truthy, the
empty string, zero, `false` and `null` are falsy). -/
def jvTruthy : JVal → Bool
  | .str s => decide (s ≠ [])
  | .num n => decide (n ≠ 0)
  | .bool b => b
  | .null => false
  | .arr _ => true
  | .obj _ => true

/-- The escape `JSON.stringify` applies to one character inside a string
literal (`\uXXXX` for remaining control characters). -/
def jsonEscapeChar (c : Char) : List Char :=
  if c = '"' then ['\\', '"']
  else if c = '\\' then ['\\', '\\']
  else if c = '\n' then ['\\', 'n']
  else if c = '\r' then ['\\', 'r']
  else if c = '\t' then ['\\', 't']
  else if c = (Char.ofNat 8) then ['\\', 'b']
  else if c = (Char.ofNat 12) then ['\\', 'f']
  else if c.toNat < 32 then
    ['\\', 'u', '0', '0',
      (Nat.digitChar (c.toNat / 16)), (Nat.digitChar (c.toNat % 16))]
  else [c]

/-- A serialised JSON string literal, with quotes. -/
def jsonQuote (s : JStr) : JStr :=
  '"' :: (s.map jsonEscapeChar).flatten ++ ['"']

/-- `2 * lvl` spaces: the indentation `JSON.stringify(v, null, 2)` uses at
nesting level `lvl`. -/
def jsonPad (lvl : Nat) : JStr := List.replicate (2 * lvl) ' '

mutual

/-- `JSON.stringify(v, null, 2)` at nesting level `lvl`. -/
def jsonStringify (lvl : Nat) : JVal → JStr
  | .str s => jsonQuote s
  | .num n => (toString n).data
  | .bool true => "true".data
  | .bool false => "false".data
  | .null => "null".data
  | .arr [] => "[]".data
  | .arr (x :: xs) =>
      '[' :: '\n' :: jsonItems (lvl + 1) (x :: xs) ++ '\n' :: jsonPad lvl ++ [']']
  | .obj [] => "\x7b\x7d".data
  | .obj (kv :: kvs) =>
      '{' :: '\n' :: jsonFields (lvl + 1) (kv :: kvs) ++ '\n' :: jsonPad lvl ++ ['}']

/-- The comma-and-newline separated element lines of a non-empty array. -/
def jsonItems (lvl : Nat) : List JVal → JStr
  | [] => []
  | [x] => jsonPad lvl ++ jsonStringify lvl x
  | x :: x2 :: xs =>
      jsonPad lvl ++ jsonStringify lvl x ++ ',' :: '\n' :: jsonItems lvl (x2 :: xs)

/-- The comma-and-newline separated member lines of a non-empty object. -/
def jsonFields (lvl : Nat) : List (JStr × JVal) → JStr
  | [] => []
  | [(k, v)] => jsonPad lvl ++ jsonQuote k ++ ':' :: ' ' :: jsonStringify lvl v
  | (k, v) :: kv2 :: kvs =>
      jsonPad lvl ++ jsonQuote k ++ ':' :: ' ' :: jsonStringify lvl v ++
        ',' :: '\n' :: jsonFields lvl (kv2 :: kvs)

end

/-- JSON whitespace (the exact four characters `JSON.parse` skips). -/
def isWsJson (c : Char) : Bool :=
  decide (c = ' ') || decide (c = '\n') || decide (c = '\r') || decide (c = '\t')

/-- Hexadecimal digit recognition (`Char.isHexDigit` spelled out). -/
def isHexDigitC (c : Char) : Bool :=
  c.isDigit || (decide ('a' ≤ c) && decide (c ≤ 'f')) || (decide ('A' ≤ c) && decide (c ≤ 'F'))

/-- Numeric value of a hexadecimal digit character. -/
def hexVal (c : Char) : Nat :=
  if c.isDigit then c.toNat - 48
  else if 'a' ≤ c ∧ c ≤ 'f' then c.toNat - 87
  else if 'A' ≤ c ∧ c ≤ 'F' then c.toNat - 55
  else 0

/-- Parse the remainder of a JSON string literal (after the opening quote),
decoding escapes; `none` on an unterminated or malformed literal. -/
def jvParseStr : List Char → Option (JStr × List Char)
  | [] => none
  | '"' :: r => some ([], r)
  | '\\' :: 'u' :: d1 :: d2 :: d3 :: d4 :: r2 =>
      if isHexDigitC d1 && isHexDigitC d2 && isHexDigitC d3 && isHexDigitC d4 then
        match jvParseStr r2 with
        | some (s, r3) =>
            some (Char.ofNat (hexVal d1 * 4096 + hexVal d2 * 256 +
              hexVal d3 * 16 + hexVal d4) :: s, r3)
        | none => none
      else none
  | '\\' :: 'u' :: _ => none
  | '\\' :: e :: r =>
      match jvParseStr r with
      | some (s, r2) =>
          let c :=
            if e = 'n' then '\n'
            else if e = 'r' then '\r'
            else if e = 't' then '\t'
            else if e = 'b' then Char.ofNat 8
            else if e = 'f' then Char.ofNat 12
            else e
          some (c :: s, r2)
      | none => none
  | c :: r =>
      match jvParseStr r with
      | some (s, r2) => some (c :: s, r2)
      | none => none

/-- Digit run to a natural number. -/
def digitsToNat (ds : List Char) : Nat :=
  ds.foldl (fun a c => a * 10 + (c.toNat - 48)) 0

mutual

/-- `JSON.parse` value parser (fuel-indexed recursive descent; the fuel only
bounds nesting and is instantiated with more than the input length, which a
successful parse can never exhaust).  Fractional or exponent-bearing numerals
are rejected: they denote doubles, which this development does not model. -/
def jvParseVal : Nat → List Char → Option (JVal × List Char)
  | 0, _ => none
  | Nat.succ fuel, cs =>
    match cs.dropWhile isWsJson with
    | '{' :: r =>
        (match r.dropWhile isWsJson with
         | '}' :: r2 => some (.obj [], r2)
         | _ =>
            match jvParseMembers fuel r with
            | some (kvs, r2) => some (.obj kvs, r2)
            | none => none)
    | '[' :: r =>
        (match r.dropWhile isWsJson with
         | ']' :: r2 => some (.arr [], r2)
         | _ =>
            match jvParseElems fuel r with
            | some (vs, r2) => some (.arr vs, r2)
            | none => none)
    | '"' :: r =>
        (match jvParseStr r with
         | some (s, r2) => some (.str s, r2)
         | none => none)
    | 't' :: 'r' :: 'u' :: 'e' :: r => some (.bool true, r)
    | 'f' :: 'a' :: 'l' :: 's' :: 'e' :: r => some (.bool false, r)
    | 'n' :: 'u' :: 'l' :: 'l' :: r => some (.null, r)
    | c :: r =>
        if c = '-' || c.isDigit then
          let body := if c = '-' then r else c :: r
          let ds := body.takeWhile Char.isDigit
          let rest := body.dropWhile Char.isDigit
          if ds = [] then none
          else
            match rest with
            | '.' :: _ => none
            | 'e' :: _ => none
            | 'E' :: _ => none
            | _ =>
                some (.num (if c = '-' then -(digitsToNat ds : Int)
                  else (digitsToNat ds : Int)), rest)
        else none
    | [] => none

/-- Members of an object (called after `{` when the object is non-empty). -/
def jvParseMembers : Nat → List Char → Option (List (JStr × JVal) × List Char)
  | 0, _ => none
  | Nat.succ fuel, cs =>
    match cs.dropWhile isWsJson with
    | '"' :: r =>
        (match jvParseStr r with
         | some (k, r2) =>
            (match r2.dropWhile isWsJson with
             | ':' :: r3 =>
                (match jvParseVal fuel r3 with
                 | some (v, r4) =>
                    (match r4.dropWhile isWsJson with
                     | ',' :: r5 =>
                        (match jvParseMembers fuel r5 with
                         | some (kvs, r6) => some ((k, v) :: kvs, r6)
                         | none => none)
                     | '}' :: r5 => some ([(k, v)], r5)
                     | _ => none)
                 | none => none)
             | _ => none)
         | none => none)
    | _ => none

/-- Elements of an array (called after `[` when the array is non-empty). -/
def jvParseElems : Nat → List Char → Option (List JVal × List Char)
  | 0, _ => none
  | Nat.succ fuel, cs =>
      match jvParseVal fuel cs with
      | some (v, r) =>
          (match r.dropWhile isWsJson with
           | ',' :: r2 =>
              (match jvParseElems fuel r2 with
               | some (vs, r3) => some (v :: vs, r3)
               | none => none)
           | ']' :: r2 => some ([v], r2)
           | _ => none)
      | none => none

end

mutual

/-- Structural size of a JSON value, used to discharge the parser fuel. -/
def jvSize : JVal → Nat
  | .arr xs => 1 + jvSizeList xs
  | .obj kvs => 1 + jvSizeFields kvs
  | _ => 1

/-- Structural size of an array's elements. -/
def jvSizeList : List JVal → Nat
  | [] => 1
  | x :: r => 1 + jvSize x + jvSizeList r

/-- Structural size of an object's members. -/
def jvSizeFields : List (JStr × JVal) → Nat
  | [] => 1
  | (_, v) :: r => 1 + jvSize v + jvSizeFields r

end

/-- `JSON.parse`: parse one value and require only whitespace after it. -/
def jvParse (cs : List Char) : Option JVal :=
  match jvParseVal (cs.length + 1) cs with
  | some (v, rest) => if rest.dropWhile isWsJson = [] then some v else none
  | none => none

/-! ### The JSON-with-comments cleaner (src/parsers/jsonc.ts) -/

/-- Characters that end a `//` line comment scan (src/parsers/jsonc.ts
line 19 keeps scanning while the character is neither). -/
def notNl (c : Char) : Bool :=
  decide (c ≠ '\n') && decide (c ≠ '\r')

/-- Skipping a `/*...*/` block comment body, src/parsers/jsonc.ts lines
26-29: after `/*` the scanner advances while `i < length - 1` and the next
two characters are not `*/`, then jumps two characters, so an unterminated
comment consumes the whole rest of the input. -/
def blockSkip : List Char → List Char
  | [] => []
  | [_] => []
  | a :: b :: r => if a = '*' ∧ b = '/' then r else blockSkip (b :: r)

theorem dropWhileLenLe (p : Char → Bool) (l : List Char) :
    (l.dropWhile p).length ≤ l.length := by
  induction l with
  | nil => simp
  | cons a t ih =>
      rw [List.dropWhile_cons]
      by_cases h : p a = true
      · rw [if_pos h]; simp; omega
      · rw [if_neg h]

theorem tailLenLe (l : List Char) : l.tail.length ≤ l.length := by
  cases l <;> simp

theorem blockSkip_length_le (l : List Char) : (blockSkip l).length ≤ l.length := by
  induction l with
  | nil => simp [blockSkip]
  | cons a t ih =>
      cases t with
      | nil => simp [blockSkip]
      | cons b r =>
          rw [blockSkip]
          by_cases h : a = '*' ∧ b = '/'
          · rw [if_pos h]; simp; omega
          · rw [if_neg h]
            exact le_trans ih (by simp)

/-- The character-scanning phase of `parseJsonc` (src/parsers/jsonc.ts lines
2-36), written with explicit fuel (one unit per loop entry; the scanner
always consumes at least one character per entry, so fuel equal to the
input length can never run out — see `stripGo_fuel`).  `prev` is the
character before the scan position (`none` at the start of input; note the
source consults `content[i-1]` even when that character was itself skipped),
`inStr` is the string-literal state toggled by unescaped quotes.  Outside
strings, `//` skips to the next CR or LF and `/*` skips via `blockSkip`;
all other characters are copied. -/
def stripGo : Nat → Option Char → Bool → List Char → List Char
  | 0, _, _, _ => []
  | _ + 1, _, _, [] => []
  | fuel + 1, prev, inStr, c :: rest =>
    if c = '"' ∧ prev ≠ some '\\' then
      c :: stripGo fuel (some c) (!inStr) rest
    else if inStr = false ∧ c = '/' ∧ rest.head? = some '/' then
      stripGo fuel ((c :: rest).takeWhile notNl).getLast? inStr
        ((c :: rest).dropWhile notNl)
    else if inStr = false ∧ c = '/' ∧ rest.head? = some '*' then
      stripGo fuel (some '/') inStr (blockSkip rest.tail)
    else
      c :: stripGo fuel (some c) inStr rest

/-- The scanner, with the fuel instantiated to the input length. -/
def stripAux (prev : Option Char) (inStr : Bool) (cs : List Char) : List Char :=
  stripGo cs.length prev inStr cs

/-- Fuel irrelevance: any fuel at least the input length gives the same
result, because every loop entry consumes at least one character. -/
theorem stripGo_fuel (fuel : Nat) :
    ∀ fuel2 prev inStr (cs : List Char), cs.length ≤ fuel → cs.length ≤ fuel2 →
      stripGo fuel prev inStr cs = stripGo fuel2 prev inStr cs := by
  induction fuel with
  | zero =>
      intro fuel2 prev inStr cs h1 _
      have : cs = [] := List.length_eq_zero.1 (Nat.le_antisymm h1 (Nat.zero_le _))
      subst this
      cases fuel2 <;> rfl
  | succ n ih =>
      intro fuel2 prev inStr cs h1 h2
      cases cs with
      | nil => cases fuel2 <;> rfl
      | cons c rest =>
          cases fuel2 with
          | zero => exact absurd h2 (by simp)
          | succ m =>
              simp only [stripGo]
              have hr : rest.length ≤ n := by
                simp at h1; omega
              have hr2 : rest.length ≤ m := by
                simp at h2; omega
              by_cases hq : c = '"' ∧ prev ≠ some '\\'
              · rw [if_pos hq, if_pos hq, ih m _ _ rest hr hr2]
              · rw [if_neg hq, if_neg hq]
                by_cases hl : inStr = false ∧ c = '/' ∧ rest.head? = some '/'
                · rw [if_pos hl, if_pos hl]
                  have hc : notNl c = true := by rw [hl.2.1]; rfl
                  have hlen : ((c :: rest).dropWhile notNl).length ≤ rest.length := by
                    rw [List.dropWhile_cons, if_pos hc]
                    exact dropWhileLenLe notNl rest
                  exact ih m _ _ _ (le_trans hlen hr) (le_trans hlen hr2)
                · rw [if_neg hl, if_neg hl]
                  by_cases hb : inStr = false ∧ c = '/' ∧ rest.head? = some '*'
                  · rw [if_pos hb, if_pos hb]
                    have hlen : (blockSkip rest.tail).length ≤ rest.length :=
                      le_trans (blockSkip_length_le rest.tail) (tailLenLe rest)
                    exact ih m _ _ _ (le_trans hlen hr) (le_trans hlen hr2)
                  · rw [if_neg hb, if_neg hb, ih m _ _ rest hr hr2]

/-- `stripAux` on the empty input. -/
theorem stripAux_nil (prev : Option Char) (inStr : Bool) :
    stripAux prev inStr [] = [] := rfl

/-- The one-step unfolding of `stripAux`, in the shape of the source loop. -/
theorem stripAux_cons (prev : Option Char) (inStr : Bool) (c : Char)
    (rest : List Char) :
    stripAux prev inStr (c :: rest) =
      if c = '"' ∧ prev ≠ some '\\' then
        c :: stripAux (some c) (!inStr) rest
      else if inStr = false ∧ c = '/' ∧ rest.head? = some '/' then
        stripAux ((c :: rest).takeWhile notNl).getLast? inStr
          ((c :: rest).dropWhile notNl)
      else if inStr = false ∧ c = '/' ∧ rest.head? = some '*' then
        stripAux (some '/') inStr (blockSkip rest.tail)
      else
        c :: stripAux (some c) inStr rest := by
  show stripGo (c :: rest).length prev inStr (c :: rest) = _
  have hlen : (c :: rest).length = rest.length + 1 := by simp
  rw [hlen]
  simp only [stripGo]
  by_cases hq : c = '"' ∧ prev ≠ some '\\'
  · rw [if_pos hq, if_pos hq]
    rfl
  · rw [if_neg hq, if_neg hq]
    by_cases hl : inStr = false ∧ c = '/' ∧ rest.head? = some '/'
    · rw [if_pos hl, if_pos hl]
      have hc : notNl c = true := by rw [hl.2.1]; rfl
      have hlen2 : ((c :: rest).dropWhile notNl).length ≤ rest.length := by
        rw [List.dropWhile_cons, if_pos hc]
        exact dropWhileLenLe notNl rest
      exact stripGo_fuel rest.length _ _ _ _ hlen2 le_rfl
    · rw [if_neg hl, if_neg hl]
      by_cases hb : inStr = false ∧ c = '/' ∧ rest.head? = some '*'
      · rw [if_pos hb, if_pos hb]
        have hlen2 : (blockSkip rest.tail).length ≤ rest.length :=
          le_trans (blockSkip_length_le rest.tail) (tailLenLe rest)
        exact stripGo_fuel rest.length _ _ _ _ hlen2 le_rfl
      · rw [if_neg hb, if_neg hb]
        rfl

/-- JS `\s` whitespace (ASCII part; the repository's inputs stay in ASCII). -/
def isWsJs (c : Char) : Bool :=
  decide (c = ' ') || decide (c = '\t') || decide (c = '\n') || decide (c = '\r') ||
    decide (c = Char.ofNat 11) || decide (c = Char.ofNat 12)

/-- Does the remainder start with optional whitespace and then `}` or `]`?
This is when the regex `,(\s*[}\]])` of src/parsers/jsonc.ts line 38 matches
at a comma. -/
def closerAfterWs (cs : List Char) : Bool :=
  match cs.dropWhile isWsJs with
  | '}' :: _ => true
  | ']' :: _ => true
  | _ => false

/-- The trailing-comma removal `result.replace(/,(\s*[}\]])/g, "$1")`
(src/parsers/jsonc.ts line 38), with explicit fuel (one unit per character
inspected, so fuel equal to the input length can never run out — see
`cleanGo_fuel`): left-to-right, non-overlapping; each match drops the comma,
keeps the whitespace and closer, and resumes after them. -/
def cleanGo : Nat → List Char → List Char
  | 0, _ => []
  | _ + 1, [] => []
  | fuel + 1, c :: rest =>
    if c = ',' ∧ closerAfterWs rest = true then
      rest.takeWhile isWsJs ++ (rest.dropWhile isWsJs).take 1 ++
        cleanGo fuel ((rest.dropWhile isWsJs).drop 1)
    else c :: cleanGo fuel rest

/-- The comma cleaner, with the fuel instantiated to the input length. -/
def cleanCommas (cs : List Char) : List Char := cleanGo cs.length cs

/-- Fuel irrelevance for `cleanGo`. -/
theorem cleanGo_fuel (fuel : Nat) :
    ∀ fuel2 (cs : List Char), cs.length ≤ fuel → cs.length ≤ fuel2 →
      cleanGo fuel cs = cleanGo fuel2 cs := by
  induction fuel with
  | zero =>
      intro fuel2 cs h1 _
      have : cs = [] := List.length_eq_zero.1 (Nat.le_antisymm h1 (Nat.zero_le _))
      subst this
      cases fuel2 <;> rfl
  | succ n ih =>
      intro fuel2 cs h1 h2
      cases cs with
      | nil => cases fuel2 <;> rfl
      | cons c rest =>
          cases fuel2 with
          | zero => exact absurd h2 (by simp)
          | succ m =>
              simp only [cleanGo]
              have hr : rest.length ≤ n := by simp at h1; omega
              have hr2 : rest.length ≤ m := by simp at h2; omega
              by_cases hc : c = ',' ∧ closerAfterWs rest = true
              · rw [if_pos hc, if_pos hc]
                have h5 : ((rest.dropWhile isWsJs).drop 1).length ≤ rest.length := by
                  have hd := dropWhileLenLe isWsJs rest
                  have := List.length_drop 1 (rest.dropWhile isWsJs)
                  omega
                rw [ih m _ (le_trans h5 hr) (le_trans h5 hr2)]
              · rw [if_neg hc, if_neg hc, ih m rest hr hr2]

/-- `cleanCommas` on the empty input. -/
theorem cleanCommas_nil : cleanCommas [] = [] := rfl

/-- The one-step unfolding of `cleanCommas`. -/
theorem cleanCommas_cons (c : Char) (rest : List Char) :
    cleanCommas (c :: rest) =
      if c = ',' ∧ closerAfterWs rest = true then
        rest.takeWhile isWsJs ++ (rest.dropWhile isWsJs).take 1 ++
          cleanCommas ((rest.dropWhile isWsJs).drop 1)
      else c :: cleanCommas rest := by
  show cleanGo (c :: rest).length (c :: rest) = _
  have hlen : (c :: rest).length = rest.length + 1 := by simp
  rw [hlen]
  simp only [cleanGo]
  by_cases hc : c = ',' ∧ closerAfterWs rest = true
  · rw [if_pos hc, if_pos hc]
    have h5 : ((rest.dropWhile isWsJs).drop 1).length ≤ rest.length := by
      have hd := dropWhileLenLe isWsJs rest
      have := List.length_drop 1 (rest.dropWhile isWsJs)
      omega
    rw [cleanGo_fuel rest.length _ _ h5 le_rfl]
    rfl
  · rw [if_neg hc, if_neg hc]
    rfl

/-- `parseJsonc` (src/parsers/jsonc.ts): strip comments, remove trailing
commas, then decode with `JSON.parse`; `none` models the thrown decode
error. -/
def parseJsonc (cs : JStr) : Option JVal :=
  jvParse (cleanCommas (stripAux none false cs))

/-! ### The TOML-subset parser and serializer (src/parsers/toml.ts) -/

/-- `String.prototype.trim` (ASCII whitespace; the repository's configuration
files stay in ASCII). -/
def jsTrim (s : JStr) : JStr :=
  ((s.dropWhile isWsJs).reverse.dropWhile isWsJs).reverse

/-- `String.prototype.split` on a one-character separator. -/
def splitOnChar (sep : Char) : JStr → List JStr
  | [] => [[]]
  | c :: r =>
      match splitOnChar sep r with
      | [] => [[c]]
      | l :: ls => if c = sep then [] :: l :: ls else (c :: l) :: ls

/-- A TOML-subset value: quoted string (also used for raw unquoted text),
array of strings, or single-level inline table. -/
inductive TomlValue where
  | str (s : JStr)
  | arr (xs : List JStr)
  | table (kvs : List (JStr × JStr))
deriving DecidableEq, Repr

/-- One `[section]`: its `key = value` bindings in order. -/
abbrev TomlSection := List (JStr × TomlValue)

/-- A parsed document: sections by name, in order. -/
abbrev TomlDoc := List (JStr × TomlSection)

/-- Regex `\w`: ASCII word characters. -/
def isWordChar (c : Char) : Bool :=
  c.isAlpha || c.isDigit || decide (c = '_')

/-- The match `line.match(/^\[([^\]]+)\]$/)` (src/parsers/toml.ts line 14):
succeeds exactly when the line is `[` then one or more non-`]` characters
then `]`, capturing the inside. -/
def sectionMatch (line : JStr) : Option JStr :=
  let inner := (line.drop 1).dropLast
  if line.head? = some '[' ∧ line.getLast? = some ']' ∧ inner ≠ [] ∧ ']' ∉ inner then
    some inner
  else none

/-- The match `line.match(/^(\w+)\s*=\s*(.+)$/)` (src/parsers/toml.ts
line 23).  The greedy `\w+` must take the maximal word prefix (anything
shorter leaves a word character where `=` is required), then `\s*`, `=`,
`\s*`, and `(.+)$` covers the rest, which must be non-empty and free of line
terminators (`.` matches neither).  `parseToml` only applies this to trimmed
lines, which cannot end in whitespace, so the regex's backtracking case of an
all-whitespace tail after `=` cannot arise. -/
def kvMatch (line : JStr) : Option (JStr × JStr) :=
  let key := line.takeWhile isWordChar
  let r1 := (line.dropWhile isWordChar).dropWhile isWsJs
  if key = [] then none
  else
    match r1 with
    | '=' :: r2 =>
        let v := r2.dropWhile isWsJs
        if v ≠ [] ∧ v.all notNl then some (key, v) else none
    | _ => none

/-- The element scanner of `parseArray` (src/parsers/toml.ts lines 53-71):
`prev` is the previous character of the inner text (the source consults
`inner[i-1]` for the escape check), `inStr` the quote state, `cur` the
accumulated current element.  Unescaped quotes toggle and are dropped,
top-level commas push the trimmed current element when non-blank, top-level
spaces and tabs are skipped, and everything else is accumulated. -/
def parseArrayScan (prev : Option Char) (inStr : Bool) (cur : JStr) :
    JStr → List JStr
  | [] => if jsTrim cur ≠ [] then [jsTrim cur] else []
  | c :: r =>
      if c = '"' ∧ prev ≠ some '\\' then
        parseArrayScan (some c) (!inStr) cur r
      else if c = ',' ∧ inStr = false then
        (if jsTrim cur ≠ [] then [jsTrim cur] else []) ++
          parseArrayScan (some c) inStr [] r
      else if inStr = false ∧ (c = ' ' ∨ c = '\t') then
        parseArrayScan (some c) inStr cur r
      else
        parseArrayScan (some c) inStr (cur ++ [c]) r

/-- `parseArray` (src/parsers/toml.ts lines 49-74), applied to the full
bracketed value. -/
def parseArray (v : JStr) : List JStr :=
  let inner := jsTrim ((v.drop 1).dropLast)
  if inner = [] then [] else parseArrayScan none false [] inner

/-- The match `pair.trim().match(/^"?(\w+)"?\s*=\s*"([^"]*)"$/)`
(src/parsers/toml.ts line 84).  The optional quotes are deterministic: when
the next character is `"` the option must consume it, since `\w+` and `=`
cannot match a quote. -/
def pairMatch (p : JStr) : Option (JStr × JStr) :=
  let p1 := match p with
    | '"' :: r => r
    | r => r
  let key := p1.takeWhile isWordChar
  let p2 := p1.dropWhile isWordChar
  if key = [] then none
  else
    let p3 := match p2 with
      | '"' :: r => r
      | r => r
    match p3.dropWhile isWsJs with
    | '=' :: r =>
        (match r.dropWhile isWsJs with
         | '"' :: r2 =>
            (match r2.dropWhile (fun c => decide (c ≠ '"')) with
             | ['"'] => some (key, r2.takeWhile (fun c => decide (c ≠ '"')))
             | _ => none)
         | _ => none)
    | _ => none

/-- `parseInlineTable` (src/parsers/toml.ts lines 76-91): strip the braces,
split on every comma (the source does not respect quotes here), and assign
each matching pair into the result object. -/
def parseInlineTable (v : JStr) : List (JStr × JStr) :=
  let inner := jsTrim ((v.drop 1).dropLast)
  if inner = [] then []
  else
    (splitOnChar ',' inner).foldl (fun acc pr =>
      match pairMatch (jsTrim pr) with
      | some (k, val) => jset acc k val
      | none => acc) []

/-- `parseValue` (src/parsers/toml.ts lines 33-47): quoted string, bracketed
array, braced inline table, else the raw text. -/
def parseValue (v : JStr) : TomlValue :=
  if v.head? = some '"' ∧ v.getLast? = some '"' then
    .str ((v.drop 1).dropLast)
  else if v.head? = some '[' ∧ v.getLast? = some ']' then
    .arr (parseArray v)
  else if v.head? = some '{' ∧ v.getLast? = some '}' then
    .table (parseInlineTable v)
  else .str v

/-- Assignment `result[currentSection][key] = value`.  The current section is
always present in the document (it is inserted when its header line is read),
so the missing-section fallback below is unreachable. -/
def setInSection (doc : TomlDoc) (sec k : JStr) (v : TomlValue) : TomlDoc :=
  match jget doc sec with
  | some s => jset doc sec (jset s k v)
  | none => doc

/-- One line of the `parseToml` loop (src/parsers/toml.ts lines 10-28):
trim; skip blanks and `#` comments; a section header opens (and resets) its
section; otherwise, inside a section, a `key = value` line assigns the parsed
value, and anything else is skipped.  Lines before any section header are
skipped because the initial current section name is the empty string. -/
def parseTomlLine (st : TomlDoc × JStr) (rawLine : JStr) : TomlDoc × JStr :=
  let line := jsTrim rawLine
  if line = [] ∨ line.head? = some '#' then st
  else
    match sectionMatch line with
    | some sec => (jset st.1 sec [], sec)
    | none =>
        if st.2 = [] then st
        else
          match kvMatch line with
          | some (k, v) =>
              (setInSection st.1 st.2 k (parseValue (jsTrim v)), st.2)
          | none => st

/-- `parseToml` (src/parsers/toml.ts lines 4-31). -/
def parseToml (content : JStr) : TomlDoc :=
  ((splitOnChar '\n' content).foldl parseTomlLine ([], [])).1

/-- `lines.join(sep)`. -/
def joinSep (sep : JStr) : List JStr → JStr
  | [] => []
  | [x] => x
  | x :: y :: r => x ++ sep ++ joinSep sep (y :: r)

/-- `stringifyValue` (src/parsers/toml.ts lines 107-120): quote strings
verbatim (no escaping), arrays as `["a", "b"]`, inline tables as
`{ "k" = "v", ... }`. -/
def stringifyValue : TomlValue → JStr
  | .str s => '"' :: s ++ ['"']
  | .arr xs => '[' :: joinSep (", ".data) (xs.map (fun x => '"' :: x ++ ['"'])) ++ [']']
  | .table kvs =>
      '{' :: ' ' ::
        joinSep (", ".data)
          (kvs.map (fun p => '"' :: p.1 ++ '"' :: ' ' :: '=' :: ' ' :: '"' :: p.2 ++ ['"'])) ++
        [' ', '}']

/-- The line list `stringifyToml` builds (src/parsers/toml.ts lines 93-105):
per section a `[name]` header, one `key = value` line per binding, then a
blank line. -/
def tomlLines (data : TomlDoc) : List JStr :=
  data.flatMap (fun p =>
    ('[' :: p.1 ++ [']']) ::
      (p.2.map (fun kv => kv.1 ++ ' ' :: '=' :: ' ' :: stringifyValue kv.2) ++ [[]]))

/-- `stringifyToml`: the lines joined with newlines. -/
def stringifyToml (data : TomlDoc) : JStr :=
  joinSep ['\n'] (tomlLines data)

/-! ### Format adapters -/

/-- The file system seen by the adapters: path to contents when the file
exists. -/
def FS := JStr → Option JStr

/-- `path.join(a, b)` for the relative-segment uses in this repository. -/
def jsJoin (a b : JStr) : JStr := a ++ '/' :: b

/-- Property access `v[k]` on a JSON value: a binding of an object, otherwise
`undefined` (`none`).  (Prototype members of primitives never matter here.) -/
def jvGet (v : JVal) (k : JStr) : Option JVal :=
  match v with
  | .obj kvs => jget kvs k
  | _ => none

/-- `Object.entries` of a JSON value.  On non-objects this is empty; on a
string JS would enumerate index/character pairs, a case nothing below relies
on. -/
def jvEntries : JVal → List (JStr × JVal)
  | .obj kvs => kvs
  | _ => []

/-- Spread `{...v}`: the own enumerable properties.  Spreading a primitive
gives an empty object (again, the string-indices case never arises below). -/
def jvSpread : JVal → List (JStr × JVal)
  | .obj kvs => kvs
  | _ => []

/-- Strings out of a JSON array's elements; `none` when some element is not a
string.  (The TS sources cast such values straight through; every document
this development reasons about carries strings here, and the embedding treats
anything else as outside its fragment.) -/
def jvStrList : List JVal → Option (List JStr)
  | [] => some []
  | .str s :: r => (jvStrList r).map (fun t => s :: t)
  | _ => none

/-- String-valued bindings of an object, same scoping note as `jvStrList`. -/
def jvStrPairs : List (JStr × JVal) → Option (List (JStr × JStr))
  | [] => some []
  | (k, .str s) :: r => (jvStrPairs r).map (fun t => (k, s) :: t)
  | _ => none

/-! #### Codex (src/clients/codex.ts, stored alongside vscode.ts) -/

/-- The section-name marker `mcp_servers.` of the Codex dialect. -/
def MCP_PRE : JStr := "mcp_servers.".data

/-- JS truthiness of a TOML-subset value: only the empty string is falsy
(arrays and tables are objects, hence truthy even when empty). -/
def tomlTruthy : TomlValue → Bool
  | .str s => decide (s ≠ [])
  | .arr _ => true
  | .table _ => true

/-- A server as admitted by the Codex read (src/clients/codex.ts lines
81-92).  The source casts `values.command as string` (and args/env
likewise) without conversion, so the fields keep their raw TOML values. -/
structure CodexServer where
  command : TomlValue
  args : Option TomlValue := none
  env : Option TomlValue := none
deriving DecidableEq, Repr

/-- One section of the `getCodexConfig` extraction loop: an
`mcp_servers.`-prefixed section whose `command` entry is present and truthy
is admitted under the name after the marker. -/
def codexStep (acc : List (JStr × CodexServer)) (p : JStr × TomlSection) :
    List (JStr × CodexServer) :=
  if MCP_PRE.isPrefixOf p.1 then
    match jget p.2 ("command".data) with
    | some cv =>
        if tomlTruthy cv then
          jset acc (p.1.drop MCP_PRE.length)
            ⟨cv, jget p.2 ("args".data), jget p.2 ("env".data)⟩
        else acc
    | none => acc
  else acc

/-- The extraction loop of `getCodexConfig` (src/clients/codex.ts lines
81-92). -/
def codexExtract (doc : TomlDoc) : List (JStr × CodexServer) :=
  doc.foldl codexStep []

/-- The section written for one merged server (src/clients/codex.ts lines
125-130): `command` always, `args`/`env` only when present (an empty array
or empty env object is truthy in JS and is kept).  A merged server with an
`undefined` command would make the source throw inside `stringifyValue`;
the embedding writes the empty string there and every theorem about this
function assumes the command is present. -/
def codexSectionOfServer (s : McpServer) : TomlSection :=
  [("command".data, TomlValue.str (s.command.getD []))] ++
    (match s.args with
     | some xs => [("args".data, TomlValue.arr xs)]
     | none => []) ++
    (match s.env with
     | some kvs => [("env".data, TomlValue.table kvs)]
     | none => [])

/-- The document rewrite inside `serializeCodexConfig` (src/clients/codex.ts
lines 118-131): delete every `mcp_servers.`-prefixed section (the remaining
sections keep their order), then append one fresh section per merged
server. -/
def codexTransform (existing : TomlDoc) (config : McpConfig) : TomlDoc :=
  let cleaned := existing.filter (fun p => !(MCP_PRE.isPrefixOf p.1))
  config.mcpServers.foldl
    (fun acc q => jset acc (MCP_PRE ++ q.1) (codexSectionOfServer q.2)) cleaned

/-- `serializeCodexConfig` (src/clients/codex.ts lines 112-134): parse the
existing text, rewrite the document, and print it. -/
def serializeCodexConfig (config : McpConfig) (existingContent : JStr) : JStr :=
  stringifyToml (codexTransform (parseToml existingContent) config)

/-! #### OpenCode (src/clients/opencode.ts) -/

/-- Is this entry tagged `type: "local"`? -/
def isLocalTagged (server : JVal) : Bool :=
  match jvGet server ("type".data) with
  | some (.str s) => decide (s = "local".data)
  | _ => false

/-- Is this entry tagged `type: "remote"`? -/
def isRemoteTagged (server : JVal) : Bool :=
  match jvGet server ("type".data) with
  | some (.str s) => decide (s = "remote".data)
  | _ => false

/-- `server.enabled === false` (strict equality, so only the boolean). -/
def isDisabledOc (server : JVal) : Bool :=
  match jvGet server ("enabled".data) with
  | some (.bool false) => true
  | _ => false

/-- The `environment` carried into the canonical entry:
`...(server.environment && { env: server.environment })`
(src/clients/opencode.ts line 57): absent or falsy environment is dropped,
an object of strings is kept; `none` in the outer `Option` marks a document
outside the embedded fragment (non-string values). -/
def ocEnvOf (server : JVal) : Option (Option (List (JStr × JStr))) :=
  match jvGet server ("environment".data) with
  | none => some none
  | some v =>
      if jvTruthy v then
        match v with
        | .obj kvs =>
            match jvStrPairs kvs with
            | some pairs => some (some pairs)
            | none => none
        | _ => none
      else some none

/-- The extraction loop of `getOpenCodeConfig` (src/clients/opencode.ts
lines 46-60): keep `local`-tagged, not-disabled entries; destructure
`const [command, ...args] = server.command` (so an empty array yields an
`undefined` command, which is still admitted); include `args` only when
non-empty and `env` only when the environment is truthy.  The outer `Option`
is `none` when the destructuring would throw (`command` not an array), which
the caller catches. -/
def ocExtractAux (acc : List (JStr × McpServer)) :
    List (JStr × JVal) → Option (List (JStr × McpServer))
  | [] => some acc
  | (name, server) :: r =>
      if !isLocalTagged server then ocExtractAux acc r
      else if isDisabledOc server then ocExtractAux acc r
      else
        match jvGet server ("command".data) with
        | some (.arr elems) =>
            (match jvStrList elems with
             | some cmds =>
                (match ocEnvOf server with
                 | some env =>
                    let args := cmds.drop 1
                    ocExtractAux
                      (jset acc name
                        { command := cmds.head?,
                          args := if args.length > 0 then some args else none,
                          env := env }) r
                 | none => none)
             | none => none)
        | _ => none

/-- `getOpenCodeConfig` (src/clients/opencode.ts lines 29-78) over a file
system: missing file is a not-exists descriptor; a thrown parse or
destructuring error is caught into an exists-but-null descriptor. -/
def getOpenCodeConfig (projectRoot : JStr) (fs : FS) : ClientConfig :=
  let configPath := jsJoin projectRoot (".opencode/opencode.jsonc".data)
  match fs configPath with
  | none => ⟨"OpenCode".data, configPath, none, false⟩
  | some content =>
      match parseJsonc content with
      | none => ⟨"OpenCode".data, configPath, none, true⟩
      | some parsed =>
          let mcpEntries :=
            match jvGet parsed ("mcp".data) with
            | some m => if jvTruthy m then jvEntries m else []
            | none => []
          match ocExtractAux [] mcpEntries with
          | some servers => ⟨"OpenCode".data, configPath, some ⟨servers⟩, true⟩
          | none => ⟨"OpenCode".data, configPath, none, true⟩

/-- The `local` entry written for one merged server
(src/clients/opencode.ts lines 98-103): `type`, rebuilt `command` array
`[command, ...args]`, and the environment when `env` is present (an empty
env object is truthy and kept).  As with Codex, an `undefined` command is a
source-level crash; the embedding writes the empty string and theorems
assume the command present. -/
def mcpServerToOc (server : McpServer) : JVal :=
  .obj ([("type".data, JVal.str ("local".data)),
         ("command".data,
           JVal.arr ((server.command.getD [] :: server.args.getD []).map JVal.str))] ++
    (match server.env with
     | some kvs =>
        [("environment".data, JVal.obj (kvs.map (fun p => (p.1, JVal.str p.2))))]
     | none => []))

/-- The `mcp` entries of a parsed OpenCode document (empty when `mcp` is
absent or falsy, src/clients/opencode.ts lines 48 and 87). -/
def ocMcpEntries (existing : JVal) : List (JStr × JVal) :=
  match jvGet existing ("mcp".data) with
  | some m => if jvTruthy m then jvEntries m else []
  | none => []

/-- The new `mcp` object the OpenCode serializer builds (src/clients/
opencode.ts lines 86-104): the `remote`-tagged entries of the existing
document, overlaid with one `local` entry per merged server (a same-named
merged server replaces the remote entry in place). -/
def ocNewMcp (existing : JVal) (config : McpConfig) : List (JStr × JVal) :=
  let remoteMcp := (ocMcpEntries existing).filter (fun p => isRemoteTagged p.2)
  config.mcpServers.foldl (fun acc q => jset acc q.1 (mcpServerToOc q.2)) remoteMcp

/-- The whole-document rewrite of the OpenCode serializer:
`{ ...existing, mcp: newMcp }`. -/
def ocTransform (existing : JVal) (config : McpConfig) : JVal :=
  JVal.obj (jset (jvSpread existing) ("mcp".data) (JVal.obj (ocNewMcp existing config)))

/-- `serializeOpenCodeConfig` (src/clients/opencode.ts lines 80-107): parse
the existing text (`none` models the thrown decode error, e.g. on empty
content), rewrite the document, and pretty-print with a trailing newline. -/
def serializeOpenCodeConfig (config : McpConfig) (existingContent : JStr) :
    Option JStr :=
  match parseJsonc existingContent with
  | none => none
  | some existing =>
      some (jsonStringify 0 (ocTransform existing config) ++ ['\n'])

/-! #### Plain-JSON adapters and the disabled clients -/

/-- The `mcpServers` the Claude Code adapter sees: `JSON.parse(content) as
McpConfig` performs no validation (src/clients/claude-code.ts, the
`unnamed/part_002` source), so the entries are whatever JSON was on disk. -/
def claudeServers (v : JVal) : Option (List (JStr × JVal)) :=
  match v with
  | .obj kvs =>
      (match jget kvs ("mcpServers".data) with
       | some (.obj ss) => some ss
       | _ => none)
  | _ => none

/-- `getGooseConfig` (src/clients/goose.ts lines 17-25, non-Windows path):
never reads the file; `config` is always null but `exists` mirrors
`existsSync`. -/
def gooseConfigPath (homedir : JStr) : JStr :=
  jsJoin homedir (".config/goose/config.yaml".data)

def getGooseConfig (homedir : JStr) (fs : FS) : ClientConfig :=
  ⟨"Goose".data, gooseConfigPath homedir, none, (fs (gooseConfigPath homedir)).isSome⟩

/-- VS Code's descriptor carries the raw picked `mcpServers` value (the
source casts it unvalidated into the canonical type). -/
structure VSClientConfig where
  name : JStr
  path : JStr
  config : Option JVal
  fileExists : Bool

def vscodeConfigPath (homedir : JStr) : JStr :=
  jsJoin homedir (".config/Code/User/settings.json".data)

/-- `getVSCodeConfig` (src/clients/vscode.ts lines 20-53, non-darwin,
non-win32 path): reads and parses the user `settings.json` and picks
`settings["mcp.servers"] || settings.mcpServers || {}`. -/
def getVSCodeConfig (homedir : JStr) (fs : FS) : VSClientConfig :=
  let configPath := vscodeConfigPath homedir
  match fs configPath with
  | none => ⟨"VS Code".data, configPath, none, false⟩
  | some content =>
      match jvParse content with
      | none => ⟨"VS Code".data, configPath, none, true⟩
      | some settings =>
          let w2 := jvGet settings ("mcpServers".data)
          let fallback : JVal :=
            match w2 with
            | some b => if jvTruthy b then b else .obj []
            | none => .obj []
          let pick : JVal :=
            match jvGet settings ("mcp.servers".data) with
            | some a => if jvTruthy a then a else fallback
            | none => fallback
          ⟨"VS Code".data, configPath, some pick, true⟩

/-! ### The orchestrator's sync loop (src/index.ts) -/

/-- The display names of the eight descriptors the run constructs
(src/index.ts lines 119-128; each adapter returns a fixed name).  Goose and
VS Code are not called. -/
def runClientNames : List JStr :=
  ["Cursor".data, "Claude Code".data, "Windsurf".data, "Cline".data,
   "Roo Code".data, "Gemini CLI".data, "Codex".data, "OpenCode".data]

/-- `hasChanges` of the sync loop (src/index.ts lines 192-199): a part is
pushed for a non-empty added list and for a non-empty removed list. -/
def hasChangesOf (client : ClientConfig) (merged : McpConfig) : Bool :=
  decide ((getChanges client merged).1 ≠ []) ||
    decide ((getChanges client merged).2 ≠ [])

/-- A JSON value for one canonical server, in the property order the
adapters build (`JSON.stringify` drops `undefined` properties, modelled by
omitting `none` fields). -/
def mcpServerToJVal (s : McpServer) : JVal :=
  .obj ((match s.command with
         | some c => [("command".data, JVal.str c)]
         | none => []) ++
    (match s.args with
     | some xs => [("args".data, JVal.arr (xs.map JVal.str))]
     | none => []) ++
    (match s.env with
     | some kvs => [("env".data, JVal.obj (kvs.map (fun p => (p.1, JVal.str p.2))))]
     | none => []) ++
    (match s.disabled with
     | some b => [("disabled".data, JVal.bool b)]
     | none => []))

/-- The canonical mapping as a JSON object. -/
def mcpServersToJVal (m : List (JStr × McpServer)) : JVal :=
  .obj (m.map (fun p => (p.1, mcpServerToJVal p.2)))

/-- The gemini write of the sync loop (src/index.ts lines 218-220):
`{ ...existing, mcpServers: merged.mcpServers }`. -/
def geminiTransform (existing : JVal) (merged : McpConfig) : JVal :=
  JVal.obj (jset (jvSpread existing) ("mcpServers".data)
    (mcpServersToJVal merged.mcpServers))

/-- The output the write phase produces for one client (src/index.ts lines
214-227): the Gemini settings object is re-serialised with `mcpServers`
replaced, Codex and OpenCode use their serializers, every other client is
overwritten with the pretty-printed merged config.  `none` models a thrown
error (unparsable Gemini settings or OpenCode serializer throw), in which
case no write happens. -/
def clientOutput (client : ClientConfig) (merged : McpConfig)
    (existingContent : JStr) : Option JStr :=
  if client.name = "Gemini CLI".data then
    (jvParse existingContent).map (fun existing =>
      jsonStringify 0 (geminiTransform existing merged) ++ ['\n'])
  else if client.name = "Codex".data then
    some (serializeCodexConfig merged existingContent)
  else if client.name = "OpenCode".data then
    serializeOpenCodeConfig merged existingContent
  else
    some (jsonStringify 0
      (JVal.obj [("mcpServers".data, mcpServersToJVal merged.mcpServers)]) ++ ['\n'])

/-- The client's file content after its sync-loop iteration (src/index.ts
lines 188-231): written only when not a dry run and a diff exists, otherwise
byte-identical. -/
def syncFileContent (dryRun : Bool) (client : ClientConfig) (merged : McpConfig)
    (existingContent : JStr) : JStr :=
  if dryRun = false ∧ hasChangesOf client merged = true then
    (clientOutput client merged existingContent).getD existingContent
  else existingContent

/-! ### Association-list lemmas for the adapters -/

theorem jget_jset_self {α : Type} (m : List (JStr × α)) (k : JStr) (v : α) :
    jget (jset m k v) k = some v := by
  induction m with
  | nil => simp [jget, jset]
  | cons p r ih =>
      by_cases h : p.1 = k
      · cases p; simp_all [jget, jset]
      · cases p; simp_all [jget, jset]

theorem jget_jset_ne {α : Type} (m : List (JStr × α)) (k k2 : JStr) (v : α)
    (h : k2 ≠ k) : jget (jset m k2 v) k = jget m k := by
  induction m with
  | nil => simp [jget, jset, h]
  | cons p r ih =>
      by_cases hp : p.1 = k2
      · cases p; simp_all [jget, jset]
      · cases p; simp_all [jget, jset]

theorem mem_jset {α : Type} (m : List (JStr × α)) (k : JStr) (v : α) :
    ∀ p ∈ jset m k v, p ∈ m ∨ p = (k, v) := by
  induction m with
  | nil => intro p hp; simp [jset] at hp; simp [hp]
  | cons q r ih =>
      intro p hp
      by_cases hq : q.1 = k
      · cases q
        simp only [jset] at hp
        rw [if_pos hq] at hp
        rcases List.mem_cons.1 hp with rfl | hpr
        · subst hq; exact Or.inr rfl
        · exact Or.inl (List.mem_cons_of_mem _ hpr)
      · cases q
        simp only [jset] at hp
        rw [if_neg hq] at hp
        rcases List.mem_cons.1 hp with rfl | hpr
        · exact Or.inl (List.mem_cons_self _ _)
        · rcases ih p hpr with h | h
          · exact Or.inl (List.mem_cons_of_mem _ h)
          · exact Or.inr h

theorem jget_eq_none_iff {α : Type} (m : List (JStr × α)) (k : JStr) :
    jget m k = none ↔ k ∉ jkeys m := by
  induction m with
  | nil => simp [jget, jkeys]
  | cons p r ih =>
      by_cases h : p.1 = k
      · simp only [jget, if_pos h, jkeys, List.map_cons, List.mem_cons]
        constructor
        · intro h1; exact absurd h1 (Option.some_ne_none _)
        · intro h1; exact absurd (Or.inl h.symm) h1
      · simp only [jget, if_neg h, jkeys, List.map_cons, List.mem_cons, ih]
        constructor
        · rintro h1 (h2 | h2)
          · exact h (h2.symm)
          · exact h1 h2
        · intro h1
          exact fun h2 => h1 (Or.inr h2)

/-- A fold of object assignments leaves keys it never assigns untouched. -/
theorem jget_foldl_jset {α β : Type} (f : β → α) (key : β → JStr)
    (l : List β) :
    ∀ (acc : List (JStr × α)) (k : JStr), (∀ b ∈ l, key b ≠ k) →
      jget (l.foldl (fun m b => jset m (key b) (f b)) acc) k = jget acc k := by
  induction l with
  | nil => intro acc k _; rfl
  | cons b r ih =>
      intro acc k h
      simp only [List.foldl_cons]
      rw [ih _ _ (fun b2 hb2 => h b2 (List.mem_cons_of_mem _ hb2)),
        jget_jset_ne _ _ _ _ (h b (List.mem_cons_self _ _))]

/-! ### C8: the write-skip gate -/

/-- C8: write-skip gate.  When the client's current config has exactly the
same set of server names as the merged config (content of same-named servers
may differ), `getChanges` returns two empty lists and the sync loop does not
write the file: its content stays byte-identical, regardless of the dry-run
flag. -/
theorem syncSkip_same_names (dryRun : Bool) (client : ClientConfig)
    (merged : McpConfig) (content : JStr)
    (h : ∀ n, n ∈ jkeys (clientServers client) ↔ n ∈ jkeys merged.mcpServers) :
    getChanges client merged = ([], [])
    ∧ syncFileContent dryRun client merged content = content := by
  have h1 : (getChanges client merged).1 = [] := by
    simp only [getChanges]
    rw [List.filter_eq_nil_iff]
    intro a ha
    have ham : a ∈ jkeys merged.mcpServers := ((mem_dedupAcc _ [] a).1 ha).1
    simp only [decide_eq_true_eq]
    intro hn
    exact hn ((h a).2 ham)
  have h2 : (getChanges client merged).2 = [] := by
    simp only [getChanges]
    rw [List.filter_eq_nil_iff]
    intro a ha
    have hac : a ∈ jkeys (clientServers client) := ((mem_dedupAcc _ [] a).1 ha).1
    simp only [decide_eq_true_eq]
    intro hn
    exact hn ((h a).1 hac)
  have hpair : getChanges client merged = ([], []) := by
    have : getChanges client merged =
        ((getChanges client merged).1, (getChanges client merged).2) := rfl
    rw [this, h1, h2]
  refine ⟨hpair, ?_⟩
  have hnc : hasChangesOf client merged = false := by
    simp [hasChangesOf, h1, h2]
  simp [syncFileContent, hnc]

/-- A client whose only server is `s1` with command `a`. -/
def clientS1 : ClientConfig :=
  ⟨"Cursor".data, "p".data, some ⟨[("s1".data, { command := some ("a".data) })]⟩, true⟩

/-- A merged config whose only server is `s1` with a different command. -/
def mergedS1 : McpConfig := ⟨[("s1".data, { command := some ("b".data) })]⟩

/-- Witness for C8: same name set, different content, nothing written. -/
theorem syncSkip_same_names_witness :
    getChanges clientS1 mergedS1 = ([], [])
    ∧ syncFileContent false clientS1 mergedS1 ("X".data) = "X".data :=
  syncSkip_same_names false clientS1 mergedS1 ("X".data) (fun _ => Iff.rfl)

/-! ### C10: the disabled clients -/

/-- A file system where only the goose config path (under home `h`) exists. -/
def fsGooseOnly : FS :=
  fun p => if p = gooseConfigPath ("h".data) then some ("x".data) else none

/-- Content of a VS Code `settings.json` declaring one MCP server (braces
written as escapes). -/
def vscodeSettingsContent : JStr :=
  "\x7b\"mcpServers\": \x7b\"s\": \x7b\"command\": \"npx\"\x7d\x7d\x7d".data

/-- A file system where only the VS Code settings path (under home `h`)
exists. -/
def fsVsOnly : FS :=
  fun p => if p = vscodeConfigPath ("h".data) then some vscodeSettingsContent else none

/-- Counterexample for C10: the disabled clients do not report
not-exists/no-config for every file-system state.  When the goose config
file exists, `getGooseConfig` reports `exists = true`; and when the user
`settings.json` exists and parses, `getVSCodeConfig` even returns a non-null
config. -/
theorem disabledStubs_counterexample :
    (getGooseConfig ("h".data) fsGooseOnly).fileExists = true
    ∧ (getVSCodeConfig ("h".data) fsVsOnly).config.isSome = true
    ∧ (getVSCodeConfig ("h".data) fsVsOnly).fileExists = true := by
  refine ⟨by decide, ?_, ?_⟩ <;> decide

/-- C10 (amended): the two disabled clients are excluded from the list of
descriptors the run constructs, and neither read ever yields a canonical
config from `run`'s point of view — but their descriptors are not constant:
`getGooseConfig` never reads the file and always returns a null config while
its `exists` flag mirrors the file's presence, and `getVSCodeConfig` returns
a null config (with `exists = false`) exactly in the missing-file case. -/
theorem disabledStubs_amended :
    ("Goose".data ∉ runClientNames)
    ∧ ("VS Code".data ∉ runClientNames)
    ∧ (∀ homedir fs, (getGooseConfig homedir fs).config = none
        ∧ (getGooseConfig homedir fs).fileExists = (fs (gooseConfigPath homedir)).isSome)
    ∧ (∀ homedir fs, fs (vscodeConfigPath homedir) = none →
        (getVSCodeConfig homedir fs).config = none
        ∧ (getVSCodeConfig homedir fs).fileExists = false) := by
  refine ⟨by decide, by decide, fun homedir fs => ⟨rfl, rfl⟩, fun homedir fs hmiss => ?_⟩
  simp [getVSCodeConfig, hmiss]

/-- Witness for C10 (amended) on an empty file system. -/
theorem disabledStubs_amended_witness :
    (getGooseConfig ("h".data) (fun _ => none)).config = none
    ∧ (getVSCodeConfig ("h".data) (fun _ => none)).config = none
    ∧ (getVSCodeConfig ("h".data) (fun _ => none)).fileExists = false := by
  have h := disabledStubs_amended
  exact ⟨(h.2.2.1 ("h".data) (fun _ => none)).1,
    (h.2.2.2 ("h".data) (fun _ => none) rfl).1,
    (h.2.2.2 ("h".data) (fun _ => none) rfl).2⟩

/-! ### C4: the non-empty-command invariant -/

theorem jvStrList_map_str (l : List JStr) : jvStrList (l.map JVal.str) = some l := by
  induction l with
  | nil => rfl
  | cons x r ih => simp [jvStrList, ih]

theorem jget_some_mem {α : Type} (m : List (JStr × α)) (k : JStr) (v : α)
    (h : jget m k = some v) : (k, v) ∈ m := by
  induction m with
  | nil => simp [jget] at h
  | cons p r ih =>
      by_cases hp : p.1 = k
      · rw [jget, if_pos hp] at h
        have : p = (k, v) := by
          cases p
          simp_all
        rw [← this]
        exact List.mem_cons_self _ _
      · rw [jget, if_neg hp] at h
        exact List.mem_cons_of_mem _ (ih h)

/-- Every server the Codex step admits has a truthy command. -/
theorem codexStep_truthy (acc : List (JStr × CodexServer)) (p : JStr × TomlSection)
    (hacc : ∀ q ∈ acc, tomlTruthy q.2.command = true) :
    ∀ q ∈ codexStep acc p, tomlTruthy q.2.command = true := by
  intro q hq
  by_cases hpre : MCP_PRE.isPrefixOf p.1
  · rw [codexStep, if_pos hpre] at hq
    split at hq
    · rename_i cv heq
      split at hq
      · rename_i ht
        rcases mem_jset _ _ _ q hq with h | h
        · exact hacc q h
        · rw [h]
          exact ht
      · exact hacc q hq
    · exact hacc q hq
  · rw [codexStep, if_neg hpre] at hq; exact hacc q hq

theorem codexExtract_truthy (doc : TomlDoc) :
    ∀ acc, (∀ q ∈ acc, tomlTruthy q.2.command = true) →
      ∀ q ∈ doc.foldl codexStep acc, tomlTruthy q.2.command = true := by
  induction doc with
  | nil => intro acc hacc q hq; exact hacc q hq
  | cons p r ih =>
      intro acc hacc q hq
      exact ih _ (codexStep_truthy acc p hacc) q hq

/-- A `local`-tagged OpenCode entry with the given command array. -/
def ocLocalEntry (cmds : List JStr) : JVal :=
  .obj [("type".data, JVal.str ("local".data)),
        ("command".data, JVal.arr (cmds.map JVal.str))]

/-- The OpenCode config file content of the C4 counterexample: a
`local`-tagged server `x` whose `command` array is empty. -/
def ocEmptyCmdContent : JStr :=
  "\x7b\"mcp\":\x7b\"x\":\x7b\"type\":\"local\",\"command\":[]\x7d\x7d\x7d".data

/-- A file system holding only that OpenCode config under project root
`root`. -/
def fsOcEmptyCmd : FS :=
  fun p => if p = jsJoin ("root".data) (".opencode/opencode.jsonc".data) then
    some ocEmptyCmdContent else none

/-- Counterexample for C4: this OpenCode read succeeds (the descriptor's
config is non-null), yet the admitted server `x` has no command at all
(`command = none`, the JS `undefined` produced by destructuring the empty
on-disk `command` array) — the entry is not dropped. -/
theorem nonEmptyCommand_counterexample :
    (getOpenCodeConfig ("root".data) fsOcEmptyCmd).fileExists = true
    ∧ (getOpenCodeConfig ("root".data) fsOcEmptyCmd).config =
        some ⟨[("x".data, { command := none })]⟩ := by
  exact ⟨by decide, by decide⟩

/-- C4 (amended): only the Codex adapter enforces the command guard — every
server its extraction admits has a truthy `command` value, and on strings
truthiness is exactly non-emptiness (non-string TOML values such as arrays
pass the guard as-is).  The OpenCode adapter admits a `local` entry even when
its command array is empty, taking `command` to be the array's head (so
`undefined`/`none` when empty), and the plain-JSON adapters admit the parsed
`mcpServers` entries verbatim with no command validation at all. -/
theorem nonEmptyCommand_amended :
    (∀ doc name s, (name, s) ∈ codexExtract doc → tomlTruthy s.command = true)
    ∧ (∀ c : JStr, tomlTruthy (TomlValue.str c) = true ↔ c ≠ [])
    ∧ (∀ name (cmds : List JStr) acc,
        ocExtractAux acc [(name, ocLocalEntry cmds)] =
          some (jset acc name
            { command := cmds.head?,
              args := if (cmds.drop 1).length > 0 then some (cmds.drop 1) else none }))
    ∧ (∀ ss, claudeServers (JVal.obj [("mcpServers".data, JVal.obj ss)]) = some ss) := by
  refine ⟨?_, ?_, ?_, ?_⟩
  · intro doc name srv h
    exact codexExtract_truthy doc [] (by intro q hq; simp at hq) (name, srv) h
  · intro c; simp [tomlTruthy]
  · intro name cmds acc
    simp [ocExtractAux, ocLocalEntry, isLocalTagged, isDisabledOc, jvGet, jget,
      ocEnvOf, jvStrList_map_str]
  · intro ss; rfl

/-- Witness for C4 (amended) at a concrete Codex document and OpenCode
entry. -/
theorem nonEmptyCommand_amended_witness :
    tomlTruthy
      (({ command := TomlValue.str ("npx".data) } : CodexServer)).command = true
    ∧ ocExtractAux [] [("x".data, ocLocalEntry ["npx".data])] =
        some [("x".data, { command := some ("npx".data) })] := by
  have h := nonEmptyCommand_amended
  refine ⟨?_, ?_⟩
  · exact h.1 [("mcp_servers.x".data, [("command".data, TomlValue.str ("npx".data))])]
      ("x".data) { command := TomlValue.str ("npx".data) } (by decide)
  · have h3 := h.2.2.1 ("x".data) ["npx".data] []
    simpa using h3

/-! ### C6: non-destructive writes -/

theorem jget_jvSpread (v : JVal) (k : JStr) : jget (jvSpread v) k = jvGet v k := by
  cases v <;> rfl

theorem isPrefixOf_append_self (a b : JStr) : a.isPrefixOf (a ++ b) = true := by
  induction a with
  | nil => simp [List.isPrefixOf]
  | cons x xs ih => simp [List.isPrefixOf, ih]

theorem jget_filterKeys {α : Type} (p : JStr → Bool) (m : List (JStr × α))
    (k : JStr) (hp : p k = true) :
    jget (m.filter (fun q => p q.1)) k = jget m k := by
  induction m with
  | nil => rfl
  | cons q r ih =>
      obtain ⟨qk, qv⟩ := q
      by_cases hq : qk = k
      · subst hq
        rw [List.filter_cons_of_pos (by simpa using hp)]
        simp [jget]
      · by_cases hkeep : p qk = true
        · rw [List.filter_cons_of_pos (by simpa using hkeep)]
          simp only [jget, if_neg hq, ih]
        · rw [List.filter_cons_of_neg (by simpa using hkeep)]
          simp only [jget, if_neg hq, ih]

/-- C6: non-destructive write, at the level of the documents the three
writers serialize (their text output is `JSON.stringify`, respectively
`stringifyToml`, of these rewritten documents): the settings-embedded
(Gemini) rewrite preserves every top-level key other than `mcpServers`, the
JSONC (OpenCode) rewrite preserves every top-level key other than `mcp`, and
the section-based (Codex) rewrite preserves every section not carrying the
`mcp_servers.` marker. -/
theorem nonDestructiveWrite (exG exO : JVal) (exC : TomlDoc) (merged : McpConfig)
    (k sec : JStr) :
    (k ≠ "mcpServers".data → jvGet (geminiTransform exG merged) k = jvGet exG k)
    ∧ (k ≠ "mcp".data → jvGet (ocTransform exO merged) k = jvGet exO k)
    ∧ (MCP_PRE.isPrefixOf sec = false →
        jget (codexTransform exC merged) sec = jget exC sec) := by
  refine ⟨?_, ?_, ?_⟩
  · intro hk
    show jget (jset (jvSpread exG) ("mcpServers".data) _) k = _
    rw [jget_jset_ne _ _ _ _ (fun h => hk h.symm), jget_jvSpread]
  · intro hk
    show jget (jset (jvSpread exO) ("mcp".data) _) k = _
    rw [jget_jset_ne _ _ _ _ (fun h => hk h.symm), jget_jvSpread]
  · intro hsec
    show jget (merged.mcpServers.foldl _ _) sec = _
    rw [jget_foldl_jset (fun q => codexSectionOfServer q.2) (fun q => MCP_PRE ++ q.1)
      merged.mcpServers _ sec ?_]
    · refine jget_filterKeys (fun x => !(MCP_PRE.isPrefixOf x)) exC sec ?_
      show (!(MCP_PRE.isPrefixOf sec)) = true
      rw [hsec]
      rfl
    · intro q _ hq
      rw [← hq] at hsec
      rw [isPrefixOf_append_self] at hsec
      exact absurd hsec (by simp)

/-- Witness for C6 at a concrete settings object with an unrelated key. -/
theorem nonDestructiveWrite_witness :
    jvGet (geminiTransform (JVal.obj [("theme".data, JVal.str ("dark".data))]) ⟨[]⟩)
        ("theme".data) = some (JVal.str ("dark".data))
    ∧ jget (codexTransform [("other".data, [])] ⟨[]⟩) ("other".data) = some [] := by
  have h := nonDestructiveWrite (JVal.obj [("theme".data, JVal.str ("dark".data))])
    (JVal.obj []) [("other".data, [])] ⟨[]⟩ ("theme".data) ("other".data)
  refine ⟨?_, ?_⟩
  · rw [h.1 (by decide)]; rfl
  · rw [h.2.2 (by decide)]; rfl

/-! ### C7: the OpenCode serializer -/

theorem jget_foldl_jset_mem {α β : Type} (f : β → α) (key : β → JStr)
    (l : List β) :
    ∀ (acc : List (JStr × α)) (k : JStr) (b : β), (l.map key).Nodup → b ∈ l →
      key b = k →
      jget (l.foldl (fun m q => jset m (key q) (f q)) acc) k = some (f b) := by
  induction l with
  | nil => intro acc k b _ hb; exact absurd hb (List.not_mem_nil b)
  | cons q r ih =>
      intro acc k b hnd hb hkey
      have hnd2 : key q ∉ List.map key r ∧ (List.map key r).Nodup := by
        rw [List.map_cons, List.nodup_cons] at hnd
        exact hnd
      simp only [List.foldl_cons]
      rcases List.mem_cons.1 hb with rfl | hbr
      · have hnot : ∀ b2 ∈ r, key b2 ≠ k := by
          intro b2 hb2 hk2
          rw [← hkey] at hk2
          exact hnd2.1 (hk2 ▸ List.mem_map_of_mem key hb2)
        rw [jget_foldl_jset f key r _ k hnot, hkey, jget_jset_self]
      · exact ih _ k b hnd2.2 hbr hkey

/-- A `remote`-tagged entry with a URL, as parsed from an existing OpenCode
document. -/
def remoteEntryR : JVal :=
  .obj [("type".data, JVal.str ("remote".data)),
        ("url".data, JVal.str ("https://example.com/mcp".data))]

/-- An existing OpenCode document whose only `mcp` entry is the remote
server `r`. -/
def ocExistingR : JVal := .obj [("mcp".data, JVal.obj [("r".data, remoteEntryR)])]

/-- A merged config that also defines a server named `r`. -/
def cfgLocalR : McpConfig := ⟨[("r".data, { command := some ("x".data) })]⟩

/-- Counterexample for C7: when the merged mapping defines a server with the
same name as a `remote`-tagged entry of the existing document, the serializer
overwrites the remote entry with the rebuilt `local` entry — the remote entry
is not preserved under its name. -/
theorem ocRemotePreserved_counterexample :
    isRemoteTagged remoteEntryR = true
    ∧ jget (ocNewMcp ocExistingR cfgLocalR) ("r".data) =
        some (mcpServerToOc { command := some ("x".data) })
    ∧ isRemoteTagged (mcpServerToOc { command := some ("x".data) }) = false := by
  exact ⟨rfl, rfl, rfl⟩

/-- C7 (amended): in the OpenCode serializer's new `mcp` object, every
`remote`-tagged entry of the existing document whose name the merged mapping
does not define is preserved verbatim, and every merged server (names being
unique) is written under its name as the rebuilt entry: `type` is `local`,
`command` is the array `[command, ...args]`, and the environment map is
carried exactly when `env` is present.  A merged server that shares a name
with a remote entry replaces it. -/
theorem ocSerialize_amended (existing : JVal) (config : McpConfig) (name : JStr) :
    (∀ s, jget ((ocMcpEntries existing).filter (fun p => isRemoteTagged p.2)) name
          = some s →
        jget config.mcpServers name = none →
        jget (ocNewMcp existing config) name = some s)
    ∧ ((jkeys config.mcpServers).Nodup →
        ∀ srv, jget config.mcpServers name = some srv →
          jget (ocNewMcp existing config) name = some (mcpServerToOc srv))
    ∧ (∀ srv : McpServer, jvGet (mcpServerToOc srv) ("type".data) =
        some (JVal.str ("local".data)))
    ∧ (∀ srv : McpServer, jvGet (mcpServerToOc srv) ("command".data) =
        some (JVal.arr ((srv.command.getD [] :: srv.args.getD []).map JVal.str)))
    ∧ (∀ (srv : McpServer) kvs, srv.env = some kvs →
        jvGet (mcpServerToOc srv) ("environment".data) =
          some (JVal.obj (kvs.map (fun p => (p.1, JVal.str p.2)))))
    ∧ (∀ srv : McpServer, srv.env = none →
        jvGet (mcpServerToOc srv) ("environment".data) = none) := by
  refine ⟨?_, ?_, ?_, ?_, ?_, ?_⟩
  · intro s hs hnone
    show jget (config.mcpServers.foldl _ _) name = some s
    rw [jget_foldl_jset (fun q => mcpServerToOc q.2) (fun q => q.1)
      config.mcpServers _ name ?_]
    · exact hs
    · intro q hq hqk
      have := (jget_eq_none_iff config.mcpServers name).1 hnone
      exact this (hqk ▸ List.mem_map_of_mem Prod.fst hq)
  · intro hnd srv hsrv
    show jget (config.mcpServers.foldl _ _) name = _
    have hnd2 : (config.mcpServers.map Prod.fst).Nodup := hnd
    exact jget_foldl_jset_mem (fun q => mcpServerToOc q.2) Prod.fst
      config.mcpServers _ name (name, srv) hnd2 (jget_some_mem _ _ _ hsrv) rfl
  · intro srv; rfl
  · intro srv; rfl
  · intro srv kvs h
    simp [mcpServerToOc, jvGet, jget, h]
  · intro srv h
    simp [mcpServerToOc, jvGet, jget, h]

/-- Witness for C7 (amended): a remote entry under a fresh name survives and
a merged server appears as its rebuilt `local` entry. -/
theorem ocSerialize_amended_witness :
    jget (ocNewMcp ocExistingR ⟨[("new".data, { command := some ("npx".data) })]⟩)
        ("r".data) = some remoteEntryR
    ∧ jget (ocNewMcp ocExistingR ⟨[("new".data, { command := some ("npx".data) })]⟩)
        ("new".data) = some (mcpServerToOc { command := some ("npx".data) }) := by
  have h := ocSerialize_amended ocExistingR
    ⟨[("new".data, { command := some ("npx".data) })]⟩
  refine ⟨?_, ?_⟩
  · exact (h ("r".data)).1 remoteEntryR rfl rfl
  · exact (h ("new".data)).2.1 (by decide) { command := some ("npx".data) } rfl

/-! ### C9: comment stripping -/

theorem takeWhile_append_all (p : Char → Bool) (l : List Char) (d : Char)
    (rest : List Char) (hl : ∀ c ∈ l, p c = true) (hd : p d = false) :
    List.takeWhile p (l ++ d :: rest) = l := by
  induction l with
  | nil => simp [List.takeWhile_cons, hd]
  | cons a t ih =>
      have ha : p a = true := hl a (List.mem_cons_self _ _)
      rw [List.cons_append, List.takeWhile_cons, ha,
        ih (fun c hc => hl c (List.mem_cons_of_mem _ hc)), if_pos rfl]

theorem dropWhile_append_all (p : Char → Bool) (l : List Char) (d : Char)
    (rest : List Char) (hl : ∀ c ∈ l, p c = true) (hd : p d = false) :
    List.dropWhile p (l ++ d :: rest) = d :: rest := by
  induction l with
  | nil => simp [List.dropWhile_cons, hd]
  | cons a t ih =>
      have ha : p a = true := hl a (List.mem_cons_self _ _)
      rw [List.cons_append, List.dropWhile_cons, if_pos ha]
      exact ih (fun c hc => hl c (List.mem_cons_of_mem _ hc))

theorem dropWhile_all (p : Char → Bool) (l : List Char)
    (hl : ∀ c ∈ l, p c = true) : List.dropWhile p l = [] := by
  induction l with
  | nil => rfl
  | cons a t ih =>
      rw [List.dropWhile_cons, if_pos (hl a (List.mem_cons_self _ _))]
      exact ih (fun c hc => hl c (List.mem_cons_of_mem _ hc))

/-- Does the text contain a `*/` pair (at any position)?  `blockSkip` stops
at the first one. -/
def hasCloser : List Char → Bool
  | [] => false
  | [_] => false
  | a :: b :: r => if a = '*' ∧ b = '/' then true else hasCloser (b :: r)

theorem hasCloser_cons_false (a : Char) (r : List Char)
    (h : hasCloser (a :: r) = false) : hasCloser r = false := by
  cases r with
  | nil => rfl
  | cons b r2 =>
      rw [hasCloser] at h
      by_cases hab : a = '*' ∧ b = '/'
      · rw [if_pos hab] at h; exact absurd h (by simp)
      · rw [if_neg hab] at h; exact h

theorem blockSkip_append (l rest : List Char) (h : hasCloser l = false) :
    blockSkip (l ++ '*' :: '/' :: rest) = rest := by
  induction l with
  | nil => simp [blockSkip]
  | cons a t ih =>
      cases t with
      | nil =>
          show blockSkip (a :: '*' :: '/' :: rest) = rest
          rw [blockSkip]
          by_cases hab : a = '*' ∧ '*' = '/'
          · exact absurd hab.2 (by decide)
          · rw [if_neg hab]
            simp [blockSkip]
      | cons b t2 =>
          show blockSkip (a :: b :: (t2 ++ '*' :: '/' :: rest)) = rest
          have hab : ¬ (a = '*' ∧ b = '/') := by
            intro hc
            rw [hasCloser, if_pos hc] at h
            exact absurd h (by simp)
          rw [blockSkip, if_neg hab]
          exact ih (hasCloser_cons_false a (b :: t2) h)

theorem blockSkip_noCloser (l : List Char) (h : hasCloser l = false) :
    blockSkip l = [] := by
  induction l with
  | nil => rfl
  | cons a t ih =>
      cases t with
      | nil => rfl
      | cons b t2 =>
          have hab : ¬ (a = '*' ∧ b = '/') := by
            intro hc
            rw [hasCloser, if_pos hc] at h
            exact absurd h (by simp)
          rw [blockSkip, if_neg hab]
          exact ih (hasCloser_cons_false a (b :: t2) h)

/-- Unfolding `stripAux` at an ordinary character (neither a quote nor a
slash): it is copied and the state is carried. -/
theorem stripAux_cons_plain (prev : Option Char) (inStr : Bool) (c : Char)
    (rest : List Char) (h1 : c ≠ '"') (h2 : c ≠ '/') :
    stripAux prev inStr (c :: rest) = c :: stripAux (some c) inStr rest := by
  have k1 : ¬ (c = '"' ∧ prev ≠ some '\\') := fun h => h1 h.1
  have k2 : ¬ (inStr = false ∧ c = '/' ∧ rest.head? = some '/') := fun h => h2 h.2.1
  have k3 : ¬ (inStr = false ∧ c = '/' ∧ rest.head? = some '*') := fun h => h2 h.2.1
  rw [stripAux_cons, if_neg k1, if_neg k2, if_neg k3]

/-- C9: the comment handling of `parseJsonc`'s scanning phase (`stripAux`,
the character loop of src/parsers/jsonc.ts; `parseJsonc` is
`jvParse ∘ cleanCommas ∘ stripAux none false`).  Outside string literals
(`inStr = false`): a `//` comment is removed up to (not including) the line
break, and one that never meets a line break consumes to end of input; a
`/*...*/` comment is removed up to and including the first `*/`, and one that
never closes consumes to end of input.  In all four cases the right-hand side
does not depend on the comment body `l` and continues outside a string
literal, so quote characters inside the removed comment do not toggle the
string state used for the remaining text.  Inside a string literal
(`inStr = true`), a `/` is always copied — so `//` and `/*` inside string
literals are never treated as comments. -/
theorem parseJsonc_comment_stripping :
    (∀ prev (l rest : List Char), (∀ c ∈ l, notNl c = true) →
        stripAux prev false ('/' :: '/' :: (l ++ '\n' :: rest)) =
          '\n' :: stripAux (some '\n') false rest)
    ∧ (∀ prev (l : List Char), (∀ c ∈ l, notNl c = true) →
        stripAux prev false ('/' :: '/' :: l) = [])
    ∧ (∀ prev (l rest : List Char), hasCloser l = false →
        stripAux prev false ('/' :: '*' :: (l ++ '*' :: '/' :: rest)) =
          stripAux (some '/') false rest)
    ∧ (∀ prev (l : List Char), hasCloser l = false →
        stripAux prev false ('/' :: '*' :: l) = [])
    ∧ (∀ prev (rest : List Char), stripAux prev true ('/' :: rest) =
        '/' :: stripAux (some '/') true rest) := by
  have hq : ∀ (prev : Option Char), ¬ ('/' = '"' ∧ prev ≠ some '\\') :=
    fun prev h => absurd h.1 (by decide)
  have hall2 : ∀ (l : List Char), (∀ c ∈ l, notNl c = true) →
      ∀ c ∈ '/' :: '/' :: l, notNl c = true := by
    intro l hl c hc
    rcases List.mem_cons.1 hc with rfl | hc2
    · rfl
    · rcases List.mem_cons.1 hc2 with rfl | hc3
      · rfl
      · exact hl c hc3
  refine ⟨?_, ?_, ?_, ?_, ?_⟩
  · intro prev l rest hl
    have k2 : (false = false ∧ ('/' : Char) = '/' ∧
        ('/' :: (l ++ '\n' :: rest)).head? = some '/') := ⟨rfl, rfl, rfl⟩
    rw [stripAux_cons, if_neg (hq prev), if_pos k2]
    have hdw : List.dropWhile notNl ('/' :: '/' :: (l ++ '\n' :: rest)) =
        '\n' :: rest := by
      show List.dropWhile notNl (('/' :: '/' :: l) ++ '\n' :: rest) = '\n' :: rest
      exact dropWhile_append_all notNl ('/' :: '/' :: l) '\n' rest (hall2 l hl)
        (by decide)
    rw [hdw, stripAux_cons_plain _ false '\n' rest (by decide) (by decide)]
  · intro prev l hl
    have k2 : (false = false ∧ ('/' : Char) = '/' ∧
        ('/' :: l).head? = some '/') := ⟨rfl, rfl, rfl⟩
    rw [stripAux_cons, if_neg (hq prev), if_pos k2]
    have hdw : List.dropWhile notNl ('/' :: '/' :: l) = [] :=
      dropWhile_all notNl _ (hall2 l hl)
    rw [hdw, stripAux_nil]
  · intro prev l rest hl
    have k2 : ¬ (false = false ∧ ('/' : Char) = '/' ∧
        ('*' :: (l ++ '*' :: '/' :: rest)).head? = some '/') := by
      intro h
      have h3 := h.2.2
      rw [List.head?_cons] at h3
      exact absurd (Option.some.inj h3) (by decide)
    have k3 : (false = false ∧ ('/' : Char) = '/' ∧
        ('*' :: (l ++ '*' :: '/' :: rest)).head? = some '*') := ⟨rfl, rfl, rfl⟩
    rw [stripAux_cons, if_neg (hq prev), if_neg k2, if_pos k3]
    show stripAux (some '/') false (blockSkip (l ++ '*' :: '/' :: rest)) = _
    rw [blockSkip_append l rest hl]
  · intro prev l hl
    have k2 : ¬ (false = false ∧ ('/' : Char) = '/' ∧
        ('*' :: l).head? = some '/') := by
      intro h
      have h3 := h.2.2
      rw [List.head?_cons] at h3
      exact absurd (Option.some.inj h3) (by decide)
    have k3 : (false = false ∧ ('/' : Char) = '/' ∧
        ('*' :: l).head? = some '*') := ⟨rfl, rfl, rfl⟩
    rw [stripAux_cons, if_neg (hq prev), if_neg k2, if_pos k3]
    show stripAux (some '/') false (blockSkip l) = _
    rw [blockSkip_noCloser l hl, stripAux_nil]
  · intro prev rest
    have k2 : ¬ (true = false ∧ ('/' : Char) = '/' ∧ rest.head? = some '/') :=
      fun h => absurd h.1 (by decide)
    have k3 : ¬ (true = false ∧ ('/' : Char) = '/' ∧ rest.head? = some '*') :=
      fun h => absurd h.1 (by decide)
    rw [stripAux_cons, if_neg (hq prev), if_neg k2, if_neg k3]

/-- Witness for C9 at concrete inputs: a line comment holding a quote, an
unterminated block comment, and a comment-start inside a string literal. -/
theorem parseJsonc_comment_stripping_witness :
    stripAux none false ('/' :: '/' :: ('a' :: '"' :: 'b' :: [] ++ '\n' :: ['x']))
      = '\n' :: stripAux (some '\n') false ['x']
    ∧ stripAux none false ('/' :: '*' :: ['a', '"']) = []
    ∧ stripAux none true ('/' :: ['/', 'z']) = '/' :: stripAux (some '/') true ['/', 'z'] := by
  have h := parseJsonc_comment_stripping
  exact ⟨h.1 none ['a', '"', 'b'] ['x'] (by decide),
    h.2.2.2.1 none ['a', '"'] (by decide),
    h.2.2.2.2 none ['/', 'z']⟩

/-! ### C5: round trips — base lemmas -/

theorem jsTrim_eq_self (cs : List Char)
    (h1 : ∀ c, cs.head? = some c → isWsJs c = false)
    (h2 : ∀ c, cs.getLast? = some c → isWsJs c = false) : jsTrim cs = cs := by
  cases cs with
  | nil => rfl
  | cons a t =>
      unfold jsTrim
      rw [List.dropWhile_cons, if_neg (by rw [h1 a rfl]; simp)]
      cases hrev : (a :: t).reverse with
      | nil => exact absurd hrev (by simp)
      | cons b rb =>
          have hb : (a :: t).getLast? = some b := by
            rw [← List.head?_reverse, hrev]
            rfl
          rw [List.dropWhile_cons, if_neg (by rw [h2 b hb]; simp), ← hrev,
            List.reverse_reverse]

theorem splitOnChar_ne_nil (sep : Char) (cs : List Char) :
    splitOnChar sep cs ≠ [] := by
  cases cs with
  | nil => simp [splitOnChar]
  | cons c r =>
      rw [splitOnChar]
      cases splitOnChar sep r with
      | nil => simp
      | cons l ls => by_cases h : c = sep <;> simp [h]

theorem splitOnChar_no_sep (sep : Char) (cs : List Char) (h : sep ∉ cs) :
    splitOnChar sep cs = [cs] := by
  induction cs with
  | nil => rfl
  | cons c r ih =>
      have hc : c ≠ sep := fun hcc => h (hcc ▸ List.mem_cons_self _ _)
      have hr : sep ∉ r := fun hrr => h (List.mem_cons_of_mem _ hrr)
      rw [splitOnChar, ih hr]
      show (if c = sep then ([] : JStr) :: [r] else (c :: r) :: ([] : List JStr))
        = [c :: r]
      rw [if_neg hc]

theorem splitOnChar_append (sep : Char) (x rest : List Char) (h : sep ∉ x) :
    splitOnChar sep (x ++ sep :: rest) = x :: splitOnChar sep rest := by
  induction x with
  | nil =>
      rw [List.nil_append, splitOnChar]
      cases hs : splitOnChar sep rest with
      | nil => exact absurd hs (splitOnChar_ne_nil sep rest)
      | cons l ls =>
          show (if sep = sep then ([] : JStr) :: l :: ls
            else (sep :: l) :: ls) = [] :: l :: ls
          rw [if_pos rfl]
  | cons c t ih =>
      have hc : c ≠ sep := fun hcc => h (hcc ▸ List.mem_cons_self _ _)
      have ht : sep ∉ t := fun htt => h (List.mem_cons_of_mem _ htt)
      rw [List.cons_append, splitOnChar, ih ht]
      show (if c = sep then ([] : JStr) :: t :: splitOnChar sep rest
        else (c :: t) :: splitOnChar sep rest) = (c :: t) :: splitOnChar sep rest
      rw [if_neg hc]

/-- Assignment of a fresh key appends the binding. -/
theorem jset_append_fresh {α : Type} (m : List (JStr × α)) (k : JStr) (v : α)
    (h : k ∉ jkeys m) : jset m k v = m ++ [(k, v)] := by
  induction m with
  | nil => rfl
  | cons p r ih =>
      have hp : p.1 ≠ k := by
        intro hpk
        exact h (hpk ▸ List.mem_cons_self _ _)
      cases p
      rw [jset, if_neg hp, ih (fun hk => h (List.mem_cons_of_mem _ hk)), List.cons_append]

/-- Folding fresh assignments over an empty-keyed accumulator builds the
binding list in order. -/
theorem foldl_jset_map {α β : Type} (f : β → α) (key : β → JStr) (l : List β) :
    ∀ (acc : List (JStr × α)), (l.map key).Nodup →
      (∀ b ∈ l, key b ∉ jkeys acc) →
      l.foldl (fun m q => jset m (key q) (f q)) acc =
        acc ++ l.map (fun q => (key q, f q)) := by
  induction l with
  | nil => intro acc _ _; simp
  | cons b r ih =>
      intro acc hnd hfresh
      rw [List.map_cons, List.nodup_cons] at hnd
      simp only [List.foldl_cons]
      rw [jset_append_fresh acc (key b) (f b) (hfresh b (List.mem_cons_self _ _))]
      rw [ih (acc ++ [(key b, f b)]) hnd.2 ?_]
      · simp
      · intro q hq
        simp only [jkeys, List.map_append, List.mem_append]
        rintro (hk | hk)
        · exact hfresh q (List.mem_cons_of_mem _ hq) hk
        · simp only [List.map_cons, List.map_nil, List.mem_singleton] at hk
          exact hnd.1 (hk ▸ List.mem_map_of_mem key hq)

theorem getLast?_bracket (sec : JStr) :
    ('[' :: (sec ++ [']'])).getLast? = some ']' := by
  rw [show '[' :: (sec ++ [']']) = ('[' :: sec) ++ [']'] from rfl]
  exact List.getLast?_concat _

/-- Word characters are not whitespace, `[`, `#`, `"`, line breaks, commas,
or quotes — the separations the TOML round trip leans on. -/
theorem isWordChar_props (c : Char) (h : isWordChar c = true) :
    isWsJs c = false ∧ c ≠ '[' ∧ c ≠ '#' ∧ c ≠ '"' ∧ notNl c = true ∧ c ≠ ',' := by
  have halpha := h
  refine ⟨?_, ?_, ?_, ?_, ?_, ?_⟩
  · by_contra hws
    have hws2 : isWsJs c = true := by
      cases hx : isWsJs c
      · exact absurd hx hws
      · rfl
    simp only [isWsJs, Bool.or_eq_true, decide_eq_true_eq] at hws2
    rcases hws2 with ((((h1 | h1) | h1) | h1) | h1) | h1 <;>
      (subst h1; exact absurd halpha (by decide))
  · intro h1; subst h1; exact absurd halpha (by decide)
  · intro h1; subst h1; exact absurd halpha (by decide)
  · intro h1; subst h1; exact absurd halpha (by decide)
  · simp only [notNl, Bool.and_eq_true, decide_eq_true_eq]
    constructor
    · intro h1; subst h1; exact absurd halpha (by decide)
    · intro h1; subst h1; exact absurd halpha (by decide)
  · intro h1; subst h1; exact absurd halpha (by decide)

/-! ### C5: TOML value round trips -/

/-- Well-formedness of one serialized array element: non-blank, trim-stable,
quote-free, line-break free, and not ending in a backslash — exactly what the
hand-rolled scanner needs to reproduce it. -/
def okArg (x : JStr) : Prop :=
  x ≠ [] ∧ '"' ∉ x ∧ '\n' ∉ x ∧ '\r' ∉ x ∧ jsTrim x = x ∧ x.getLast? ≠ some '\\'

/-- Well-formedness of one env binding: a non-empty word-character key and a
value free of quotes, commas and line breaks. -/
def okEnvPair (p : JStr × JStr) : Prop :=
  p.1 ≠ [] ∧ (∀ c ∈ p.1, isWordChar c = true) ∧
    '"' ∉ p.2 ∧ ',' ∉ p.2 ∧ '\n' ∉ p.2 ∧ '\r' ∉ p.2

/-- Well-formedness of a TOML value for the round trip. -/
def okTomlValue : TomlValue → Prop
  | .str c => '\n' ∉ c ∧ '\r' ∉ c
  | .arr xs => ∀ x ∈ xs, okArg x
  | .table kvs => (kvs.map Prod.fst).Nodup ∧ ∀ p ∈ kvs, okEnvPair p

/-- The previous character after scanning `x`, when `x` adds nothing. -/
def lastOrPrev (x : JStr) (prev : Option Char) : Option Char :=
  match x.getLast? with
  | some c => some c
  | none => prev

/-- Unfolding `parseArrayScan` on a quote character. -/
theorem parseArrayScan_quote (prev : Option Char) (inStr : Bool) (cur : JStr)
    (r : List Char) (h : prev ≠ some '\\') :
    parseArrayScan prev inStr cur ('"' :: r) =
      parseArrayScan (some '"') (!inStr) cur r := by
  have k1 : (('"' : Char) = '"' ∧ prev ≠ some '\\') := ⟨rfl, h⟩
  rw [parseArrayScan, if_pos k1]

/-- Unfolding `parseArrayScan` on an in-string ordinary character. -/
theorem parseArrayScan_inStr (prev : Option Char) (cur : JStr) (c : Char)
    (r : List Char) (h : c ≠ '"') :
    parseArrayScan prev true cur (c :: r) =
      parseArrayScan (some c) true (cur ++ [c]) r := by
  have k1 : ¬ (c = '"' ∧ prev ≠ some '\\') := fun hx => h hx.1
  have k2 : ¬ (c = ',' ∧ true = false) := fun hx => absurd hx.2 (by decide)
  have k3 : ¬ (true = false ∧ (c = ' ' ∨ c = '\t')) := fun hx => absurd hx.1 (by decide)
  rw [parseArrayScan, if_neg k1, if_neg k2, if_neg k3]

/-- Unfolding `parseArrayScan` on a top-level comma. -/
theorem parseArrayScan_comma (prev : Option Char) (cur : JStr) (r : List Char) :
    parseArrayScan prev false cur (',' :: r) =
      (if jsTrim cur ≠ [] then [jsTrim cur] else []) ++
        parseArrayScan (some ',') false [] r := by
  have k1 : ¬ ((',' : Char) = '"' ∧ prev ≠ some '\\') := fun hx => absurd hx.1 (by decide)
  have k2 : ((',' : Char) = ',' ∧ false = false) := ⟨rfl, rfl⟩
  rw [parseArrayScan, if_neg k1, if_pos k2]

/-- Unfolding `parseArrayScan` on a top-level space. -/
theorem parseArrayScan_space (prev : Option Char) (cur : JStr) (r : List Char) :
    parseArrayScan prev false cur (' ' :: r) =
      parseArrayScan (some ' ') false cur r := by
  have k1 : ¬ ((' ' : Char) = '"' ∧ prev ≠ some '\\') := fun hx => absurd hx.1 (by decide)
  have k2 : ¬ ((' ' : Char) = ',' ∧ false = false) := fun hx => absurd hx.1 (by decide)
  have k3 : (false = false ∧ ((' ' : Char) = ' ' ∨ (' ' : Char) = '\t')) :=
    ⟨rfl, Or.inl rfl⟩
  rw [parseArrayScan, if_neg k1, if_neg k2, if_pos k3]

/-- Scanning a quote-free run inside a string accumulates it verbatim. -/
theorem parseArrayScan_run (x : JStr) :
    ∀ prev cur rest, '"' ∉ x →
      parseArrayScan prev true cur (x ++ rest) =
        parseArrayScan (lastOrPrev x prev) true (cur ++ x) rest := by
  induction x with
  | nil => intro prev cur rest _; simp [lastOrPrev]
  | cons c t ih =>
      intro prev cur rest hq
      have hc : c ≠ '"' := fun hcc => hq (hcc ▸ List.mem_cons_self _ _)
      have ht : '"' ∉ t := fun htt => hq (List.mem_cons_of_mem _ htt)
      rw [List.cons_append, parseArrayScan_inStr prev cur c _ hc, ih (some c) _ rest ht]
      have hL : lastOrPrev t (some c) = lastOrPrev (c :: t) prev := by
        cases hgl : t.getLast? with
        | some d =>
            rw [lastOrPrev, hgl, lastOrPrev]
            cases t with
            | nil => simp at hgl
            | cons e t2 => rw [List.getLast?_cons_cons, hgl]
        | none =>
            have : t = [] := by
              cases t with
              | nil => rfl
              | cons e t2 => simp [List.getLast?] at hgl
            subst this
            rfl
      rw [hL, List.append_cons cur c t]

/-- Scanning one complete quoted element: the quotes toggle in and out, its
body lands in the accumulator, and the scan resumes outside a string. -/
theorem parseArrayScan_elem (x : JStr) (prev : Option Char) (cur : JStr)
    (rest : List Char) (hprev : prev ≠ some '\\') (hq : '"' ∉ x)
    (hbs : x.getLast? ≠ some '\\') :
    parseArrayScan prev false cur ('"' :: (x ++ '"' :: rest)) =
      parseArrayScan (some '"') false (cur ++ x) rest := by
  rw [parseArrayScan_quote prev false cur _ hprev]
  show parseArrayScan (some '"') true cur (x ++ '"' :: rest) = _
  rw [parseArrayScan_run x (some '"') cur ('"' :: rest) hq]
  have hlp : lastOrPrev x (some '"') ≠ some '\\' := by
    unfold lastOrPrev
    cases hgl : x.getLast? with
    | some d =>
        rw [hgl] at hbs
        exact hbs
    | none => simp
  rw [parseArrayScan_quote _ true _ rest hlp]
  rfl

theorem parseArrayScan_nil (prev : Option Char) (inStr : Bool) (cur : JStr) :
    parseArrayScan prev inStr cur [] =
      if jsTrim cur ≠ [] then [jsTrim cur] else [] := rfl

/-- The full element scan: a comma-space separated list of quoted
well-formed elements is reproduced exactly. -/
theorem parseArrayScan_elems (xs : List JStr) :
    ∀ prev, prev ≠ some '\\' → (∀ x ∈ xs, okArg x) →
      parseArrayScan prev false []
        (joinSep (", ".data) (xs.map (fun x => '"' :: x ++ ['"']))) = xs := by
  induction xs with
  | nil => intro prev _ _; rfl
  | cons x t ih =>
      intro prev hprev hok
      obtain ⟨hxne, hxq, _, _, hxtrim, hxbs⟩ := hok x (List.mem_cons_self _ _)
      cases t with
      | nil =>
          show parseArrayScan prev false [] (('"' :: x) ++ ['"']) = [x]
          have hshape : ('"' :: x) ++ ['"'] = '"' :: (x ++ '"' :: []) := by simp
          rw [hshape, parseArrayScan_elem x prev [] [] hprev hxq hxbs,
            List.nil_append, parseArrayScan_nil, if_pos (by rw [hxtrim]; exact hxne),
            hxtrim]
      | cons y t2 =>
          have hshape : joinSep (", ".data)
              ((x :: y :: t2).map (fun z => '"' :: z ++ ['"'])) =
              '"' :: (x ++ '"' :: ',' :: ' ' ::
                joinSep (", ".data) ((y :: t2).map (fun z => '"' :: z ++ ['"']))) := by
            show (('"' :: x) ++ ['"']) ++ (", ".data) ++ _ = _
            simp [List.append_assoc]
          rw [hshape, parseArrayScan_elem x prev [] _ hprev hxq hxbs,
            List.nil_append, parseArrayScan_comma, parseArrayScan_space,
            ih (some ' ') (by simp) (fun z hz => hok z (List.mem_cons_of_mem _ hz)),
            if_pos (by rw [hxtrim]; exact hxne), hxtrim]
          rfl

theorem parseValue_str (c : JStr) : parseValue (('"' :: c) ++ ['"']) = .str c := by
  have h1 : ((('"' :: c) ++ ['"']).head? = some '"') := by
    rw [List.cons_append]
    rfl
  have h2 : ((('"' :: c) ++ ['"']).getLast? = some '"') := List.getLast?_concat _
  rw [parseValue, if_pos ⟨h1, h2⟩]
  congr 1
  rw [List.cons_append]
  show (c ++ ['"']).dropLast = c
  exact List.dropLast_concat

theorem joinSep_cons_ne_nil (sep : JStr) (l : JStr) (ls : List JStr)
    (h : l ≠ []) : joinSep sep (l :: ls) ≠ [] := by
  cases ls with
  | nil => exact h
  | cons m ms =>
      show l ++ sep ++ joinSep sep (m :: ms) ≠ []
      simp [h]

theorem getLast?_quote_join (xs : List JStr) (hne : xs ≠ []) :
    (joinSep (", ".data) (xs.map (fun x => '"' :: x ++ ['"']))).getLast? =
      some '"' := by
  induction xs with
  | nil => exact absurd rfl hne
  | cons x t ih =>
      cases t with
      | nil =>
          rw [List.map_cons, List.map_nil]
          exact List.getLast?_concat _
      | cons y t2 =>
          rw [List.map_cons, List.map_cons]
          show (((('"' :: x) ++ ['"']) ++ (", ".data)) ++
            joinSep (", ".data) ((('"' :: y) ++ ['"']) ::
              t2.map (fun z => '"' :: z ++ ['"']))).getLast? = some '"'
          rw [List.getLast?_append_of_ne_nil _ (joinSep_cons_ne_nil _ _ _ (by simp))]
          have hih := ih (by simp)
          rw [List.map_cons] at hih
          exact hih

theorem head?_quote_join (x : JStr) (rest : List JStr) :
    (joinSep (", ".data) ((x :: rest).map (fun z => '"' :: z ++ ['"']))).head? =
      some '"' := by
  cases rest with
  | nil => rfl
  | cons y t2 =>
      show (((('"' :: x) ++ ['"']) ++ (", ".data)) ++ _).head? = some '"'
      rw [List.append_assoc, List.cons_append]
      rfl

theorem parseValue_arr (xs : List JStr) (hok : ∀ x ∈ xs, okArg x) :
    parseValue (stringifyValue (.arr xs)) = .arr xs := by
  have hsv : stringifyValue (.arr xs) =
      ('[' :: joinSep (", ".data) (xs.map (fun x => '"' :: x ++ ['"']))) ++ [']'] := rfl
  have hhead : (stringifyValue (.arr xs)).head? = some '[' := by
    rw [hsv, List.cons_append]
    rfl
  have hlast : (stringifyValue (.arr xs)).getLast? = some ']' := by
    rw [hsv]
    exact List.getLast?_concat _
  have k1 : ¬ ((stringifyValue (.arr xs)).head? = some '"' ∧
      (stringifyValue (.arr xs)).getLast? = some '"') := by
    intro h
    rw [hhead] at h
    exact absurd (Option.some.inj h.1) (by decide)
  rw [parseValue, if_neg k1, if_pos ⟨hhead, hlast⟩]
  congr 1
  show parseArray (stringifyValue (.arr xs)) = xs
  have hinner : ((stringifyValue (.arr xs)).drop 1).dropLast =
      joinSep (", ".data) (xs.map (fun x => '"' :: x ++ ['"'])) := by
    rw [hsv, List.cons_append]
    show (joinSep (", ".data) (xs.map (fun x => '"' :: x ++ ['"'])) ++ [']']).dropLast = _
    exact List.dropLast_concat
  cases xs with
  | nil =>
      rw [parseArray, hinner]
      rfl
  | cons x t =>
      have htrim : jsTrim (joinSep (", ".data)
          ((x :: t).map (fun z => '"' :: z ++ ['"']))) =
          joinSep (", ".data) ((x :: t).map (fun z => '"' :: z ++ ['"'])) := by
        refine jsTrim_eq_self _ ?_ ?_
        · intro c hc
          rw [head?_quote_join x t] at hc
          rw [← Option.some.inj hc]
          rfl
        · intro c hc
          rw [getLast?_quote_join (x :: t) (by simp)] at hc
          rw [← Option.some.inj hc]
          rfl
      rw [parseArray, hinner, htrim]
      rw [if_neg (by
        simp only [ne_eq, not_not]
        intro hcon
        exact joinSep_cons_ne_nil _ _ _ (by simp) hcon)]
      exact parseArrayScan_elems (x :: t) none (by simp) hok

theorem pairMatch_quoted (k v : JStr) (hk1 : k ≠ [])
    (hk2 : ∀ c ∈ k, isWordChar c = true) (hv : '"' ∉ v) :
    pairMatch ('"' :: (k ++ ('"' :: ' ' :: '=' :: ' ' :: '"' :: (v ++ ['"'])))) =
      some (k, v) := by
  have htk : (k ++ ('"' :: ' ' :: '=' :: ' ' :: '"' :: (v ++ ['"']))).takeWhile
      isWordChar = k :=
    takeWhile_append_all isWordChar k '"' _ hk2 (by decide)
  have hdk : (k ++ ('"' :: ' ' :: '=' :: ' ' :: '"' :: (v ++ ['"']))).dropWhile
      isWordChar = '"' :: ' ' :: '=' :: ' ' :: '"' :: (v ++ ['"']) :=
    dropWhile_append_all isWordChar k '"' _ hk2 (by decide)
  have hvall : ∀ c ∈ v, (fun c => decide (c ≠ '"')) c = true := by
    intro c hc
    simp only [decide_eq_true_eq]
    exact fun h => hv (h ▸ hc)
  have hdv : (v ++ ['"']).dropWhile (fun c => decide (c ≠ '"')) = ['"'] := by
    have h := dropWhile_append_all (fun c => decide (c ≠ '"')) v '"' [] hvall (by decide)
    simpa using h
  have htv : (v ++ ['"']).takeWhile (fun c => decide (c ≠ '"')) = v :=
    takeWhile_append_all (fun c => decide (c ≠ '"')) v '"' [] hvall (by decide)
  unfold pairMatch
  simp only [htk, hdk, hdv, htv, if_neg hk1]
  simp only [ne_eq, decide_not] at hdv htv
  simp [isWsJs, hdv, htv]

theorem jsTrim_cons_ws (c : Char) (l : JStr) (h : isWsJs c = true) :
    jsTrim (c :: l) = jsTrim l := by
  unfold jsTrim
  rw [List.dropWhile_cons, if_pos h]

theorem jsTrim_space_wrap (l : JStr) (hne : l ≠ [])
    (h1 : ∀ c, l.head? = some c → isWsJs c = false)
    (h2 : ∀ c, l.getLast? = some c → isWsJs c = false) :
    jsTrim (' ' :: (l ++ [' '])) = l := by
  rw [jsTrim_cons_ws ' ' _ (by decide)]
  cases l with
  | nil => exact absurd rfl hne
  | cons a t =>
      unfold jsTrim
      rw [List.cons_append, List.dropWhile_cons, if_neg (by rw [h1 a rfl]; simp)]
      have hrev1 : (a :: (t ++ [' '])).reverse = ' ' :: ((a :: t).reverse) := by
        simp
      rw [hrev1, List.dropWhile_cons, if_pos (by decide)]
      cases hrev : (a :: t).reverse with
      | nil => exact absurd hrev (by simp)
      | cons b rb =>
          have hb : (a :: t).getLast? = some b := by
            rw [← List.head?_reverse, hrev]
            rfl
          rw [List.dropWhile_cons, if_neg (by rw [h2 b hb]; simp), ← hrev,
            List.reverse_reverse]

theorem head?_joinSep (sep : JStr) (l : JStr) (ls : List JStr) (hl : l ≠ []) :
    (joinSep sep (l :: ls)).head? = l.head? := by
  cases ls with
  | nil => rfl
  | cons m ms =>
      show ((l ++ sep) ++ joinSep sep (m :: ms)).head? = l.head?
      cases l with
      | nil => exact absurd rfl hl
      | cons a t => rfl

theorem getLast?_joinSep (sep : JStr) (c : Char) :
    ∀ (ls : List JStr), ls ≠ [] → (∀ l ∈ ls, l.getLast? = some c) →
      (joinSep sep ls).getLast? = some c := by
  intro ls
  induction ls with
  | nil => intro h _; exact absurd rfl h
  | cons l t ih =>
      intro _ hall
      cases t with
      | nil => exact hall l (List.mem_cons_self _ _)
      | cons m ms =>
          have hm : m.getLast? = some c :=
            hall m (List.mem_cons_of_mem _ (List.mem_cons_self _ _))
          have hmne : m ≠ [] := by
            intro hmm
            rw [hmm] at hm
            exact absurd hm (by simp)
          show ((l ++ sep) ++ joinSep sep (m :: ms)).getLast? = some c
          rw [List.getLast?_append_of_ne_nil _ (joinSep_cons_ne_nil _ _ _ hmne)]
          exact ih (by simp) (fun x hx => hall x (List.mem_cons_of_mem _ hx))

theorem splitOnChar_join (t : List JStr) :
    ∀ x : JStr, (∀ z ∈ x :: t, (',' : Char) ∉ z) →
      splitOnChar ',' (joinSep (", ".data) (x :: t)) =
        x :: t.map (fun z => ' ' :: z) := by
  induction t with
  | nil =>
      intro x h
      rw [List.map_nil]
      exact splitOnChar_no_sep ',' x (h x (List.mem_cons_self _ _))
  | cons y r ih =>
      intro x h
      have hx : (',' : Char) ∉ x := h x (List.mem_cons_self _ _)
      have hshape : joinSep (", ".data) (x :: y :: r) =
          x ++ ',' :: (' ' :: joinSep (", ".data) (y :: r)) := by
        show (x ++ (", ".data)) ++ joinSep (", ".data) (y :: r) = _
        rw [List.append_assoc]
        rfl
      rw [hshape, splitOnChar_append ',' x _ hx, splitOnChar,
        ih y (fun z hz => h z (List.mem_cons_of_mem _ hz))]
      simp

/-- The assignment step of `parseInlineTable`, as a named function. -/
def tableStep (acc : List (JStr × JStr)) (pr : JStr) : List (JStr × JStr) :=
  match pairMatch (jsTrim pr) with
  | some (k, val) => jset acc k val
  | none => acc

theorem pq_head (q : JStr × JStr) :
    ((fun p : JStr × JStr =>
      '"' :: p.1 ++ '"' :: ' ' :: '=' :: ' ' :: '"' :: p.2 ++ ['"']) q).head? =
      some '"' := rfl

theorem pq_last (q : JStr × JStr) :
    ((fun p : JStr × JStr =>
      '"' :: p.1 ++ '"' :: ' ' :: '=' :: ' ' :: '"' :: p.2 ++ ['"']) q).getLast? =
      some '"' := List.getLast?_concat _

theorem tableStep_pq (acc : List (JStr × JStr)) (q : JStr × JStr)
    (hq : okEnvPair q) :
    tableStep acc ('"' :: q.1 ++ '"' :: ' ' :: '=' :: ' ' :: '"' :: q.2 ++ ['"']) =
      jset acc q.1 q.2 := by
  obtain ⟨hk1, hk2, hv, _, _, _⟩ := hq
  have htr : jsTrim ('"' :: q.1 ++ '"' :: ' ' :: '=' :: ' ' :: '"' :: q.2 ++ ['"']) =
      '"' :: q.1 ++ '"' :: ' ' :: '=' :: ' ' :: '"' :: q.2 ++ ['"'] := by
    refine jsTrim_eq_self _ ?_ ?_
    · intro c hc
      rw [pq_head q] at hc
      rw [← Option.some.inj hc]
      rfl
    · intro c hc
      rw [pq_last q] at hc
      rw [← Option.some.inj hc]
      rfl
  have hre : '"' :: q.1 ++ '"' :: ' ' :: '=' :: ' ' :: '"' :: q.2 ++ ['"'] =
      '"' :: (q.1 ++ ('"' :: ' ' :: '=' :: ' ' :: '"' :: (q.2 ++ ['"']))) := by
    simp [List.append_assoc]
  rw [tableStep, htr, hre, pairMatch_quoted q.1 q.2 hk1 hk2 hv]

theorem tableStep_space_pq (acc : List (JStr × JStr)) (q : JStr × JStr)
    (hq : okEnvPair q) :
    tableStep acc (' ' :: ('"' :: q.1 ++ '"' :: ' ' :: '=' :: ' ' :: '"' :: q.2 ++ ['"'])) =
      jset acc q.1 q.2 := by
  rw [show tableStep acc
      (' ' :: ('"' :: q.1 ++ '"' :: ' ' :: '=' :: ' ' :: '"' :: q.2 ++ ['"'])) =
      (match pairMatch (jsTrim
        (' ' :: ('"' :: q.1 ++ '"' :: ' ' :: '=' :: ' ' :: '"' :: q.2 ++ ['"']))) with
       | some (k, val) => jset acc k val
       | none => acc) from rfl]
  rw [jsTrim_cons_ws ' ' _ (by decide)]
  rw [← tableStep]
  exact tableStep_pq acc q hq

theorem tableFold_spaced (t : List (JStr × JStr)) :
    ∀ acc, (∀ q ∈ t, okEnvPair q) →
      (t.map (fun q =>
          ' ' :: ('"' :: q.1 ++ '"' :: ' ' :: '=' :: ' ' :: '"' :: q.2 ++ ['"']))).foldl
        tableStep acc =
      t.foldl (fun m q => jset m q.1 q.2) acc := by
  induction t with
  | nil => intro acc _; rfl
  | cons q r ih =>
      intro acc hok
      rw [List.map_cons, List.foldl_cons, List.foldl_cons,
        tableStep_space_pq acc q (hok q (List.mem_cons_self _ _))]
      exact ih _ (fun z hz => hok z (List.mem_cons_of_mem _ hz))

theorem parseValue_table (kvs : List (JStr × JStr))
    (hnd : (kvs.map Prod.fst).Nodup) (hok : ∀ p ∈ kvs, okEnvPair p) :
    parseValue (stringifyValue (.table kvs)) = .table kvs := by
  have hsv : stringifyValue (.table kvs) =
      ('{' :: ' ' :: joinSep (", ".data)
        (kvs.map (fun p =>
          '"' :: p.1 ++ '"' :: ' ' :: '=' :: ' ' :: '"' :: p.2 ++ ['"']))) ++
        [' ', '}'] := rfl
  have hhead : (stringifyValue (.table kvs)).head? = some '{' := by
    rw [hsv, List.cons_append]
    rfl
  have hlast : (stringifyValue (.table kvs)).getLast? = some '}' := by
    rw [hsv, List.getLast?_append_of_ne_nil _ (by simp)]
    rfl
  have k1 : ¬ ((stringifyValue (.table kvs)).head? = some '"' ∧
      (stringifyValue (.table kvs)).getLast? = some '"') := by
    intro h
    rw [hhead] at h
    exact absurd (Option.some.inj h.1) (by decide)
  have k2 : ¬ ((stringifyValue (.table kvs)).head? = some '[' ∧
      (stringifyValue (.table kvs)).getLast? = some ']') := by
    intro h
    rw [hhead] at h
    exact absurd (Option.some.inj h.1) (by decide)
  rw [parseValue, if_neg k1, if_neg k2, if_pos ⟨hhead, hlast⟩]
  congr 1
  have hinner : ((stringifyValue (.table kvs)).drop 1).dropLast =
      ' ' :: (joinSep (", ".data)
        (kvs.map (fun p =>
          '"' :: p.1 ++ '"' :: ' ' :: '=' :: ' ' :: '"' :: p.2 ++ ['"'])) ++ [' ']) := by
    rw [hsv, List.cons_append, List.drop_one, List.tail_cons]
    rw [show ((' ' :: joinSep (", ".data)
        (kvs.map (fun p =>
          '"' :: p.1 ++ '"' :: ' ' :: '=' :: ' ' :: '"' :: p.2 ++ ['"']))) ++ [' ', '}']) =
      ((' ' :: joinSep (", ".data)
        (kvs.map (fun p =>
          '"' :: p.1 ++ '"' :: ' ' :: '=' :: ' ' :: '"' :: p.2 ++ ['"']))) ++ [' ']) ++
        ['}'] from by simp]
    rw [List.dropLast_concat, List.cons_append]
  cases kvs with
  | nil =>
      rw [parseInlineTable, hinner]
      rfl
  | cons p t =>
      have hokp := hok p (List.mem_cons_self _ _)
      have hJne : joinSep (", ".data)
          ((p :: t).map (fun q =>
            '"' :: q.1 ++ '"' :: ' ' :: '=' :: ' ' :: '"' :: q.2 ++ ['"'])) ≠ [] := by
        rw [List.map_cons]
        exact joinSep_cons_ne_nil _ _ _ (by simp)
      have htrim : jsTrim (' ' :: (joinSep (", ".data)
          ((p :: t).map (fun q =>
            '"' :: q.1 ++ '"' :: ' ' :: '=' :: ' ' :: '"' :: q.2 ++ ['"'])) ++ [' '])) =
          joinSep (", ".data)
            ((p :: t).map (fun q =>
              '"' :: q.1 ++ '"' :: ' ' :: '=' :: ' ' :: '"' :: q.2 ++ ['"'])) := by
        refine jsTrim_space_wrap _ hJne ?_ ?_
        · intro c hc
          rw [List.map_cons, head?_joinSep _ _ _ (by simp), pq_head p] at hc
          rw [← Option.some.inj hc]
          rfl
        · intro c hc
          rw [getLast?_joinSep _ '"' _ (by simp) ?_] at hc
          · rw [← Option.some.inj hc]
            rfl
          · intro l hl
            rw [List.mem_map] at hl
            obtain ⟨q, _, hq⟩ := hl
            rw [← hq]
            exact pq_last q
      rw [parseInlineTable, hinner, htrim, if_neg (by
        simp only [ne_eq, not_not]
        intro hcon
        exact hJne hcon)]
      have hsplit : splitOnChar ','
          (joinSep (", ".data)
            ((p :: t).map (fun q =>
              '"' :: q.1 ++ '"' :: ' ' :: '=' :: ' ' :: '"' :: q.2 ++ ['"']))) =
          ('"' :: p.1 ++ '"' :: ' ' :: '=' :: ' ' :: '"' :: p.2 ++ ['"']) ::
            (t.map (fun q =>
              ' ' :: ('"' :: q.1 ++ '"' :: ' ' :: '=' :: ' ' :: '"' :: q.2 ++ ['"']))) := by
        rw [List.map_cons]
        rw [splitOnChar_join
          (t.map (fun q => '"' :: q.1 ++ '"' :: ' ' :: '=' :: ' ' :: '"' :: q.2 ++ ['"']))
          ('"' :: p.1 ++ '"' :: ' ' :: '=' :: ' ' :: '"' :: p.2 ++ ['"']) ?_]
        · rw [List.map_map]
          rfl
        · intro z hz
          rw [List.mem_cons] at hz
          have hzq : ∃ q ∈ p :: t,
              z = '"' :: q.1 ++ '"' :: ' ' :: '=' :: ' ' :: '"' :: q.2 ++ ['"'] := by
            rcases hz with hz | hz
            · exact ⟨p, List.mem_cons_self _ _, hz⟩
            · rw [List.mem_map] at hz
              obtain ⟨q, hqm, hq⟩ := hz
              exact ⟨q, List.mem_cons_of_mem _ hqm, hq.symm⟩
          obtain ⟨q, hqmem, hqz⟩ := hzq
          obtain ⟨_, hkw, _, hvnc, _, _⟩ := hok q hqmem
          rw [hqz]
          intro hcm
          have hcm2 : (',' : Char) ∈
              ('"' :: q.1) ++ (('"' :: ' ' :: '=' :: ' ' :: '"' :: q.2) ++ ['"']) := by
            simpa [List.append_assoc] using hcm
          simp only [List.mem_append, List.mem_cons, List.mem_singleton] at hcm2
          rcases hcm2 with (hc | hc) | ((hc | hc | hc | hc | hc | hc) | hc)
          · exact absurd hc.symm (by decide)
          · exact absurd (isWordChar_props ',' (hkw ',' hc)).2.2.2.2.2 (by simp)
          all_goals first
          | exact absurd hc (by decide)
          | exact hvnc hc
      rw [hsplit]
      change List.foldl tableStep [] _ = _
      rw [List.foldl_cons, tableStep_pq _ p hokp,
        tableFold_spaced t _ (fun q hq => hok q (List.mem_cons_of_mem _ hq))]
      rw [show (jset ([] : List (JStr × JStr)) p.1 p.2) = [(p.1, p.2)] from rfl]
      rw [show ((p :: t).map Prod.fst) = p.1 :: t.map Prod.fst from rfl] at hnd
      rw [List.nodup_cons] at hnd
      have hfold := foldl_jset_map Prod.snd Prod.fst t [(p.1, p.2)] hnd.2 ?_
      · rw [hfold]
        simp
      · intro q hq hmem
        simp only [jkeys, List.map_cons, List.map_nil, List.mem_singleton] at hmem
        exact hnd.1 (hmem ▸ List.mem_map_of_mem Prod.fst hq)

theorem mem_joinSep (sep : JStr) (c : Char) :
    ∀ ls : List JStr, c ∈ joinSep sep ls → c ∈ sep ∨ ∃ l ∈ ls, c ∈ l := by
  intro ls
  induction ls with
  | nil => intro h; simp [joinSep] at h
  | cons l t ih =>
      intro h
      cases t with
      | nil => exact Or.inr ⟨l, List.mem_cons_self _ _, h⟩
      | cons m ms =>
          rw [show joinSep sep (l :: m :: ms) =
            (l ++ sep) ++ joinSep sep (m :: ms) from rfl] at h
          rw [List.mem_append, List.mem_append] at h
          rcases h with (h | h) | h
          · exact Or.inr ⟨l, List.mem_cons_self _ _, h⟩
          · exact Or.inl h
          · rcases ih h with h2 | ⟨x, hx, hcx⟩
            · exact Or.inl h2
            · exact Or.inr ⟨x, List.mem_cons_of_mem _ hx, hcx⟩

theorem stringifyValue_ne_nil (v : TomlValue) : stringifyValue v ≠ [] := by
  cases v with
  | str s => simp [stringifyValue]
  | arr xs => simp [stringifyValue]
  | table kvs => simp [stringifyValue]

theorem stringifyValue_head (v : TomlValue) :
    (stringifyValue v).head? =
      some (match v with
            | .str _ => '"'
            | .arr _ => '['
            | .table _ => '{') := by
  cases v with
  | str s => rfl
  | arr xs => rfl
  | table kvs => rfl

theorem stringifyValue_last (v : TomlValue) :
    (stringifyValue v).getLast? =
      some (match v with
            | .str _ => '"'
            | .arr _ => ']'
            | .table _ => '}') := by
  cases v with
  | str s => exact List.getLast?_concat _
  | arr xs => exact List.getLast?_concat _
  | table kvs =>
      show ((('{' :: ' ' :: joinSep (", ".data) _) ++ [' ', '}']).getLast? = some '}')
      rw [List.getLast?_append_of_ne_nil _ (by simp)]
      rfl

/-- Serialized well-formed values contain no line terminators. -/
theorem stringifyValue_notNl (v : TomlValue) (hok : okTomlValue v) :
    ∀ c ∈ stringifyValue v, notNl c = true := by
  cases v with
  | str s =>
      obtain ⟨hn, hr⟩ := hok
      intro c hc
      rw [show stringifyValue (.str s) = ('"' :: s) ++ ['"'] from rfl] at hc
      simp only [List.mem_append, List.mem_cons, List.not_mem_nil, or_false] at hc
      rcases hc with (hc | hc) | hc
      · rw [hc]; decide
      · simp only [notNl, Bool.and_eq_true, decide_eq_true_eq]
        exact ⟨fun h => hn (h ▸ hc), fun h => hr (h ▸ hc)⟩
      · rw [hc]; decide
  | arr xs =>
      intro c hc
      rw [show stringifyValue (.arr xs) =
        ('[' :: joinSep (", ".data) (xs.map (fun x => '"' :: x ++ ['"']))) ++ [']']
        from rfl] at hc
      simp only [List.mem_append, List.mem_cons, List.not_mem_nil, or_false] at hc
      rcases hc with (hc | hc) | hc
      · rw [hc]; decide
      · rcases mem_joinSep _ _ _ hc with hs | ⟨l, hl, hcl⟩
        · have hs2 : c = ',' ∨ c = ' ' := by simpa using hs
          rcases hs2 with hs2 | hs2
          · rw [hs2]; decide
          · rw [hs2]; decide
        · rw [List.mem_map] at hl
          obtain ⟨x, hx, hxl⟩ := hl
          obtain ⟨_, _, hn, hr, _, _⟩ := hok x hx
          rw [← hxl] at hcl
          rw [show ('"' :: x ++ ['"']) = ('"' :: x) ++ ['"'] from rfl] at hcl
          simp only [List.mem_append, List.mem_cons, List.not_mem_nil, or_false] at hcl
          rcases hcl with (hc2 | hc2) | hc2
          · rw [hc2]; decide
          · simp only [notNl, Bool.and_eq_true, decide_eq_true_eq]
            exact ⟨fun h => hn (h ▸ hc2), fun h => hr (h ▸ hc2)⟩
          · rw [hc2]; decide
      · rw [hc]; decide
  | table kvs =>
      intro c hc
      rw [show stringifyValue (.table kvs) =
        ('{' :: ' ' :: joinSep (", ".data)
          (kvs.map (fun p =>
            '"' :: p.1 ++ '"' :: ' ' :: '=' :: ' ' :: '"' :: p.2 ++ ['"']))) ++
          [' ', '}'] from rfl] at hc
      simp only [List.mem_append, List.mem_cons, List.not_mem_nil, or_false] at hc
      rcases hc with (hc | hc | hc) | (hc | hc)
      · rw [hc]; decide
      · rw [hc]; decide
      · rcases mem_joinSep _ _ _ hc with hs | ⟨l, hl, hcl⟩
        · have hs2 : c = ',' ∨ c = ' ' := by simpa using hs
          rcases hs2 with hs2 | hs2
          · rw [hs2]; decide
          · rw [hs2]; decide
        · rw [List.mem_map] at hl
          obtain ⟨q, hq, hql⟩ := hl
          obtain ⟨_, hkw, _, _, hn, hr⟩ := hok.2 q hq
          rw [← hql] at hcl
          have hcl2 : c ∈
              ('"' :: q.1) ++ (('"' :: ' ' :: '=' :: ' ' :: '"' :: q.2) ++ ['"']) := by
            simpa [List.append_assoc] using hcl
          simp only [List.mem_append, List.mem_cons, List.not_mem_nil, or_false] at hcl2
          rcases hcl2 with (hc2 | hc2) | ((hc2 | hc2 | hc2 | hc2 | hc2 | hc2) | hc2)
          · rw [hc2]; decide
          · exact (isWordChar_props c (hkw c hc2)).2.2.2.2.1
          · rw [hc2]; decide
          · rw [hc2]; decide
          · rw [hc2]; decide
          · rw [hc2]; decide
          · rw [hc2]; decide
          · simp only [notNl, Bool.and_eq_true, decide_eq_true_eq]
            exact ⟨fun h => hn (h ▸ hc2), fun h => hr (h ▸ hc2)⟩
          · rw [hc2]; decide
      · rw [hc]; decide
      · rw [hc]; decide

/-- `parseValue` inverts `stringifyValue` on well-formed values. -/
theorem parseValue_stringifyValue (v : TomlValue) (hok : okTomlValue v) :
    parseValue (stringifyValue v) = v := by
  cases v with
  | str s => exact parseValue_str s
  | arr xs => exact parseValue_arr xs hok
  | table kvs => exact parseValue_table kvs hok.1 hok.2

theorem jset_append_existing {α : Type} (acc : List (JStr × α)) (sec : JStr)
    (s v : α) (h : sec ∉ jkeys acc) :
    jset (acc ++ [(sec, s)]) sec v = acc ++ [(sec, v)] := by
  induction acc with
  | nil => simp [jset]
  | cons p r ih =>
      have hp : p.1 ≠ sec := fun hps => h (hps ▸ List.mem_cons_self _ _)
      cases p
      rw [List.cons_append, jset, if_neg hp,
        ih (fun hk => h (List.mem_cons_of_mem _ hk)), List.cons_append]

theorem jget_append_last {α : Type} (acc : List (JStr × α)) (sec : JStr) (s : α)
    (h : sec ∉ jkeys acc) :
    jget (acc ++ [(sec, s)]) sec = some s := by
  rw [jget_append, (jget_eq_none_iff acc sec).mpr h]
  show jget [(sec, s)] sec = some s
  simp [jget]

theorem setInSection_append_last (acc : TomlDoc) (sec : JStr)
    (s : TomlSection) (k : JStr) (v : TomlValue) (h : sec ∉ jkeys acc) :
    setInSection (acc ++ [(sec, s)]) sec k v = acc ++ [(sec, jset s k v)] := by
  rw [setInSection, jget_append_last acc sec s h]
  exact jset_append_existing acc sec s (jset s k v) h

theorem parseTomlLine_blank (st : TomlDoc × JStr) : parseTomlLine st [] = st := by
  simp [parseTomlLine, jsTrim]

theorem parseTomlLine_header (st : TomlDoc × JStr) (sec : JStr)
    (h1 : sec ≠ []) (h2 : ']' ∉ sec) :
    parseTomlLine st ('[' :: (sec ++ [']'])) = (jset st.1 sec [], sec) := by
  have htrim : jsTrim ('[' :: (sec ++ [']'])) = '[' :: (sec ++ [']']) := by
    refine jsTrim_eq_self _ ?_ ?_
    · intro c hc
      rw [show ('[' :: (sec ++ [']'])).head? = some '[' from rfl] at hc
      rw [← Option.some.inj hc]
      rfl
    · intro c hc
      rw [getLast?_bracket sec] at hc
      rw [← Option.some.inj hc]
      rfl
  have hin : (('[' :: (sec ++ [']'])).drop 1).dropLast = sec := by
    rw [List.drop_one, List.tail_cons]
    exact List.dropLast_concat
  have hsm : sectionMatch ('[' :: (sec ++ [']'])) = some sec := by
    rw [sectionMatch, hin, if_pos ⟨rfl, getLast?_bracket sec, h1, h2⟩]
  have hne : ¬ (('[' :: (sec ++ [']'])) = [] ∨
      ('[' :: (sec ++ [']'])).head? = some '#') := by
    rintro (h | h)
    · exact absurd h (by simp)
    · exact absurd (Option.some.inj h) (by decide)
  rw [parseTomlLine]
  simp only [htrim, if_neg hne, hsm]

theorem parseTomlLine_kv (st : TomlDoc × JStr) (k : JStr) (v : TomlValue)
    (hk1 : k ≠ []) (hk2 : ∀ c ∈ k, isWordChar c = true)
    (hok : okTomlValue v) (hsec : st.2 ≠ []) :
    parseTomlLine st (k ++ ' ' :: '=' :: ' ' :: stringifyValue v) =
      (setInSection st.1 st.2 k v, st.2) := by
  obtain ⟨a, t, hk⟩ : ∃ a t, k = a :: t := by
    cases k with
    | nil => exact absurd rfl hk1
    | cons a t => exact ⟨a, t, rfl⟩
  have hwa : isWordChar a = true := hk2 a (hk ▸ List.mem_cons_self _ _)
  have hhead : (k ++ ' ' :: '=' :: ' ' :: stringifyValue v).head? = some a := by
    rw [hk, List.cons_append]
    rfl
  have hlast : (k ++ ' ' :: '=' :: ' ' :: stringifyValue v).getLast? =
      (stringifyValue v).getLast? := by
    rw [List.getLast?_append_of_ne_nil _ (by simp),
      show (' ' :: '=' :: ' ' :: stringifyValue v) =
        [' ', '=', ' '] ++ stringifyValue v from rfl,
      List.getLast?_append_of_ne_nil _ (stringifyValue_ne_nil v)]
  have htrim : jsTrim (k ++ ' ' :: '=' :: ' ' :: stringifyValue v) =
      k ++ ' ' :: '=' :: ' ' :: stringifyValue v := by
    refine jsTrim_eq_self _ ?_ ?_
    · intro c hc
      rw [hhead] at hc
      rw [← Option.some.inj hc]
      exact (isWordChar_props a hwa).1
    · intro c hc
      rw [hlast, stringifyValue_last v] at hc
      rw [← Option.some.inj hc]
      cases v <;> rfl
  have hne : ¬ ((k ++ ' ' :: '=' :: ' ' :: stringifyValue v) = [] ∨
      (k ++ ' ' :: '=' :: ' ' :: stringifyValue v).head? = some '#') := by
    rintro (h | h)
    · rw [hk] at h
      exact absurd h (by simp)
    · rw [hhead] at h
      exact absurd (Option.some.inj h) (isWordChar_props a hwa).2.2.1
  have hsm : sectionMatch (k ++ ' ' :: '=' :: ' ' :: stringifyValue v) = none := by
    rw [sectionMatch]
    rw [if_neg ?_]
    rintro ⟨hcon, -⟩
    rw [hhead] at hcon
    exact (isWordChar_props a hwa).2.1 (Option.some.inj hcon)
  have hsvhead : (stringifyValue v).dropWhile isWsJs = stringifyValue v := by
    cases v <;> rfl
  have hkv : kvMatch (k ++ ' ' :: '=' :: ' ' :: stringifyValue v) =
      some (k, stringifyValue v) := by
    rw [kvMatch]
    have htk : (k ++ ' ' :: '=' :: ' ' :: stringifyValue v).takeWhile isWordChar
        = k := takeWhile_append_all isWordChar k ' ' _ hk2 (by decide)
    have hdk : (k ++ ' ' :: '=' :: ' ' :: stringifyValue v).dropWhile isWordChar
        = ' ' :: '=' :: ' ' :: stringifyValue v :=
      dropWhile_append_all isWordChar k ' ' _ hk2 (by decide)
    simp only [htk, hdk, if_neg hk1]
    rw [show (' ' :: '=' :: ' ' :: stringifyValue v).dropWhile isWsJs =
      '=' :: ' ' :: stringifyValue v from rfl]
    show (if (' ' :: stringifyValue v).dropWhile isWsJs ≠ [] ∧
        ((' ' :: stringifyValue v).dropWhile isWsJs).all notNl then
        some (k, (' ' :: stringifyValue v).dropWhile isWsJs) else none) =
      some (k, stringifyValue v)
    rw [show (' ' :: stringifyValue v).dropWhile isWsJs =
      (stringifyValue v).dropWhile isWsJs from rfl, hsvhead,
      if_pos ⟨stringifyValue_ne_nil v, List.all_eq_true.mpr (stringifyValue_notNl v hok)⟩]
  rw [parseTomlLine]
  simp only [htrim, if_neg hne, hsm, if_neg hsec, hkv]
  rw [jsTrim_eq_self _ ?_ ?_, parseValue_stringifyValue v hok]
  · intro c hc
    rw [stringifyValue_head v] at hc
    rw [← Option.some.inj hc]
    cases v <;> rfl
  · intro c hc
    rw [stringifyValue_last v] at hc
    rw [← Option.some.inj hc]
    cases v <;> rfl

theorem splitOnChar_joinSep (sep : Char) :
    ∀ (ls : List JStr), ls ≠ [] → (∀ l ∈ ls, sep ∉ l) →
      splitOnChar sep (joinSep [sep] ls) = ls := by
  intro ls
  induction ls with
  | nil => intro h _; exact absurd rfl h
  | cons l t ih =>
      intro _ hall
      cases t with
      | nil => exact splitOnChar_no_sep sep l (hall l (List.mem_cons_self _ _))
      | cons m ms =>
          rw [show joinSep [sep] (l :: m :: ms) =
            l ++ sep :: joinSep [sep] (m :: ms) from by
              show (l ++ [sep]) ++ joinSep [sep] (m :: ms) = _
              rw [List.append_assoc]
              rfl]
          rw [splitOnChar_append sep l _ (hall l (List.mem_cons_self _ _)),
            ih (by simp) (fun z hz => hall z (List.mem_cons_of_mem _ hz))]

/-- Well-formedness of a section name for the round trip: non-empty, no
closing bracket, no newline. -/
def okSectionName (sec : JStr) : Prop :=
  sec ≠ [] ∧ ']' ∉ sec ∧ '\n' ∉ sec

/-- Well-formedness of a whole document for the round trip. -/
def okDoc (doc : TomlDoc) : Prop :=
  (doc.map Prod.fst).Nodup ∧
    ∀ p ∈ doc, okSectionName p.1 ∧ (p.2.map Prod.fst).Nodup ∧
      ∀ q ∈ p.2, q.1 ≠ [] ∧ (∀ c ∈ q.1, isWordChar c = true) ∧ okTomlValue q.2

theorem tomlLines_no_nl (doc : TomlDoc)
    (h : ∀ p ∈ doc, okSectionName p.1 ∧
      ∀ q ∈ p.2, (∀ c ∈ q.1, isWordChar c = true) ∧ okTomlValue q.2) :
    ∀ l ∈ tomlLines doc, '\n' ∉ l := by
  intro l hl
  rw [tomlLines, List.mem_flatMap] at hl
  obtain ⟨p, hp, hlp⟩ := hl
  obtain ⟨⟨_, _, hsnl⟩, hkv⟩ := h p hp
  rw [List.mem_cons] at hlp
  rcases hlp with hlp | hlp
  · rw [hlp]
    intro hcon
    simp only [List.mem_append, List.mem_cons, List.not_mem_nil, or_false] at hcon
    rcases hcon with (hcon | hcon) | hcon
    · exact absurd hcon (by decide)
    · exact hsnl hcon
    · exact absurd hcon (by decide)
  · rw [List.mem_append, List.mem_singleton] at hlp
    rcases hlp with hlp | hlp
    · rw [List.mem_map] at hlp
      obtain ⟨q, hq, hql⟩ := hlp
      obtain ⟨hqw, hqok⟩ := hkv q hq
      rw [← hql]
      intro hcon
      rw [List.mem_append, List.mem_cons, List.mem_cons, List.mem_cons] at hcon
      rcases hcon with hcon | hcon | hcon | hcon
      · have := isWordChar_props '\n' (hqw '\n' hcon)
        exact absurd this.2.2.2.2.1 (by decide)
      · exact absurd hcon (by decide)
      · exact absurd hcon (by decide)
      · rcases hcon with hcon | hcon
        · exact absurd hcon (by decide)
        · have := stringifyValue_notNl q.2 hqok '\n' hcon
          exact absurd this (by decide)
    · rw [hlp]
      simp

theorem parseToml_kvLines (kvs : List (JStr × TomlValue)) :
    ∀ (acc : TomlDoc) (sec : JStr) (spart : TomlSection),
      sec ∉ jkeys acc → sec ≠ [] →
      (∀ q ∈ kvs, q.1 ≠ [] ∧ (∀ c ∈ q.1, isWordChar c = true) ∧ okTomlValue q.2) →
      (kvs.map (fun kv => kv.1 ++ ' ' :: '=' :: ' ' :: stringifyValue kv.2)).foldl
          parseTomlLine (acc ++ [(sec, spart)], sec) =
        (acc ++ [(sec, kvs.foldl (fun m q => jset m q.1 q.2) spart)], sec) := by
  induction kvs with
  | nil => intro acc sec spart _ _ _; rfl
  | cons q r ih =>
      intro acc sec spart hfresh hsec hok
      obtain ⟨hq1, hq2, hq3⟩ := hok q (List.mem_cons_self _ _)
      rw [List.map_cons, List.foldl_cons,
        parseTomlLine_kv (acc ++ [(sec, spart)], sec) q.1 q.2 hq1 hq2 hq3 hsec]
      rw [setInSection_append_last acc sec spart q.1 q.2 hfresh,
        ih acc sec (jset spart q.1 q.2) hfresh hsec
          (fun z hz => hok z (List.mem_cons_of_mem _ hz))]
      rfl

theorem parseToml_sections (doc : TomlDoc) :
    ∀ (acc : TomlDoc) (cursec : JStr),
      (doc.map Prod.fst).Nodup →
      (∀ p ∈ doc, p.1 ∉ jkeys acc) →
      (∀ p ∈ doc, okSectionName p.1 ∧ (p.2.map Prod.fst).Nodup ∧
        ∀ q ∈ p.2, q.1 ≠ [] ∧ (∀ c ∈ q.1, isWordChar c = true) ∧ okTomlValue q.2) →
      ∃ endsec, (tomlLines doc).foldl parseTomlLine (acc, cursec) =
        (acc ++ doc, endsec) := by
  induction doc with
  | nil => intro acc cursec _ _ _; exact ⟨cursec, by simp [tomlLines]⟩
  | cons p rest ih =>
      intro acc cursec hnd hfresh hok
      obtain ⟨⟨hsec_ne, hsec_rb, _⟩, hnds, hkvok⟩ := hok p (List.mem_cons_self _ _)
      have hTL : tomlLines (p :: rest) =
          (('[' :: (p.1 ++ [']'])) ::
            ((p.2.map (fun kv => kv.1 ++ ' ' :: '=' :: ' ' :: stringifyValue kv.2)) ++
              [[]])) ++ tomlLines rest := by
        rw [tomlLines, List.flatMap_cons, ← tomlLines]
        rfl
      rw [hTL, List.foldl_append, List.foldl_cons,
        parseTomlLine_header (acc, cursec) p.1 hsec_ne hsec_rb]
      rw [jset_append_fresh acc p.1 [] (hfresh p (List.mem_cons_self _ _)),
        List.foldl_append,
        parseToml_kvLines p.2 acc p.1 [] (hfresh p (List.mem_cons_self _ _))
          hsec_ne hkvok]
      rw [show ([([] : JStr)]).foldl parseTomlLine
          (acc ++ [(p.1, p.2.foldl (fun m q => jset m q.1 q.2) [])], p.1) =
          parseTomlLine
            (acc ++ [(p.1, p.2.foldl (fun m q => jset m q.1 q.2) [])], p.1) [] from rfl,
        parseTomlLine_blank]
      have hsect : p.2.foldl (fun m q => jset m q.1 q.2) [] = p.2 := by
        rw [foldl_jset_map Prod.snd Prod.fst p.2 [] hnds (by simp [jkeys])]
        simp
      rw [hsect]
      rw [List.map_cons, List.nodup_cons] at hnd
      have hfresh2 : ∀ z ∈ rest, z.1 ∉ jkeys (acc ++ [(p.1, p.2)]) := by
        intro z hz
        simp only [jkeys, List.map_append, List.mem_append]
        rintro (hk | hk)
        · exact hfresh z (List.mem_cons_of_mem _ hz) hk
        · simp only [List.map_cons, List.map_nil, List.mem_singleton] at hk
          exact hnd.1 (hk ▸ List.mem_map_of_mem Prod.fst hz)
      obtain ⟨endsec, hend⟩ := ih (acc ++ [(p.1, p.2)]) p.1 hnd.2 hfresh2
        (fun z hz => hok z (List.mem_cons_of_mem _ hz))
      refine ⟨endsec, ?_⟩
      rw [show ((p.1, p.2) : JStr × TomlSection) = p from rfl] at hend
      rw [hend, List.append_assoc]
      rfl

/-- `parseToml` inverts `stringifyToml` on well-formed documents. -/
theorem parseToml_stringifyToml (doc : TomlDoc) (h : okDoc doc) :
    parseToml (stringifyToml doc) = doc := by
  cases doc with
  | nil => rfl
  | cons p rest =>
      rw [parseToml, stringifyToml,
        splitOnChar_joinSep '\n' (tomlLines (p :: rest)) ?_
          (tomlLines_no_nl _ (fun z hz =>
            ⟨(h.2 z hz).1, fun q hq => ⟨((h.2 z hz).2.2 q hq).2.1,
              ((h.2 z hz).2.2 q hq).2.2⟩⟩))]
      · obtain ⟨endsec, hend⟩ :=
          parseToml_sections (p :: rest) [] [] h.1 (by simp [jkeys]) h.2
        rw [hend]
        rfl
      · rw [tomlLines, List.flatMap_cons]
        simp

/-- Codex-side well-formedness of one merged server: a present, non-empty,
newline-free command, well-formed args elements, and a well-formed env
table. -/
def okCodexServer (s : McpServer) : Prop :=
  (∃ c, s.command = some c ∧ c ≠ [] ∧ '\n' ∉ c ∧ '\r' ∉ c) ∧
    (∀ xs, s.args = some xs → ∀ x ∈ xs, okArg x) ∧
    (∀ kvs, s.env = some kvs →
      (kvs.map Prod.fst).Nodup ∧ ∀ p ∈ kvs, okEnvPair p)

/-- The raw TOML values the Codex read recovers for one written server. -/
def codexRawOf (s : McpServer) : CodexServer :=
  ⟨TomlValue.str (s.command.getD []), s.args.map TomlValue.arr,
    s.env.map TomlValue.table⟩

theorem okSection_codex (s : McpServer) (h : okCodexServer s) :
    ((codexSectionOfServer s).map Prod.fst).Nodup ∧
      ∀ q ∈ codexSectionOfServer s,
        q.1 ≠ [] ∧ (∀ c ∈ q.1, isWordChar c = true) ∧ okTomlValue q.2 := by
  obtain ⟨⟨c, hc, hcne, hcn, hcr⟩, hargs, henv⟩ := h
  obtain ⟨cmd, args, env, dis⟩ := s
  simp only [McpServer.command] at hc
  subst hc
  have hkc : (("command".data : JStr)) ≠ [] ∧
      ∀ c ∈ ("command".data : JStr), isWordChar c = true := by decide
  have hka : (("args".data : JStr)) ≠ [] ∧
      ∀ c ∈ ("args".data : JStr), isWordChar c = true := by decide
  have hke : (("env".data : JStr)) ≠ [] ∧
      ∀ c ∈ ("env".data : JStr), isWordChar c = true := by decide
  cases args with
  | none =>
      cases env with
      | none =>
          refine ⟨?_, ?_⟩
          · show (["command".data] : List JStr).Nodup
            decide
          · intro q hq
            simp only [codexSectionOfServer, List.append_nil, List.mem_cons,
              List.not_mem_nil, or_false] at hq
            subst hq
            exact ⟨hkc.1, hkc.2, ⟨hcn, hcr⟩⟩
      | some kvs =>
          obtain ⟨hknd, hkok⟩ := henv kvs rfl
          refine ⟨?_, ?_⟩
          · show (["command".data, "env".data] : List JStr).Nodup
            decide
          · intro q hq
            simp only [codexSectionOfServer, List.nil_append, List.append_nil,
              List.cons_append, List.mem_append, List.mem_cons,
              List.not_mem_nil, or_false] at hq
            rcases hq with hq | hq
            · subst hq
              exact ⟨hkc.1, hkc.2, ⟨hcn, hcr⟩⟩
            · subst hq
              exact ⟨hke.1, hke.2, ⟨hknd, hkok⟩⟩
  | some xs =>
      have hxok := hargs xs rfl
      cases env with
      | none =>
          refine ⟨?_, ?_⟩
          · show (["command".data, "args".data] : List JStr).Nodup
            decide
          · intro q hq
            simp only [codexSectionOfServer, List.nil_append, List.append_nil,
              List.cons_append, List.mem_append, List.mem_cons,
              List.not_mem_nil, or_false] at hq
            rcases hq with hq | hq
            · subst hq
              exact ⟨hkc.1, hkc.2, ⟨hcn, hcr⟩⟩
            · subst hq
              exact ⟨hka.1, hka.2, hxok⟩
      | some kvs =>
          obtain ⟨hknd, hkok⟩ := henv kvs rfl
          refine ⟨?_, ?_⟩
          · show (["command".data, "args".data, "env".data] : List JStr).Nodup
            decide
          · intro q hq
            simp only [codexSectionOfServer, List.nil_append, List.append_nil,
              List.cons_append, List.mem_append, List.mem_cons,
              List.not_mem_nil, or_false] at hq
            rcases hq with hq | hq | hq
            · subst hq
              exact ⟨hkc.1, hkc.2, ⟨hcn, hcr⟩⟩
            · subst hq
              exact ⟨hka.1, hka.2, hxok⟩
            · subst hq
              exact ⟨hke.1, hke.2, ⟨hknd, hkok⟩⟩

theorem codexStep_section (acc : List (JStr × CodexServer)) (n : JStr)
    (s : McpServer) (h : okCodexServer s) :
    codexStep acc (MCP_PRE ++ n, codexSectionOfServer s) =
      jset acc n (codexRawOf s) := by
  obtain ⟨⟨c, hc, hcne, _, _⟩, _, _⟩ := h
  rw [codexStep, if_pos (isPrefixOf_append_self MCP_PRE n)]
  have hcmd : jget (codexSectionOfServer s) ("command".data) =
      some (TomlValue.str (s.command.getD [])) := by
    obtain ⟨cmd, args, env, dis⟩ := s
    cases args <;> cases env <;> simp [codexSectionOfServer, jget]
  rw [hcmd]
  have htr : tomlTruthy (TomlValue.str (s.command.getD [])) = true := by
    rw [hc]
    simpa [tomlTruthy] using hcne
  simp only [htr, if_true]
  have hdrop : (MCP_PRE ++ n).drop MCP_PRE.length = n := List.drop_left _ _
  have hargs : jget (codexSectionOfServer s) ("args".data) =
      s.args.map TomlValue.arr := by
    obtain ⟨cmd, args, env, dis⟩ := s
    cases args <;> cases env <;> simp [codexSectionOfServer, jget]
  have henv : jget (codexSectionOfServer s) ("env".data) =
      s.env.map TomlValue.table := by
    obtain ⟨cmd, args, env, dis⟩ := s
    cases args <;> cases env <;> simp [codexSectionOfServer, jget]
  rw [hdrop, hargs, henv]
  rfl

theorem codexExtract_map (servers : List (JStr × McpServer)) :
    ∀ acc, (∀ p ∈ servers, okCodexServer p.2) →
      (servers.map (fun q => (MCP_PRE ++ q.1, codexSectionOfServer q.2))).foldl
          codexStep acc =
        servers.foldl (fun acc q => jset acc q.1 (codexRawOf q.2)) acc := by
  induction servers with
  | nil => intro acc _; rfl
  | cons p r ih =>
      intro acc hok
      rw [List.map_cons, List.foldl_cons, List.foldl_cons,
        codexStep_section acc p.1 p.2 (hok p (List.mem_cons_self _ _))]
      exact ih _ (fun z hz => hok z (List.mem_cons_of_mem _ hz))

/-- The Codex dialect round trip: serializing a well-formed merged mapping
into empty existing content and re-running the Codex extraction recovers
every server, with its raw TOML values. -/
theorem codexRoundTrip (config : McpConfig)
    (hnd : (config.mcpServers.map Prod.fst).Nodup)
    (hname : ∀ p ∈ config.mcpServers, ']' ∉ p.1 ∧ '\n' ∉ p.1)
    (hok : ∀ p ∈ config.mcpServers, okCodexServer p.2) :
    codexExtract (parseToml (serializeCodexConfig config [])) =
      config.mcpServers.map (fun q => (q.1, codexRawOf q.2)) := by
  have hnd2 : (config.mcpServers.map (fun q => MCP_PRE ++ q.1)).Nodup := by
    rw [show config.mcpServers.map (fun q => MCP_PRE ++ q.1) =
        (config.mcpServers.map Prod.fst).map (fun nm => MCP_PRE ++ nm) from by
      rw [List.map_map]
      rfl]
    exact hnd.map (fun a b hab => List.append_cancel_left hab)
  have hdoc : codexTransform [] config =
      config.mcpServers.map (fun q => (MCP_PRE ++ q.1, codexSectionOfServer q.2)) := by
    rw [codexTransform]
    have h2 := foldl_jset_map (fun q : JStr × McpServer => codexSectionOfServer q.2)
      (fun q => MCP_PRE ++ q.1) config.mcpServers [] hnd2 (by simp [jkeys])
    simpa using h2
  have hokdoc : okDoc (config.mcpServers.map
      (fun q => (MCP_PRE ++ q.1, codexSectionOfServer q.2))) := by
    constructor
    · rw [List.map_map]
      exact hnd2
    · intro p hp
      rw [List.mem_map] at hp
      obtain ⟨q, hq, hpq⟩ := hp
      rw [← hpq]
      refine ⟨⟨by simp [MCP_PRE], ?_, ?_⟩,
        (okSection_codex q.2 (hok q hq)).1, (okSection_codex q.2 (hok q hq)).2⟩
      · intro hcon
        rw [List.mem_append] at hcon
        rcases hcon with hcon | hcon
        · exact absurd hcon (by decide)
        · exact (hname q hq).1 hcon
      · intro hcon
        rw [List.mem_append] at hcon
        rcases hcon with hcon | hcon
        · exact absurd hcon (by decide)
        · exact (hname q hq).2 hcon
  rw [serializeCodexConfig, show parseToml ([] : JStr) = [] from rfl, hdoc,
    parseToml_stringifyToml _ hokdoc, codexExtract,
    codexExtract_map config.mcpServers [] hok]
  rw [foldl_jset_map (fun q : JStr × McpServer => codexRawOf q.2) Prod.fst
    config.mcpServers [] hnd (by simp [jkeys])]
  simp

/-- Characters admitted inside serialized OpenCode strings for the round
trip: no quote or backslash (escape-free), no closing brace or bracket and
no comma (so the trailing-comma cleaner cannot fire inside), no slash or
star (so the comment stripper cannot fire inside), and no control
characters. -/
def okOcChar (c : Char) : Prop :=
  c ≠ '"' ∧ c ≠ '\\' ∧ c ≠ '}' ∧ c ≠ ']' ∧ c ≠ '/' ∧ c ≠ '*' ∧ c ≠ ',' ∧
    32 ≤ c.toNat

def okOcStr (s : JStr) : Prop := ∀ c ∈ s, okOcChar c

mutual

/-- The JSON fragment the OpenCode round trip covers: strings of admitted
characters, arrays, and objects (numbers, booleans and null do not occur in
the documents the serializer emits). -/
def okJv : JVal → Prop
  | .str s => okOcStr s
  | .arr xs => okElems xs
  | .obj kvs => okFields kvs
  | _ => False

def okElems : List JVal → Prop
  | [] => True
  | x :: r => okJv x ∧ okElems r

def okFields : List (JStr × JVal) → Prop
  | [] => True
  | (k, v) :: r => okOcStr k ∧ okJv v ∧ okFields r

end

theorem jsonEscapeChar_plain (c : Char) (h : okOcChar c) :
    jsonEscapeChar c = [c] := by
  obtain ⟨h1, h2, _, _, _, _, _, h8⟩ := h
  rw [jsonEscapeChar, if_neg h1, if_neg h2,
    if_neg (fun hc => by rw [hc] at h8; exact absurd h8 (by decide)),
    if_neg (fun hc => by rw [hc] at h8; exact absurd h8 (by decide)),
    if_neg (fun hc => by rw [hc] at h8; exact absurd h8 (by decide)),
    if_neg (fun hc => by rw [hc] at h8; exact absurd h8 (by decide)),
    if_neg (fun hc => by rw [hc] at h8; exact absurd h8 (by decide)),
    if_neg (by omega)]

theorem jsonQuote_plain (s : JStr) (h : okOcStr s) :
    jsonQuote s = '"' :: (s ++ ['"']) := by
  have hflat : (s.map jsonEscapeChar).flatten = s := by
    induction s with
    | nil => rfl
    | cons c t ih =>
        rw [List.map_cons, List.flatten_cons,
          jsonEscapeChar_plain c (h c (List.mem_cons_self _ _)),
          ih (fun z hz => h z (List.mem_cons_of_mem _ hz))]
        rfl
  rw [jsonQuote, hflat]
  rfl

theorem jvParseStr_plain (k : JStr) :
    ∀ rest, (∀ c ∈ k, c ≠ '"' ∧ c ≠ '\\') →
      jvParseStr (k ++ '"' :: rest) = some (k, rest) := by
  induction k with
  | nil => intro rest _; rfl
  | cons c t ih =>
      intro rest h
      obtain ⟨hc1, hc2⟩ := h c (List.mem_cons_self _ _)
      have ht := ih rest (fun z hz => h z (List.mem_cons_of_mem _ hz))
      rw [List.cons_append, jvParseStr.eq_def]
      split
      · rename_i heq
        exact absurd heq (by simp)
      · rename_i heq
        rw [List.cons.injEq] at heq
        exact absurd heq.1 hc1
      · rename_i heq
        rw [List.cons.injEq] at heq
        exact absurd heq.1 hc2
      · rename_i heq
        rw [List.cons.injEq] at heq
        exact absurd heq.1 hc2
      · rename_i heq
        rw [List.cons.injEq] at heq
        exact absurd heq.1 hc2
      · rename_i c2 r2 heq
        rw [List.cons.injEq] at heq
        rw [← heq.1, ← heq.2, ht]

/-- Heads of serialized fragment values: a quote, bracket, or brace. -/
theorem jsonStringify_head (v : JVal) (lvl : Nat) (h : okJv v) :
    ∃ d S2, jsonStringify lvl v = d :: S2 ∧
      (d = '"' ∨ d = '[' ∨ d = '{') := by
  cases v with
  | str s => exact ⟨'"', _, rfl, Or.inl rfl⟩
  | num n => exact absurd h (by simp [okJv])
  | bool b => cases b <;> exact absurd h (by simp [okJv])
  | null => exact absurd h (by simp [okJv])
  | arr xs =>
      cases xs with
      | nil => exact ⟨'[', [']'], rfl, Or.inr (Or.inl rfl)⟩
      | cons x t => exact ⟨'[', _, rfl, Or.inr (Or.inl rfl)⟩
  | obj kvs =>
      cases kvs with
      | nil => exact ⟨'{', ['}'], rfl, Or.inr (Or.inr rfl)⟩
      | cons kv t => exact ⟨'{', _, rfl, Or.inr (Or.inr rfl)⟩

theorem jsonPad_ws (lvl : Nat) : ∀ c ∈ jsonPad lvl, isWsJson c = true := by
  intro c hc
  rw [jsonPad] at hc
  rw [List.eq_of_mem_replicate hc]
  rfl

theorem jvSize_pos (v : JVal) : 1 ≤ jvSize v := by
  cases v <;> simp [jvSize]

theorem jvSizeList_pos (xs : List JVal) : 1 ≤ jvSizeList xs := by
  cases xs <;> simp [jvSizeList] <;> omega

theorem jvSizeFields_pos (kvs : List (JStr × JVal)) : 1 ≤ jvSizeFields kvs := by
  cases kvs with
  | nil => simp [jvSizeFields]
  | cons kv r =>
      obtain ⟨k, v⟩ := kv
      simp [jvSizeFields]
      omega

theorem items_dropWhile (x : JVal) (t : List JVal) (lvl : Nat) (tl : List Char)
    (hx : okJv x) :
    ∃ dx zz, ('\n' :: (jsonItems (lvl + 1) (x :: t) ++ tl)).dropWhile isWsJson =
      dx :: zz ∧ (dx = '"' ∨ dx = '[' ∨ dx = '{') := by
  obtain ⟨d, s2, hS, hd⟩ := jsonStringify_head x (lvl + 1) hx
  have hnws : isWsJson d = false := by
    rcases hd with h | h | h <;> (rw [h]; rfl)
  have hws : ∀ c ∈ '\n' :: jsonPad (lvl + 1), isWsJson c = true := by
    intro c hc
    rw [List.mem_cons] at hc
    rcases hc with hc | hc
    · rw [hc]; rfl
    · exact jsonPad_ws _ c hc
  cases t with
  | nil =>
      refine ⟨d, s2 ++ tl, ?_, hd⟩
      have e1 : '\n' :: (jsonItems (lvl + 1) (x :: []) ++ tl) =
          ('\n' :: jsonPad (lvl + 1)) ++ (d :: (s2 ++ tl)) := by
        rw [show jsonItems (lvl + 1) [x] =
          jsonPad (lvl + 1) ++ jsonStringify (lvl + 1) x from rfl, hS]
        simp
      rw [e1]
      exact dropWhile_append_all isWsJson _ d _ hws hnws
  | cons y t2 =>
      refine ⟨d, s2 ++ (',' :: '\n' :: jsonItems (lvl + 1) (y :: t2) ++ tl), ?_, hd⟩
      have e1 : '\n' :: (jsonItems (lvl + 1) (x :: y :: t2) ++ tl) =
          ('\n' :: jsonPad (lvl + 1)) ++
            (d :: (s2 ++ (',' :: '\n' :: jsonItems (lvl + 1) (y :: t2) ++ tl))) := by
        rw [show jsonItems (lvl + 1) (x :: y :: t2) =
          jsonPad (lvl + 1) ++ jsonStringify (lvl + 1) x ++
            ',' :: '\n' :: jsonItems (lvl + 1) (y :: t2) from rfl, hS]
        simp
      rw [e1]
      exact dropWhile_append_all isWsJson _ d _ hws hnws

theorem fields_dropWhile (k : JStr) (v : JVal) (r : List (JStr × JVal))
    (lvl : Nat) (tl : List Char) :
    ∃ zz, ('\n' :: (jsonFields (lvl + 1) ((k, v) :: r) ++ tl)).dropWhile isWsJson =
      '"' :: zz := by
  have hws : ∀ c ∈ '\n' :: jsonPad (lvl + 1), isWsJson c = true := by
    intro c hc
    rw [List.mem_cons] at hc
    rcases hc with hc | hc
    · rw [hc]; rfl
    · exact jsonPad_ws _ c hc
  have hq : jsonQuote k = '"' :: ((k.map jsonEscapeChar).flatten ++ ['"']) := rfl
  cases r with
  | nil =>
      refine ⟨((k.map jsonEscapeChar).flatten ++ ['"']) ++
        ((':' :: ' ' :: jsonStringify (lvl + 1) v) ++ tl), ?_⟩
      have e1 : '\n' :: (jsonFields (lvl + 1) ((k, v) :: []) ++ tl) =
          ('\n' :: jsonPad (lvl + 1)) ++
            ('"' :: (((k.map jsonEscapeChar).flatten ++ ['"']) ++
              ((':' :: ' ' :: jsonStringify (lvl + 1) v) ++ tl))) := by
        rw [show jsonFields (lvl + 1) [(k, v)] =
          (jsonPad (lvl + 1) ++ jsonQuote k) ++
            (':' :: ' ' :: jsonStringify (lvl + 1) v) from rfl, hq]
        simp
      rw [e1]
      exact dropWhile_append_all isWsJson _ '"' _ hws (by decide)
  | cons kv2 r2 =>
      refine ⟨((k.map jsonEscapeChar).flatten ++ ['"']) ++
        (((':' :: ' ' :: jsonStringify (lvl + 1) v) ++
          (',' :: '\n' :: jsonFields (lvl + 1) (kv2 :: r2))) ++ tl), ?_⟩
      have e1 : '\n' :: (jsonFields (lvl + 1) ((k, v) :: kv2 :: r2) ++ tl) =
          ('\n' :: jsonPad (lvl + 1)) ++
            ('"' :: (((k.map jsonEscapeChar).flatten ++ ['"']) ++
              (((':' :: ' ' :: jsonStringify (lvl + 1) v) ++
                (',' :: '\n' :: jsonFields (lvl + 1) (kv2 :: r2))) ++ tl))) := by
        rw [show jsonFields (lvl + 1) ((k, v) :: kv2 :: r2) =
          jsonPad (lvl + 1) ++ jsonQuote k ++
            ':' :: ' ' :: jsonStringify (lvl + 1) v ++
              ',' :: '\n' :: jsonFields (lvl + 1) (kv2 :: r2) from rfl, hq]
        simp
      rw [e1]
      exact dropWhile_append_all isWsJson _ '"' _ hws (by decide)

theorem nlPad_ws (lvl : Nat) : ∀ c ∈ '\n' :: jsonPad lvl, isWsJson c = true := by
  intro c hc
  rw [List.mem_cons] at hc
  rcases hc with hc | hc
  · rw [hc]; rfl
  · exact jsonPad_ws _ c hc

/-- The JSON parser inverts the pretty-printer on the OpenCode fragment:
values after any whitespace prefix, member lists and element lists in the
shapes the printer emits. -/
theorem parse_inv : ∀ fuel : Nat,
    (∀ (v : JVal) (lvl : Nat) (w rest : List Char), okJv v →
      (∀ c ∈ w, isWsJson c = true) → jvSize v < fuel →
      jvParseVal fuel (w ++ (jsonStringify lvl v ++ rest)) = some (v, rest)) ∧
    (∀ (kvs : List (JStr × JVal)) (lvl : Nat) (rest : List Char), okFields kvs →
      kvs ≠ [] → jvSizeFields kvs < fuel →
      jvParseMembers fuel
        ('\n' :: (jsonFields (lvl + 1) kvs ++
          ('\n' :: (jsonPad lvl ++ ('}' :: rest))))) = some (kvs, rest)) ∧
    (∀ (xs : List JVal) (lvl : Nat) (rest : List Char), okElems xs →
      xs ≠ [] → jvSizeList xs < fuel →
      jvParseElems fuel
        ('\n' :: (jsonItems (lvl + 1) xs ++
          ('\n' :: (jsonPad lvl ++ (']' :: rest))))) = some (xs, rest)) := by
  intro fuel
  induction fuel using Nat.strong_induction_on with
  | _ fuel ih =>
  cases fuel with
  | zero =>
      exact ⟨fun v _ _ _ _ _ h => absurd h (by omega),
        fun kvs _ _ _ _ h => absurd h (by omega),
        fun xs _ _ _ _ h => absurd h (by omega)⟩
  | succ f =>
  obtain ⟨ihV, ihM, ihE⟩ := ih f (Nat.lt_succ_self f)
  refine ⟨?_, ?_, ?_⟩
  · intro v lvl w rest hok hw hsz
    cases v with
    | num n => exact absurd hok (by simp [okJv])
    | bool b => exact absurd hok (by cases b <;> simp [okJv])
    | null => exact absurd hok (by simp [okJv])
    | str s =>
        have hs : okOcStr s := hok
        have htext : w ++ (jsonStringify lvl (.str s) ++ rest) =
            w ++ '"' :: (s ++ '"' :: rest) := by
          rw [show jsonStringify lvl (.str s) = jsonQuote s from rfl,
            jsonQuote_plain s hs]
          simp
        rw [htext]
        have hdw : (w ++ '"' :: (s ++ '"' :: rest)).dropWhile isWsJson =
            '"' :: (s ++ '"' :: rest) :=
          dropWhile_append_all isWsJson w '"' _ hw (by decide)
        have hstr := jvParseStr_plain s rest
          (fun c hc => ⟨(hs c hc).1, (hs c hc).2.1⟩)
        simp only [jvParseVal, hdw, hstr]
    | arr xs =>
        cases xs with
        | nil =>
            have htext : w ++ (jsonStringify lvl (.arr []) ++ rest) =
                w ++ '[' :: (']' :: rest) := by
              rw [show jsonStringify lvl (.arr []) = ['[', ']'] from rfl]
              simp
            rw [htext]
            have hdw : (w ++ '[' :: (']' :: rest)).dropWhile isWsJson =
                '[' :: (']' :: rest) :=
              dropWhile_append_all isWsJson w '[' _ hw (by decide)
            have hdwb : (']' :: rest).dropWhile isWsJson = ']' :: rest := rfl
            simp only [jvParseVal, hdw, hdwb]
        | cons x t =>
            have hel : okElems (x :: t) := hok
            have htext : w ++ (jsonStringify lvl (.arr (x :: t)) ++ rest) =
                w ++ '[' :: ('\n' :: (jsonItems (lvl + 1) (x :: t) ++
                  ('\n' :: (jsonPad lvl ++ (']' :: rest))))) := by
              rw [show jsonStringify lvl (.arr (x :: t)) =
                '[' :: '\n' :: jsonItems (lvl + 1) (x :: t) ++
                  '\n' :: jsonPad lvl ++ [']'] from rfl]
              simp
            rw [htext]
            have hdw : (w ++ '[' :: ('\n' :: (jsonItems (lvl + 1) (x :: t) ++
                ('\n' :: (jsonPad lvl ++ (']' :: rest)))))).dropWhile isWsJson =
                '[' :: ('\n' :: (jsonItems (lvl + 1) (x :: t) ++
                  ('\n' :: (jsonPad lvl ++ (']' :: rest))))) :=
              dropWhile_append_all isWsJson w '[' _ hw (by decide)
            have hszL : jvSizeList (x :: t) < f := by
              have e : jvSize (.arr (x :: t)) = 1 + jvSizeList (x :: t) := rfl
              omega
            obtain ⟨dx, zz, hdw2, hdx⟩ := items_dropWhile x t lvl
              ('\n' :: (jsonPad lvl ++ (']' :: rest))) hel.1
            have helems := ihE (x :: t) lvl rest hel (by simp) hszL
            simp only [jvParseVal, hdw, hdw2]
            split
            · rename_i r2 heq
              rcases hdx with h | h | h <;> (rw [h] at heq; simp at heq)
            · rw [helems]
    | obj kvs =>
        cases kvs with
        | nil =>
            have htext : w ++ (jsonStringify lvl (.obj []) ++ rest) =
                w ++ '{' :: ('}' :: rest) := by
              rw [show jsonStringify lvl (.obj []) = ['{', '}'] from rfl]
              simp
            rw [htext]
            have hdw : (w ++ '{' :: ('}' :: rest)).dropWhile isWsJson =
                '{' :: ('}' :: rest) :=
              dropWhile_append_all isWsJson w '{' _ hw (by decide)
            have hdwb : ('}' :: rest).dropWhile isWsJson = '}' :: rest := rfl
            simp only [jvParseVal, hdw, hdwb]
        | cons kv t =>
            obtain ⟨k, v⟩ := kv
            have hfl : okFields ((k, v) :: t) := hok
            have htext : w ++ (jsonStringify lvl (.obj ((k, v) :: t)) ++ rest) =
                w ++ '{' :: ('\n' :: (jsonFields (lvl + 1) ((k, v) :: t) ++
                  ('\n' :: (jsonPad lvl ++ ('}' :: rest))))) := by
              rw [show jsonStringify lvl (.obj ((k, v) :: t)) =
                '{' :: '\n' :: jsonFields (lvl + 1) ((k, v) :: t) ++
                  '\n' :: jsonPad lvl ++ ['}'] from rfl]
              simp
            rw [htext]
            have hdw : (w ++ '{' :: ('\n' :: (jsonFields (lvl + 1) ((k, v) :: t) ++
                ('\n' :: (jsonPad lvl ++ ('}' :: rest)))))).dropWhile isWsJson =
                '{' :: ('\n' :: (jsonFields (lvl + 1) ((k, v) :: t) ++
                  ('\n' :: (jsonPad lvl ++ ('}' :: rest))))) :=
              dropWhile_append_all isWsJson w '{' _ hw (by decide)
            have hszF : jvSizeFields ((k, v) :: t) < f := by
              have e : jvSize (.obj ((k, v) :: t)) =
                1 + jvSizeFields ((k, v) :: t) := rfl
              omega
            obtain ⟨zz, hdw2⟩ := fields_dropWhile k v t lvl
              ('\n' :: (jsonPad lvl ++ ('}' :: rest)))
            have hmem := ihM ((k, v) :: t) lvl rest hfl (by simp) hszF
            simp only [jvParseVal, hdw, hdw2, hmem]
            rfl
  · intro kvs lvl rest hok hne hsz
    cases kvs with
    | nil => exact absurd rfl hne
    | cons kv r =>
        obtain ⟨k, v⟩ := kv
        have hofk : okOcStr k := hok.1
        have hov : okJv v := hok.2.1
        have hofr : okFields r := hok.2.2
        have hwp := nlPad_ws (lvl + 1)
        cases r with
        | nil =>
            have hb : jvSize v < f := by
              have e : jvSizeFields [(k, v)] = 1 + jvSize v + 1 := rfl
              omega
            have htext : '\n' :: (jsonFields (lvl + 1) ((k, v) :: []) ++
                ('\n' :: (jsonPad lvl ++ ('}' :: rest)))) =
                ('\n' :: jsonPad (lvl + 1)) ++
                  ('"' :: (k ++ '"' :: (':' :: ' ' ::
                    (jsonStringify (lvl + 1) v ++
                      ('\n' :: (jsonPad lvl ++ ('}' :: rest))))))) := by
              rw [show jsonFields (lvl + 1) [(k, v)] =
                (jsonPad (lvl + 1) ++ jsonQuote k) ++
                  (':' :: ' ' :: jsonStringify (lvl + 1) v) from rfl,
                jsonQuote_plain k hofk]
              simp
            rw [htext]
            have hdw : ((('\n' :: jsonPad (lvl + 1)) ++
                ('"' :: (k ++ '"' :: (':' :: ' ' ::
                  (jsonStringify (lvl + 1) v ++
                    ('\n' :: (jsonPad lvl ++ ('}' :: rest))))))))).dropWhile
                isWsJson =
                '"' :: (k ++ '"' :: (':' :: ' ' ::
                  (jsonStringify (lvl + 1) v ++
                    ('\n' :: (jsonPad lvl ++ ('}' :: rest)))))) :=
              dropWhile_append_all isWsJson _ '"' _ hwp (by decide)
            have hstr := jvParseStr_plain k
              (':' :: ' ' :: (jsonStringify (lvl + 1) v ++
                ('\n' :: (jsonPad lvl ++ ('}' :: rest)))))
              (fun c hc => ⟨(hofk c hc).1, (hofk c hc).2.1⟩)
            have hdwc : (':' :: ' ' :: (jsonStringify (lvl + 1) v ++
                ('\n' :: (jsonPad lvl ++ ('}' :: rest))))).dropWhile isWsJson =
                ':' :: ' ' :: (jsonStringify (lvl + 1) v ++
                  ('\n' :: (jsonPad lvl ++ ('}' :: rest)))) := rfl
            have hval : jvParseVal f (' ' :: (jsonStringify (lvl + 1) v ++
                ('\n' :: (jsonPad lvl ++ ('}' :: rest))))) =
                some (v, '\n' :: (jsonPad lvl ++ ('}' :: rest))) := by
              have h2 := ihV v (lvl + 1) [' ']
                ('\n' :: (jsonPad lvl ++ ('}' :: rest))) hov (by decide) hb
              simpa using h2
            have hdw3 : ('\n' :: (jsonPad lvl ++ ('}' :: rest))).dropWhile
                isWsJson = '}' :: rest := by
              have h3 := dropWhile_append_all isWsJson ('\n' :: jsonPad lvl)
                '}' rest (nlPad_ws lvl) (by decide)
              simpa using h3
            simp only [jvParseMembers, hdw, hstr, hdwc, hval, hdw3]
        | cons kv2 r2 =>
            have hb : jvSize v < f := by
              have e : jvSizeFields ((k, v) :: kv2 :: r2) =
                  1 + jvSize v + jvSizeFields (kv2 :: r2) := by
                rw [show jvSizeFields ((k, v) :: kv2 :: r2) =
                  1 + jvSize v + jvSizeFields (kv2 :: r2) from rfl]
              have hp := jvSizeFields_pos (kv2 :: r2)
              omega
            have hb2 : jvSizeFields (kv2 :: r2) < f := by
              have e : jvSizeFields ((k, v) :: kv2 :: r2) =
                  1 + jvSize v + jvSizeFields (kv2 :: r2) := rfl
              have hp := jvSize_pos v
              omega
            have htext : '\n' :: (jsonFields (lvl + 1) ((k, v) :: kv2 :: r2) ++
                ('\n' :: (jsonPad lvl ++ ('}' :: rest)))) =
                ('\n' :: jsonPad (lvl + 1)) ++
                  ('"' :: (k ++ '"' :: (':' :: ' ' ::
                    (jsonStringify (lvl + 1) v ++
                      (',' :: ('\n' :: (jsonFields (lvl + 1) (kv2 :: r2) ++
                        ('\n' :: (jsonPad lvl ++ ('}' :: rest)))))))))) := by
              rw [show jsonFields (lvl + 1) ((k, v) :: kv2 :: r2) =
                jsonPad (lvl + 1) ++ jsonQuote k ++
                  ':' :: ' ' :: jsonStringify (lvl + 1) v ++
                    ',' :: '\n' :: jsonFields (lvl + 1) (kv2 :: r2) from rfl,
                jsonQuote_plain k hofk]
              simp
            rw [htext]
            have hdw : ((('\n' :: jsonPad (lvl + 1)) ++
                ('"' :: (k ++ '"' :: (':' :: ' ' ::
                  (jsonStringify (lvl + 1) v ++
                    (',' :: ('\n' :: (jsonFields (lvl + 1) (kv2 :: r2) ++
                      ('\n' :: (jsonPad lvl ++ ('}' :: rest)))))))))))).dropWhile
                isWsJson =
                '"' :: (k ++ '"' :: (':' :: ' ' ::
                  (jsonStringify (lvl + 1) v ++
                    (',' :: ('\n' :: (jsonFields (lvl + 1) (kv2 :: r2) ++
                      ('\n' :: (jsonPad lvl ++ ('}' :: rest)))))))))  :=
              dropWhile_append_all isWsJson _ '"' _ hwp (by decide)
            have hstr := jvParseStr_plain k
              (':' :: ' ' :: (jsonStringify (lvl + 1) v ++
                (',' :: ('\n' :: (jsonFields (lvl + 1) (kv2 :: r2) ++
                  ('\n' :: (jsonPad lvl ++ ('}' :: rest))))))))
              (fun c hc => ⟨(hofk c hc).1, (hofk c hc).2.1⟩)
            have hdwc : (':' :: ' ' :: (jsonStringify (lvl + 1) v ++
                (',' :: ('\n' :: (jsonFields (lvl + 1) (kv2 :: r2) ++
                  ('\n' :: (jsonPad lvl ++ ('}' :: rest)))))))).dropWhile
                isWsJson =
                ':' :: ' ' :: (jsonStringify (lvl + 1) v ++
                  (',' :: ('\n' :: (jsonFields (lvl + 1) (kv2 :: r2) ++
                    ('\n' :: (jsonPad lvl ++ ('}' :: rest))))))) := rfl
            have hval : jvParseVal f (' ' :: (jsonStringify (lvl + 1) v ++
                (',' :: ('\n' :: (jsonFields (lvl + 1) (kv2 :: r2) ++
                  ('\n' :: (jsonPad lvl ++ ('}' :: rest)))))))) =
                some (v, ',' :: ('\n' :: (jsonFields (lvl + 1) (kv2 :: r2) ++
                  ('\n' :: (jsonPad lvl ++ ('}' :: rest)))))) := by
              have h2 := ihV v (lvl + 1) [' ']
                (',' :: ('\n' :: (jsonFields (lvl + 1) (kv2 :: r2) ++
                  ('\n' :: (jsonPad lvl ++ ('}' :: rest)))))) hov (by decide) hb
              simpa using h2
            have hdwcm : (',' :: ('\n' :: (jsonFields (lvl + 1) (kv2 :: r2) ++
                ('\n' :: (jsonPad lvl ++ ('}' :: rest)))))).dropWhile isWsJson =
                ',' :: ('\n' :: (jsonFields (lvl + 1) (kv2 :: r2) ++
                  ('\n' :: (jsonPad lvl ++ ('}' :: rest))))) := rfl
            have hmem := ihM (kv2 :: r2) lvl rest hofr (by simp) hb2
            simp only [jvParseMembers, hdw, hstr, hdwc, hval, hdwcm, hmem]
  · intro xs lvl rest hok hne hsz
    cases xs with
    | nil => exact absurd rfl hne
    | cons x t =>
        have hx : okJv x := hok.1
        have hot : okElems t := hok.2
        cases t with
        | nil =>
            have hb : jvSize x < f := by
              have e : jvSizeList [x] = 1 + jvSize x + 1 := rfl
              omega
            have htext : '\n' :: (jsonItems (lvl + 1) (x :: []) ++
                ('\n' :: (jsonPad lvl ++ (']' :: rest)))) =
                ('\n' :: jsonPad (lvl + 1)) ++
                  (jsonStringify (lvl + 1) x ++
                    ('\n' :: (jsonPad lvl ++ (']' :: rest)))) := by
              rw [show jsonItems (lvl + 1) [x] =
                jsonPad (lvl + 1) ++ jsonStringify (lvl + 1) x from rfl]
              simp
            rw [htext]
            have hval := ihV x (lvl + 1) ('\n' :: jsonPad (lvl + 1))
              ('\n' :: (jsonPad lvl ++ (']' :: rest))) hx (nlPad_ws (lvl + 1)) hb
            have hdw3 : ('\n' :: (jsonPad lvl ++ (']' :: rest))).dropWhile
                isWsJson = ']' :: rest := by
              have h3 := dropWhile_append_all isWsJson ('\n' :: jsonPad lvl)
                ']' rest (nlPad_ws lvl) (by decide)
              simpa using h3
            simp only [jvParseElems, hval, hdw3]
        | cons y t2 =>
            have hb : jvSize x < f := by
              have e : jvSizeList (x :: y :: t2) =
                  1 + jvSize x + jvSizeList (y :: t2) := rfl
              have hp := jvSizeList_pos (y :: t2)
              omega
            have hb2 : jvSizeList (y :: t2) < f := by
              have e : jvSizeList (x :: y :: t2) =
                  1 + jvSize x + jvSizeList (y :: t2) := rfl
              have hp := jvSize_pos x
              omega
            have htext : '\n' :: (jsonItems (lvl + 1) (x :: y :: t2) ++
                ('\n' :: (jsonPad lvl ++ (']' :: rest)))) =
                ('\n' :: jsonPad (lvl + 1)) ++
                  (jsonStringify (lvl + 1) x ++
                    (',' :: ('\n' :: (jsonItems (lvl + 1) (y :: t2) ++
                      ('\n' :: (jsonPad lvl ++ (']' :: rest))))))) := by
              rw [show jsonItems (lvl + 1) (x :: y :: t2) =
                jsonPad (lvl + 1) ++ jsonStringify (lvl + 1) x ++
                  ',' :: '\n' :: jsonItems (lvl + 1) (y :: t2) from rfl]
              simp
            rw [htext]
            have hval := ihV x (lvl + 1) ('\n' :: jsonPad (lvl + 1))
              (',' :: ('\n' :: (jsonItems (lvl + 1) (y :: t2) ++
                ('\n' :: (jsonPad lvl ++ (']' :: rest)))))) hx
              (nlPad_ws (lvl + 1)) hb
            have hdwcm : (',' :: ('\n' :: (jsonItems (lvl + 1) (y :: t2) ++
                ('\n' :: (jsonPad lvl ++ (']' :: rest)))))).dropWhile isWsJson =
                ',' :: ('\n' :: (jsonItems (lvl + 1) (y :: t2) ++
                  ('\n' :: (jsonPad lvl ++ (']' :: rest))))) := rfl
            have helems := ihE (y :: t2) lvl rest hot (by simp) hb2
            simp only [jvParseElems, hval, hdwcm, helems]

/-- The structural size of a fragment value is at most the length of its
serialization (so the parser fuel `length + 1` suffices). -/
theorem jvSize_le_length : ∀ n : Nat,
    (∀ (v : JVal) (lvl : Nat), jvSize v ≤ n → okJv v →
      jvSize v ≤ (jsonStringify lvl v).length) ∧
    (∀ (kvs : List (JStr × JVal)) (lvl : Nat), jvSizeFields kvs ≤ n →
      okFields kvs →
      jvSizeFields kvs ≤ (jsonFields (lvl + 1) kvs).length + 1) ∧
    (∀ (xs : List JVal) (lvl : Nat), jvSizeList xs ≤ n → okElems xs →
      jvSizeList xs ≤ (jsonItems (lvl + 1) xs).length + 1) := by
  intro n
  induction n using Nat.strong_induction_on with
  | _ n ih =>
  cases n with
  | zero =>
      refine ⟨fun v _ h _ => absurd h ?_, fun kvs _ h _ => absurd h ?_,
        fun xs _ h _ => absurd h ?_⟩
      · have := jvSize_pos v
        omega
      · have := jvSizeFields_pos kvs
        omega
      · have := jvSizeList_pos xs
        omega
  | succ m =>
  obtain ⟨ihV, ihM, ihE⟩ := ih m (Nat.lt_succ_self m)
  refine ⟨?_, ?_, ?_⟩
  · intro v lvl hn hok
    cases v with
    | num n2 => exact absurd hok (by simp [okJv])
    | bool b => exact absurd hok (by cases b <;> simp [okJv])
    | null => exact absurd hok (by simp [okJv])
    | str s =>
        have e : jvSize (.str s) = 1 := rfl
        have e2 : jsonStringify lvl (.str s) =
            '"' :: ((s.map jsonEscapeChar).flatten ++ ['"']) := rfl
        rw [e, e2]
        simp
    | arr xs =>
        cases xs with
        | nil =>
            rw [show jvSize (.arr []) = 2 from rfl,
              show jsonStringify lvl (.arr []) = ['[', ']'] from rfl]
            simp
        | cons x t =>
            have e : jvSize (.arr (x :: t)) = 1 + jvSizeList (x :: t) := rfl
            have e2 : jsonStringify lvl (.arr (x :: t)) =
                '[' :: '\n' :: jsonItems (lvl + 1) (x :: t) ++
                  '\n' :: jsonPad lvl ++ [']'] := rfl
            have hi := ihE (x :: t) lvl (by rw [e] at hn; omega) hok
            rw [e, e2]
            simp only [List.length_append, List.length_cons]
            omega
    | obj kvs =>
        cases kvs with
        | nil =>
            rw [show jvSize (.obj []) = 2 from rfl,
              show jsonStringify lvl (.obj []) = ['{', '}'] from rfl]
            simp
        | cons kv t =>
            have e : jvSize (.obj (kv :: t)) = 1 + jvSizeFields (kv :: t) := rfl
            have e2 : jsonStringify lvl (.obj (kv :: t)) =
                '{' :: '\n' :: jsonFields (lvl + 1) (kv :: t) ++
                  '\n' :: jsonPad lvl ++ ['}'] := rfl
            have hi := ihM (kv :: t) lvl (by rw [e] at hn; omega) hok
            rw [e, e2]
            simp only [List.length_append, List.length_cons]
            omega
  · intro kvs lvl hn hok
    cases kvs with
    | nil =>
        rw [show jvSizeFields [] = 1 from rfl,
          show jsonFields (lvl + 1) [] = [] from rfl]
        simp
    | cons kv r =>
        obtain ⟨k, v⟩ := kv
        have e : jvSizeFields ((k, v) :: r) = 1 + jvSize v + jvSizeFields r := rfl
        have hvlen : jvSize v ≤ (jsonStringify (lvl + 1) v).length := by
          refine ihV v (lvl + 1) ?_ hok.2.1
          have := jvSizeFields_pos r
          rw [e] at hn
          omega
        cases r with
        | nil =>
            have e2 : jsonFields (lvl + 1) [(k, v)] =
                (jsonPad (lvl + 1) ++ jsonQuote k) ++
                  (':' :: ' ' :: jsonStringify (lvl + 1) v) := rfl
            rw [e, e2, show jvSizeFields ([] : List (JStr × JVal)) = 1 from rfl]
            have hpad : (jsonPad (lvl + 1)).length = 2 * (lvl + 1) := by
              rw [jsonPad]
              simp
            simp only [List.length_append, List.length_cons]
            omega
        | cons kv2 r2 =>
            have e2 : jsonFields (lvl + 1) ((k, v) :: kv2 :: r2) =
                jsonPad (lvl + 1) ++ jsonQuote k ++
                  ':' :: ' ' :: jsonStringify (lvl + 1) v ++
                    ',' :: '\n' :: jsonFields (lvl + 1) (kv2 :: r2) := rfl
            have hi := ihM (kv2 :: r2) lvl ?_ hok.2.2
            · rw [e, e2]
              simp only [List.length_append, List.length_cons]
              omega
            · have := jvSize_pos v
              rw [e] at hn
              omega
  · intro xs lvl hn hok
    cases xs with
    | nil =>
        rw [show jvSizeList [] = 1 from rfl,
          show jsonItems (lvl + 1) [] = [] from rfl]
        simp
    | cons x t =>
        have e : jvSizeList (x :: t) = 1 + jvSize x + jvSizeList t := rfl
        have hvlen : jvSize x ≤ (jsonStringify (lvl + 1) x).length := by
          refine ihV x (lvl + 1) ?_ hok.1
          have := jvSizeList_pos t
          rw [e] at hn
          omega
        cases t with
        | nil =>
            have e2 : jsonItems (lvl + 1) [x] =
                jsonPad (lvl + 1) ++ jsonStringify (lvl + 1) x := rfl
            rw [e, e2, show jvSizeList ([] : List JVal) = 1 from rfl]
            have hpad : (jsonPad (lvl + 1)).length = 2 * (lvl + 1) := by
              rw [jsonPad]
              simp
            simp only [List.length_append]
            omega
        | cons y t2 =>
            have e2 : jsonItems (lvl + 1) (x :: y :: t2) =
                jsonPad (lvl + 1) ++ jsonStringify (lvl + 1) x ++
                  ',' :: '\n' :: jsonItems (lvl + 1) (y :: t2) := rfl
            have hi := ihE (y :: t2) lvl ?_ hok.2
            · rw [e, e2]
              simp only [List.length_append, List.length_cons]
              omega
            · have := jvSize_pos x
              rw [e] at hn
              omega

/-- `JSON.parse` inverts the pretty-printer on fragment values followed by a
newline. -/
theorem jvParse_stringify (v : JVal) (hok : okJv v) :
    jvParse (jsonStringify 0 v ++ ['\n']) = some v := by
  have hsz : jvSize v ≤ (jsonStringify 0 v).length :=
    (jvSize_le_length (jvSize v)).1 v 0 le_rfl hok
  have hp := (parse_inv ((jsonStringify 0 v ++ ['\n']).length + 1)).1 v 0 [] ['\n']
    hok (by simp) (by simp only [List.length_append, List.length_singleton]; omega)
  rw [jvParse]
  rw [show ([] : List Char) ++ (jsonStringify 0 v ++ ['\n']) =
    jsonStringify 0 v ++ ['\n'] from by simp] at hp
  rw [hp]
  rfl

/-- A slash-free text passes the comment stripper unchanged (no `//` or
`/*` can begin anywhere, in or out of strings). -/
theorem stripAux_id (cs : List Char) (h : ∀ c ∈ cs, c ≠ '/') :
    ∀ prev inStr, stripAux prev inStr cs = cs := by
  induction cs with
  | nil => intro prev inStr; rfl
  | cons c rest ih =>
      intro prev inStr
      have hc : c ≠ '/' := h c (List.mem_cons_self _ _)
      have ht := ih (fun z hz => h z (List.mem_cons_of_mem _ hz))
      rw [stripAux_cons]
      by_cases hq : c = '"' ∧ prev ≠ some '\\'
      · rw [if_pos hq, ht]
      · rw [if_neg hq, if_neg (fun hx => hc hx.2.1), if_neg (fun hx => hc hx.2.1),
          ht]

/-- The serialized fragment contains no slash (and no star): its structural
characters are brackets, braces, quotes, colons, commas, spaces and
newlines, and its string contents exclude both. -/
theorem jsonStringify_mem : ∀ n : Nat,
    (∀ (v : JVal) (lvl : Nat), jvSize v ≤ n → okJv v →
      ∀ c ∈ jsonStringify lvl v, c ≠ '/' ∧ c ≠ '*') ∧
    (∀ (kvs : List (JStr × JVal)) (lvl : Nat), jvSizeFields kvs ≤ n →
      okFields kvs →
      ∀ c ∈ jsonFields (lvl + 1) kvs, c ≠ '/' ∧ c ≠ '*') ∧
    (∀ (xs : List JVal) (lvl : Nat), jvSizeList xs ≤ n → okElems xs →
      ∀ c ∈ jsonItems (lvl + 1) xs, c ≠ '/' ∧ c ≠ '*') := by
  have hpadm : ∀ (L : Nat) (c : Char), c ∈ jsonPad L → c ≠ '/' ∧ c ≠ '*' := by
    intro L c hc
    rw [jsonPad] at hc
    rw [List.eq_of_mem_replicate hc]
    exact ⟨by decide, by decide⟩
  intro n
  induction n using Nat.strong_induction_on with
  | _ n ih =>
  cases n with
  | zero =>
      refine ⟨fun v _ h _ => absurd h ?_, fun kvs _ h _ => absurd h ?_,
        fun xs _ h _ => absurd h ?_⟩
      · have := jvSize_pos v
        omega
      · have := jvSizeFields_pos kvs
        omega
      · have := jvSizeList_pos xs
        omega
  | succ m =>
  obtain ⟨ihV, ihM, ihE⟩ := ih m (Nat.lt_succ_self m)
  refine ⟨?_, ?_, ?_⟩
  · intro v lvl hn hok c hc
    cases v with
    | num n2 => exact absurd hok (by simp [okJv])
    | bool b => exact absurd hok (by cases b <;> simp [okJv])
    | null => exact absurd hok (by simp [okJv])
    | str s =>
        have hs : okOcStr s := hok
        rw [show jsonStringify lvl (.str s) = jsonQuote s from rfl,
          jsonQuote_plain s hs] at hc
        rw [List.mem_cons, List.mem_append, List.mem_singleton] at hc
        rcases hc with hc | hc | hc
        · rw [hc]; exact ⟨by decide, by decide⟩
        · exact ⟨(hs c hc).2.2.2.2.1, (hs c hc).2.2.2.2.2.1⟩
        · rw [hc]; exact ⟨by decide, by decide⟩
    | arr xs =>
        cases xs with
        | nil =>
            rw [show jsonStringify lvl (.arr []) = ['[', ']'] from rfl] at hc
            rw [List.mem_cons, List.mem_singleton] at hc
            rcases hc with hc | hc <;> (rw [hc]; exact ⟨by decide, by decide⟩)
        | cons x t =>
            rw [show jsonStringify lvl (.arr (x :: t)) =
              '[' :: '\n' :: jsonItems (lvl + 1) (x :: t) ++
                '\n' :: jsonPad lvl ++ [']'] from rfl] at hc
            have hc2 : c = '[' ∨ c = '\n' ∨ c ∈ jsonItems (lvl + 1) (x :: t) ∨
                c = '\n' ∨ c ∈ jsonPad lvl ∨ c = ']' := by
              simpa [List.mem_append, List.mem_cons, or_assoc] using hc
            rcases hc2 with hc | hc | hc | hc | hc | hc
            · rw [hc]; exact ⟨by decide, by decide⟩
            · rw [hc]; exact ⟨by decide, by decide⟩
            · refine ihE (x :: t) lvl ?_ hok c hc
              have e : jvSize (.arr (x :: t)) = 1 + jvSizeList (x :: t) := rfl
              omega
            · rw [hc]; exact ⟨by decide, by decide⟩
            · exact hpadm lvl c hc
            · rw [hc]; exact ⟨by decide, by decide⟩
    | obj kvs =>
        cases kvs with
        | nil =>
            rw [show jsonStringify lvl (.obj []) = ['{', '}'] from rfl] at hc
            rw [List.mem_cons, List.mem_singleton] at hc
            rcases hc with hc | hc <;> (rw [hc]; exact ⟨by decide, by decide⟩)
        | cons kv t =>
            rw [show jsonStringify lvl (.obj (kv :: t)) =
              '{' :: '\n' :: jsonFields (lvl + 1) (kv :: t) ++
                '\n' :: jsonPad lvl ++ ['}'] from rfl] at hc
            have hc2 : c = '{' ∨ c = '\n' ∨ c ∈ jsonFields (lvl + 1) (kv :: t) ∨
                c = '\n' ∨ c ∈ jsonPad lvl ∨ c = '}' := by
              simpa [List.mem_append, List.mem_cons, or_assoc] using hc
            rcases hc2 with hc | hc | hc | hc | hc | hc
            · rw [hc]; exact ⟨by decide, by decide⟩
            · rw [hc]; exact ⟨by decide, by decide⟩
            · refine ihM (kv :: t) lvl ?_ hok c hc
              have e : jvSize (.obj (kv :: t)) = 1 + jvSizeFields (kv :: t) := rfl
              omega
            · rw [hc]; exact ⟨by decide, by decide⟩
            · exact hpadm lvl c hc
            · rw [hc]; exact ⟨by decide, by decide⟩
  · intro kvs lvl hn hok c hc
    cases kvs with
    | nil => simp [show jsonFields (lvl + 1) [] = [] from rfl] at hc
    | cons kv r =>
        obtain ⟨k, v⟩ := kv
        have hofk : okOcStr k := hok.1
        have e : jvSizeFields ((k, v) :: r) = 1 + jvSize v + jvSizeFields r := rfl
        have hkmem : ∀ c2 ∈ jsonQuote k, c2 ≠ '/' ∧ c2 ≠ '*' := by
          intro c2 hc2
          rw [jsonQuote_plain k hofk, List.mem_cons, List.mem_append,
            List.mem_singleton] at hc2
          rcases hc2 with hc2 | hc2 | hc2
          · rw [hc2]; exact ⟨by decide, by decide⟩
          · exact ⟨(hofk c2 hc2).2.2.2.2.1, (hofk c2 hc2).2.2.2.2.2.1⟩
          · rw [hc2]; exact ⟨by decide, by decide⟩
        have hvmem : ∀ c2 ∈ jsonStringify (lvl + 1) v, c2 ≠ '/' ∧ c2 ≠ '*' := by
          refine ihV v (lvl + 1) ?_ hok.2.1
          have := jvSizeFields_pos r
          omega
        cases r with
        | nil =>
            rw [show jsonFields (lvl + 1) [(k, v)] =
              (jsonPad (lvl + 1) ++ jsonQuote k) ++
                (':' :: ' ' :: jsonStringify (lvl + 1) v) from rfl] at hc
            have hc2 : c ∈ jsonPad (lvl + 1) ∨ c ∈ jsonQuote k ∨ c = ':' ∨
                c = ' ' ∨ c ∈ jsonStringify (lvl + 1) v := by
              simpa [List.mem_append, List.mem_cons, or_assoc] using hc
            rcases hc2 with hc | hc | hc | hc | hc
            · exact hpadm (lvl + 1) c hc
            · exact hkmem c hc
            · rw [hc]; exact ⟨by decide, by decide⟩
            · rw [hc]; exact ⟨by decide, by decide⟩
            · exact hvmem c hc
        | cons kv2 r2 =>
            rw [show jsonFields (lvl + 1) ((k, v) :: kv2 :: r2) =
              jsonPad (lvl + 1) ++ jsonQuote k ++
                ':' :: ' ' :: jsonStringify (lvl + 1) v ++
                  ',' :: '\n' :: jsonFields (lvl + 1) (kv2 :: r2) from rfl] at hc
            have hc2 : c ∈ jsonPad (lvl + 1) ∨ c ∈ jsonQuote k ∨ c = ':' ∨
                c = ' ' ∨ c ∈ jsonStringify (lvl + 1) v ∨ c = ',' ∨ c = '\n' ∨
                c ∈ jsonFields (lvl + 1) (kv2 :: r2) := by
              simpa [List.mem_append, List.mem_cons, or_assoc] using hc
            rcases hc2 with hc | hc | hc | hc | hc | hc | hc | hc
            · exact hpadm (lvl + 1) c hc
            · exact hkmem c hc
            · rw [hc]; exact ⟨by decide, by decide⟩
            · rw [hc]; exact ⟨by decide, by decide⟩
            · exact hvmem c hc
            · rw [hc]; exact ⟨by decide, by decide⟩
            · rw [hc]; exact ⟨by decide, by decide⟩
            · refine ihM (kv2 :: r2) lvl ?_ hok.2.2 c hc
              have := jvSize_pos v
              omega
  · intro xs lvl hn hok c hc
    cases xs with
    | nil => simp [show jsonItems (lvl + 1) [] = [] from rfl] at hc
    | cons x t =>
        have e : jvSizeList (x :: t) = 1 + jvSize x + jvSizeList t := rfl
        have hvmem : ∀ c2 ∈ jsonStringify (lvl + 1) x, c2 ≠ '/' ∧ c2 ≠ '*' := by
          refine ihV x (lvl + 1) ?_ hok.1
          have := jvSizeList_pos t
          omega
        cases t with
        | nil =>
            rw [show jsonItems (lvl + 1) [x] =
              jsonPad (lvl + 1) ++ jsonStringify (lvl + 1) x from rfl] at hc
            rw [List.mem_append] at hc
            rcases hc with hc | hc
            · exact hpadm (lvl + 1) c hc
            · exact hvmem c hc
        | cons y t2 =>
            rw [show jsonItems (lvl + 1) (x :: y :: t2) =
              jsonPad (lvl + 1) ++ jsonStringify (lvl + 1) x ++
                ',' :: '\n' :: jsonItems (lvl + 1) (y :: t2) from rfl] at hc
            have hc2 : c ∈ jsonPad (lvl + 1) ∨ c ∈ jsonStringify (lvl + 1) x ∨
                c = ',' ∨ c = '\n' ∨ c ∈ jsonItems (lvl + 1) (y :: t2) := by
              simpa [List.mem_append, List.mem_cons, or_assoc] using hc
            rcases hc2 with hc | hc | hc | hc | hc
            · exact hpadm (lvl + 1) c hc
            · exact hvmem c hc
            · rw [hc]; exact ⟨by decide, by decide⟩
            · rw [hc]; exact ⟨by decide, by decide⟩
            · refine ihE (y :: t2) lvl ?_ hok.2 c hc
              have := jvSize_pos x
              omega

/-- Every comma of the text resolves, within the text, to a first non-JS-ws
character that is not `}` or `]` — so the trailing-comma regex never
matches inside it. -/
def commaOk : List Char → Bool
  | [] => true
  | c :: rest =>
      (if c = ',' then
        match rest.dropWhile isWsJs with
        | [] => false
        | d :: _ => decide (d ≠ '}') && decide (d ≠ ']')
      else true) && commaOk rest

theorem dropWhile_append_eq (p : Char → Bool) (u v : List Char) :
    (u ++ v).dropWhile p =
      if u.dropWhile p = [] then v.dropWhile p else u.dropWhile p ++ v := by
  induction u with
  | nil => simp
  | cons a t ih =>
      rw [List.cons_append, List.dropWhile_cons, List.dropWhile_cons]
      by_cases hp : p a = true
      · rw [if_pos hp, if_pos hp, ih]
      · rw [if_neg hp, if_neg hp, if_neg (by simp)]
        rfl

theorem commaOk_cons (c : Char) (rest : List Char) (hc : c ≠ ',') :
    commaOk (c :: rest) = commaOk rest := by
  rw [commaOk, if_neg hc, Bool.true_and]

theorem commaOk_no_comma (cs : List Char) (h : ∀ c ∈ cs, c ≠ ',') :
    commaOk cs = true := by
  induction cs with
  | nil => rfl
  | cons c rest ih =>
      rw [commaOk_cons c rest (h c (List.mem_cons_self _ _))]
      exact ih (fun z hz => h z (List.mem_cons_of_mem _ hz))

theorem commaOk_no_comma_append (a rest : List Char) (h : ∀ c ∈ a, c ≠ ',') :
    commaOk (a ++ rest) = commaOk rest := by
  induction a with
  | nil => rfl
  | cons c t ih =>
      rw [List.cons_append, commaOk_cons c _ (h c (List.mem_cons_self _ _))]
      exact ih (fun z hz => h z (List.mem_cons_of_mem _ hz))

theorem commaOk_append (a b : List Char) (ha : commaOk a = true)
    (hb : commaOk b = true) : commaOk (a ++ b) = true := by
  induction a with
  | nil => exact hb
  | cons c t ih =>
      rw [commaOk] at ha
      rw [Bool.and_eq_true] at ha
      rw [List.cons_append, commaOk, Bool.and_eq_true]
      refine ⟨?_, ih ha.2⟩
      by_cases hc : c = ','
      · rw [if_pos hc] at ha ⊢
        rcases hdt : t.dropWhile isWsJs with _ | ⟨d, w⟩
        · rw [hdt] at ha
          exact absurd ha.1 (by simp)
        · rw [hdt] at ha
          rw [dropWhile_append_eq, if_neg (by rw [hdt]; simp), hdt]
          exact ha.1
      · rw [if_neg hc]

theorem closerAfterWs_of_head (cs : List Char) (d : Char) (w : List Char)
    (hdw : cs.dropWhile isWsJs = d :: w) (h1 : d ≠ '}') (h2 : d ≠ ']') :
    closerAfterWs cs = false := by
  rw [closerAfterWs, hdw]
  split
  · rename_i heq
    rw [List.cons.injEq] at heq
    exact absurd heq.1 h1
  · rename_i heq
    rw [List.cons.injEq] at heq
    exact absurd heq.1 h2
  · rfl

/-- The trailing-comma cleaner passes a comma-resolved prefix through
unchanged. -/
theorem cleanCommas_append (a : List Char) :
    ∀ b, commaOk a = true → cleanCommas (a ++ b) = a ++ cleanCommas b := by
  induction a with
  | nil => intro b _; rfl
  | cons c t ih =>
      intro b ha
      rw [commaOk, Bool.and_eq_true] at ha
      rw [List.cons_append, cleanCommas_cons]
      by_cases hc : c = ','
      · rw [if_pos hc] at ha
        rcases hdt : t.dropWhile isWsJs with _ | ⟨d, w⟩
        · rw [hdt] at ha
          exact absurd ha.1 (by simp)
        · rw [hdt] at ha
          have hd1 : d ≠ '}' := by
            intro hdd
            rw [hdd] at ha
            exact absurd ha.1 (by simp)
          have hd2 : d ≠ ']' := by
            intro hdd
            rw [hdd] at ha
            exact absurd ha.1 (by simp)
          have hclo : closerAfterWs (t ++ b) = false := by
            refine closerAfterWs_of_head (t ++ b) d (w ++ b) ?_ hd1 hd2
            rw [dropWhile_append_eq, if_neg (by rw [hdt]; simp), hdt]
            rfl
          rw [if_neg (fun hx => by rw [hclo] at hx; exact absurd hx.2 (by simp)),
            ih b ha.2]
          rfl
      · rw [if_neg (fun hx => hc hx.1), ih b ha.2]
        rfl

theorem nlPad_wsJs (lvl : Nat) : ∀ c ∈ '\n' :: jsonPad lvl, isWsJs c = true := by
  intro c hc
  rw [List.mem_cons] at hc
  rcases hc with hc | hc
  · rw [hc]; rfl
  · rw [jsonPad] at hc
    rw [List.eq_of_mem_replicate hc]
    rfl

theorem items_dropWhileJs (x : JVal) (t : List JVal) (lvl : Nat)
    (tl : List Char) (hx : okJv x) :
    ∃ dx zz, ('\n' :: (jsonItems (lvl + 1) (x :: t) ++ tl)).dropWhile isWsJs =
      dx :: zz ∧ (dx = '"' ∨ dx = '[' ∨ dx = '{') := by
  obtain ⟨d, s2, hS, hd⟩ := jsonStringify_head x (lvl + 1) hx
  have hnws : isWsJs d = false := by
    rcases hd with h | h | h <;> (rw [h]; rfl)
  cases t with
  | nil =>
      refine ⟨d, s2 ++ tl, ?_, hd⟩
      have e1 : '\n' :: (jsonItems (lvl + 1) (x :: []) ++ tl) =
          ('\n' :: jsonPad (lvl + 1)) ++ (d :: (s2 ++ tl)) := by
        rw [show jsonItems (lvl + 1) [x] =
          jsonPad (lvl + 1) ++ jsonStringify (lvl + 1) x from rfl, hS]
        simp
      rw [e1]
      exact dropWhile_append_all isWsJs _ d _ (nlPad_wsJs (lvl + 1)) hnws
  | cons y t2 =>
      refine ⟨d, s2 ++ (',' :: '\n' :: jsonItems (lvl + 1) (y :: t2) ++ tl), ?_, hd⟩
      have e1 : '\n' :: (jsonItems (lvl + 1) (x :: y :: t2) ++ tl) =
          ('\n' :: jsonPad (lvl + 1)) ++
            (d :: (s2 ++ (',' :: '\n' :: jsonItems (lvl + 1) (y :: t2) ++ tl))) := by
        rw [show jsonItems (lvl + 1) (x :: y :: t2) =
          jsonPad (lvl + 1) ++ jsonStringify (lvl + 1) x ++
            ',' :: '\n' :: jsonItems (lvl + 1) (y :: t2) from rfl, hS]
        simp
      rw [e1]
      exact dropWhile_append_all isWsJs _ d _ (nlPad_wsJs (lvl + 1)) hnws

theorem fields_dropWhileJs (k : JStr) (v : JVal) (r : List (JStr × JVal))
    (lvl : Nat) (tl : List Char) :
    ∃ zz, ('\n' :: (jsonFields (lvl + 1) ((k, v) :: r) ++ tl)).dropWhile isWsJs =
      '"' :: zz := by
  have hq : jsonQuote k = '"' :: ((k.map jsonEscapeChar).flatten ++ ['"']) := rfl
  cases r with
  | nil =>
      refine ⟨((k.map jsonEscapeChar).flatten ++ ['"']) ++
        ((':' :: ' ' :: jsonStringify (lvl + 1) v) ++ tl), ?_⟩
      have e1 : '\n' :: (jsonFields (lvl + 1) ((k, v) :: []) ++ tl) =
          ('\n' :: jsonPad (lvl + 1)) ++
            ('"' :: (((k.map jsonEscapeChar).flatten ++ ['"']) ++
              ((':' :: ' ' :: jsonStringify (lvl + 1) v) ++ tl))) := by
        rw [show jsonFields (lvl + 1) [(k, v)] =
          (jsonPad (lvl + 1) ++ jsonQuote k) ++
            (':' :: ' ' :: jsonStringify (lvl + 1) v) from rfl, hq]
        simp
      rw [e1]
      exact dropWhile_append_all isWsJs _ '"' _ (nlPad_wsJs (lvl + 1)) (by decide)
  | cons kv2 r2 =>
      refine ⟨((k.map jsonEscapeChar).flatten ++ ['"']) ++
        (((':' :: ' ' :: jsonStringify (lvl + 1) v) ++
          (',' :: '\n' :: jsonFields (lvl + 1) (kv2 :: r2))) ++ tl), ?_⟩
      have e1 : '\n' :: (jsonFields (lvl + 1) ((k, v) :: kv2 :: r2) ++ tl) =
          ('\n' :: jsonPad (lvl + 1)) ++
            ('"' :: (((k.map jsonEscapeChar).flatten ++ ['"']) ++
              (((':' :: ' ' :: jsonStringify (lvl + 1) v) ++
                (',' :: '\n' :: jsonFields (lvl + 1) (kv2 :: r2))) ++ tl))) := by
        rw [show jsonFields (lvl + 1) ((k, v) :: kv2 :: r2) =
          jsonPad (lvl + 1) ++ jsonQuote k ++
            ':' :: ' ' :: jsonStringify (lvl + 1) v ++
              ',' :: '\n' :: jsonFields (lvl + 1) (kv2 :: r2) from rfl, hq]
        simp
      rw [e1]
      exact dropWhile_append_all isWsJs _ '"' _ (nlPad_wsJs (lvl + 1)) (by decide)

/-- No comma of a serialized fragment value resolves to a closer: the
structural commas are followed by a newline, indentation, and the first
character of the next item or member, and string contents are comma-free. -/
theorem commaOk_stringify : ∀ n : Nat,
    (∀ (v : JVal) (lvl : Nat), jvSize v ≤ n → okJv v →
      commaOk (jsonStringify lvl v) = true) ∧
    (∀ (kvs : List (JStr × JVal)) (lvl : Nat) (tl : List Char),
      jvSizeFields kvs ≤ n → okFields kvs → commaOk tl = true →
      commaOk (jsonFields (lvl + 1) kvs ++ tl) = true) ∧
    (∀ (xs : List JVal) (lvl : Nat) (tl : List Char), jvSizeList xs ≤ n →
      okElems xs → commaOk tl = true →
      commaOk (jsonItems (lvl + 1) xs ++ tl) = true) := by
  have hpadnc : ∀ (L : Nat) (c : Char), c ∈ jsonPad L → c ≠ ',' := by
    intro L c hc
    rw [jsonPad] at hc
    rw [List.eq_of_mem_replicate hc]
    decide
  intro n
  induction n using Nat.strong_induction_on with
  | _ n ih =>
  cases n with
  | zero =>
      refine ⟨fun v _ h _ => absurd h ?_, fun kvs _ _ h _ _ => absurd h ?_,
        fun xs _ _ h _ _ => absurd h ?_⟩
      · have := jvSize_pos v
        omega
      · have := jvSizeFields_pos kvs
        omega
      · have := jvSizeList_pos xs
        omega
  | succ m =>
  obtain ⟨ihV, ihM, ihE⟩ := ih m (Nat.lt_succ_self m)
  refine ⟨?_, ?_, ?_⟩
  · intro v lvl hn hok
    cases v with
    | num n2 => exact absurd hok (by simp [okJv])
    | bool b => exact absurd hok (by cases b <;> simp [okJv])
    | null => exact absurd hok (by simp [okJv])
    | str s =>
        have hs : okOcStr s := hok
        rw [show jsonStringify lvl (.str s) = jsonQuote s from rfl,
          jsonQuote_plain s hs]
        refine commaOk_no_comma _ ?_
        intro c hc
        rw [List.mem_cons, List.mem_append, List.mem_singleton] at hc
        rcases hc with hc | hc | hc
        · rw [hc]; decide
        · exact (hs c hc).2.2.2.2.2.2.1
        · rw [hc]; decide
    | arr xs =>
        cases xs with
        | nil =>
            rw [show jsonStringify lvl (.arr []) = ['[', ']'] from rfl]
            decide
        | cons x t =>
            have e : jvSize (.arr (x :: t)) = 1 + jvSizeList (x :: t) := rfl
            have e2 : jsonStringify lvl (.arr (x :: t)) =
                '[' :: ('\n' :: (jsonItems (lvl + 1) (x :: t) ++
                  ('\n' :: (jsonPad lvl ++ [']'])))) := by
              rw [show jsonStringify lvl (.arr (x :: t)) =
                '[' :: '\n' :: jsonItems (lvl + 1) (x :: t) ++
                  '\n' :: jsonPad lvl ++ [']'] from rfl]
              simp
            rw [e2, commaOk_cons _ _ (by decide), commaOk_cons _ _ (by decide)]
            refine ihE (x :: t) lvl _ (by omega) hok ?_
            rw [commaOk_cons _ _ (by decide),
              commaOk_no_comma_append _ _ (hpadnc lvl)]
            decide
    | obj kvs =>
        cases kvs with
        | nil =>
            rw [show jsonStringify lvl (.obj []) = ['{', '}'] from rfl]
            decide
        | cons kv t =>
            have e : jvSize (.obj (kv :: t)) = 1 + jvSizeFields (kv :: t) := rfl
            have e2 : jsonStringify lvl (.obj (kv :: t)) =
                '{' :: ('\n' :: (jsonFields (lvl + 1) (kv :: t) ++
                  ('\n' :: (jsonPad lvl ++ ['}'])))) := by
              rw [show jsonStringify lvl (.obj (kv :: t)) =
                '{' :: '\n' :: jsonFields (lvl + 1) (kv :: t) ++
                  '\n' :: jsonPad lvl ++ ['}'] from rfl]
              simp
            rw [e2, commaOk_cons _ _ (by decide), commaOk_cons _ _ (by decide)]
            refine ihM (kv :: t) lvl _ (by omega) hok ?_
            rw [commaOk_cons _ _ (by decide),
              commaOk_no_comma_append _ _ (hpadnc lvl)]
            decide
  · intro kvs lvl tl hn hok htl
    cases kvs with
    | nil =>
        rw [show jsonFields (lvl + 1) [] = [] from rfl, List.nil_append]
        exact htl
    | cons kv r =>
        obtain ⟨k, v⟩ := kv
        have hofk : okOcStr k := hok.1
        have e : jvSizeFields ((k, v) :: r) = 1 + jvSize v + jvSizeFields r := rfl
        have hknc : ∀ c ∈ k, c ≠ ',' :=
          fun c hc => (hofk c hc).2.2.2.2.2.2.1
        have hvok : commaOk (jsonStringify (lvl + 1) v) = true := by
          refine ihV v (lvl + 1) ?_ hok.2.1
          have := jvSizeFields_pos r
          omega
        cases r with
        | nil =>
            have e2 : jsonFields (lvl + 1) [(k, v)] ++ tl =
                jsonPad (lvl + 1) ++ ('"' :: (k ++ ('"' :: (':' :: (' ' ::
                  (jsonStringify (lvl + 1) v ++ tl)))))) := by
              rw [show jsonFields (lvl + 1) [(k, v)] =
                (jsonPad (lvl + 1) ++ jsonQuote k) ++
                  (':' :: ' ' :: jsonStringify (lvl + 1) v) from rfl,
                jsonQuote_plain k hofk]
              simp
            rw [e2, commaOk_no_comma_append _ _ (hpadnc (lvl + 1)),
              commaOk_cons _ _ (by decide), commaOk_no_comma_append _ _ hknc,
              commaOk_cons _ _ (by decide), commaOk_cons _ _ (by decide),
              commaOk_cons _ _ (by decide)]
            exact commaOk_append _ _ hvok htl
        | cons kv2 r2 =>
            obtain ⟨k2, v2⟩ := kv2
            have e2 : jsonFields (lvl + 1) ((k, v) :: (k2, v2) :: r2) ++ tl =
                jsonPad (lvl + 1) ++ ('"' :: (k ++ ('"' :: (':' :: (' ' ::
                  (jsonStringify (lvl + 1) v ++ (',' :: ('\n' ::
                    (jsonFields (lvl + 1) ((k2, v2) :: r2) ++ tl))))))))) := by
              rw [show jsonFields (lvl + 1) ((k, v) :: (k2, v2) :: r2) =
                jsonPad (lvl + 1) ++ jsonQuote k ++
                  ':' :: ' ' :: jsonStringify (lvl + 1) v ++
                    ',' :: '\n' :: jsonFields (lvl + 1) ((k2, v2) :: r2) from rfl,
                jsonQuote_plain k hofk]
              simp
            rw [e2, commaOk_no_comma_append _ _ (hpadnc (lvl + 1)),
              commaOk_cons _ _ (by decide), commaOk_no_comma_append _ _ hknc,
              commaOk_cons _ _ (by decide), commaOk_cons _ _ (by decide),
              commaOk_cons _ _ (by decide)]
            refine commaOk_append _ _ hvok ?_
            obtain ⟨zz, hzz⟩ := fields_dropWhileJs k2 v2 r2 lvl tl
            rw [commaOk, if_pos rfl, hzz, Bool.and_eq_true]
            refine ⟨rfl, ?_⟩
            rw [commaOk_cons _ _ (by decide)]
            refine ihM ((k2, v2) :: r2) lvl tl ?_ hok.2.2 htl
            have := jvSize_pos v
            omega
  · intro xs lvl tl hn hok htl
    cases xs with
    | nil =>
        rw [show jsonItems (lvl + 1) [] = [] from rfl, List.nil_append]
        exact htl
    | cons x t =>
        have e : jvSizeList (x :: t) = 1 + jvSize x + jvSizeList t := rfl
        have hxok : commaOk (jsonStringify (lvl + 1) x) = true := by
          refine ihV x (lvl + 1) ?_ hok.1
          have := jvSizeList_pos t
          omega
        cases t with
        | nil =>
            have e2 : jsonItems (lvl + 1) [x] ++ tl =
                jsonPad (lvl + 1) ++ (jsonStringify (lvl + 1) x ++ tl) := by
              rw [show jsonItems (lvl + 1) [x] =
                jsonPad (lvl + 1) ++ jsonStringify (lvl + 1) x from rfl]
              simp
            rw [e2, commaOk_no_comma_append _ _ (hpadnc (lvl + 1))]
            exact commaOk_append _ _ hxok htl
        | cons y t2 =>
            have e2 : jsonItems (lvl + 1) (x :: y :: t2) ++ tl =
                jsonPad (lvl + 1) ++ (jsonStringify (lvl + 1) x ++
                  (',' :: ('\n' :: (jsonItems (lvl + 1) (y :: t2) ++ tl)))) := by
              rw [show jsonItems (lvl + 1) (x :: y :: t2) =
                jsonPad (lvl + 1) ++ jsonStringify (lvl + 1) x ++
                  ',' :: '\n' :: jsonItems (lvl + 1) (y :: t2) from rfl]
              simp
            rw [e2, commaOk_no_comma_append _ _ (hpadnc (lvl + 1))]
            refine commaOk_append _ _ hxok ?_
            obtain ⟨dx, zz, hzz, hdx⟩ := items_dropWhileJs y t2 lvl tl hok.2.1
            rw [commaOk, if_pos rfl, hzz, Bool.and_eq_true]
            refine ⟨?_, ?_⟩
            · rcases hdx with h | h | h <;> (rw [h]; rfl)
            · rw [commaOk_cons _ _ (by decide)]
              refine ihE (y :: t2) lvl tl ?_ hok.2 htl
              have := jvSize_pos x
              omega

/-- `parseJsonc` inverts the pretty-printer (plus trailing newline) on
fragment values: the comment stripper and comma cleaner pass the text
through unchanged and `JSON.parse` recovers the value. -/
theorem parseJsonc_stringify (v : JVal) (hok : okJv v) :
    parseJsonc (jsonStringify 0 v ++ ['\n']) = some v := by
  rw [parseJsonc]
  rw [stripAux_id (jsonStringify 0 v ++ ['\n']) ?_ none false]
  · rw [cleanCommas_append (jsonStringify 0 v) ['\n']
      ((commaOk_stringify (jvSize v)).1 v 0 le_rfl hok),
      show cleanCommas ['\n'] = ['\n'] from rfl]
    exact jvParse_stringify v hok
  · intro c hc
    rw [List.mem_append, List.mem_singleton] at hc
    rcases hc with hc | hc
    · exact ((jsonStringify_mem (jvSize v)).1 v 0 le_rfl hok c hc).1
    · rw [hc]; decide

/-- OpenCode-side well-formedness of one merged server: command present with
admitted characters, args (when present) non-empty with admitted characters,
env keys and values with admitted characters. -/
def okOcServer (s : McpServer) : Prop :=
  (∃ c, s.command = some c ∧ okOcStr c) ∧
    (∀ xs, s.args = some xs → xs ≠ [] ∧ ∀ x ∈ xs, okOcStr x) ∧
    (∀ kvs, s.env = some kvs → ∀ p ∈ kvs, okOcStr p.1 ∧ okOcStr p.2)

theorem jvStrPairs_map (l : List (JStr × JStr)) :
    jvStrPairs (l.map (fun p => (p.1, JVal.str p.2))) = some l := by
  induction l with
  | nil => rfl
  | cons p r ih =>
      obtain ⟨k, v⟩ := p
      simp [jvStrPairs, ih]

theorem okElems_map_str (l : List JStr) (h : ∀ x ∈ l, okOcStr x) :
    okElems (l.map JVal.str) := by
  induction l with
  | nil => exact trivial
  | cons x r ih =>
      exact ⟨h x (List.mem_cons_self _ _),
        ih (fun z hz => h z (List.mem_cons_of_mem _ hz))⟩

theorem okFields_envMap (kvs : List (JStr × JStr))
    (h : ∀ p ∈ kvs, okOcStr p.1 ∧ okOcStr p.2) :
    okFields (kvs.map (fun p => (p.1, JVal.str p.2))) := by
  induction kvs with
  | nil => exact trivial
  | cons p r ih =>
      exact ⟨(h p (List.mem_cons_self _ _)).1, (h p (List.mem_cons_self _ _)).2,
        ih (fun z hz => h z (List.mem_cons_of_mem _ hz))⟩

theorem okJv_mcpServerToOc (s : McpServer) (h : okOcServer s) :
    okJv (mcpServerToOc s) := by
  obtain ⟨⟨c, hc, hcok⟩, hargs, henv⟩ := h
  obtain ⟨cmd, args, env, dis⟩ := s
  simp only [McpServer.command] at hc
  subst hc
  have hcmds : ∀ x ∈ (some c).getD [] :: args.getD [], okOcStr x := by
    intro x hx
    rw [List.mem_cons] at hx
    rcases hx with hx | hx
    · rw [hx]; exact hcok
    · cases hargsv : args with
      | none => rw [hargsv] at hx; exact absurd hx (by simp)
      | some xs =>
          rw [hargsv] at hx
          exact (hargs xs hargsv).2 x hx
  cases env with
  | none =>
      exact ⟨(by simp only [okOcStr, okOcChar]; decide : okOcStr ("type".data)),
        (by simp only [okOcStr, okOcChar]; decide : okOcStr ("local".data)),
        (by simp only [okOcStr, okOcChar]; decide : okOcStr ("command".data)),
        okElems_map_str _ hcmds, trivial⟩
  | some kvs =>
      exact ⟨(by simp only [okOcStr, okOcChar]; decide : okOcStr ("type".data)),
        (by simp only [okOcStr, okOcChar]; decide : okOcStr ("local".data)),
        (by simp only [okOcStr, okOcChar]; decide : okOcStr ("command".data)),
        okElems_map_str _ hcmds,
        (by simp only [okOcStr, okOcChar]; decide : okOcStr ("environment".data)),
        okFields_envMap kvs (henv kvs rfl), trivial⟩

theorem okFields_entries (servers : List (JStr × McpServer))
    (hname : ∀ p ∈ servers, okOcStr p.1)
    (hok : ∀ p ∈ servers, okOcServer p.2) :
    okFields (servers.map (fun q => (q.1, mcpServerToOc q.2))) := by
  induction servers with
  | nil => exact trivial
  | cons p r ih =>
      exact ⟨hname p (List.mem_cons_self _ _),
        okJv_mcpServerToOc p.2 (hok p (List.mem_cons_self _ _)),
        ih (fun z hz => hname z (List.mem_cons_of_mem _ hz))
          (fun z hz => hok z (List.mem_cons_of_mem _ hz))⟩

theorem ocExtractAux_entry (acc : List (JStr × McpServer)) (name : JStr)
    (s : McpServer) (es : List (JStr × JVal)) (c : JStr)
    (hc : s.command = some c) (ha : ∀ xs, s.args = some xs → xs ≠ []) :
    ocExtractAux acc ((name, mcpServerToOc s) :: es) =
      ocExtractAux (jset acc name
        { command := s.command, args := s.args, env := s.env }) es := by
  obtain ⟨cmd, args, env, dis⟩ := s
  simp only [McpServer.command] at hc
  subst hc
  cases env with
  | none =>
      have he : ocEnvOf (mcpServerToOc ⟨some c, args, none, dis⟩) =
          some none := by
        cases args <;> rfl
      have hloc : isLocalTagged (mcpServerToOc ⟨some c, args, none, dis⟩) =
          true := by
        cases args <;> rfl
      have hdis : isDisabledOc (mcpServerToOc ⟨some c, args, none, dis⟩) =
          false := by
        cases args <;> rfl
      have hcmd2 : jvGet (mcpServerToOc ⟨some c, args, none, dis⟩)
          ("command".data) =
          some (.arr (((some c).getD [] :: args.getD []).map JVal.str)) := by
        cases args <;> rfl
      cases args with
      | none =>
          simp only [ocExtractAux, hloc, hdis, hcmd2, he, jvStrList_map_str,
            Bool.not_true]
          simp
      | some xs =>
          obtain ⟨y, ys, hxs⟩ : ∃ y ys, xs = y :: ys := by
            cases hxx : xs with
            | nil => exact absurd hxx (ha xs rfl)
            | cons y ys => exact ⟨y, ys, rfl⟩
          subst hxs
          simp only [ocExtractAux, hloc, hdis, hcmd2, he, jvStrList_map_str,
            Bool.not_true]
          simp
  | some kvs =>
      have hjg : jvGet (mcpServerToOc ⟨some c, args, some kvs, dis⟩)
          ("environment".data) =
          some (.obj (kvs.map (fun p => (p.1, JVal.str p.2)))) := by
        cases args <;> rfl
      have he : ocEnvOf (mcpServerToOc ⟨some c, args, some kvs, dis⟩) =
          some (some kvs) := by
        rw [ocEnvOf, hjg]
        simp [jvStrPairs_map, jvTruthy]
      have hloc : isLocalTagged (mcpServerToOc ⟨some c, args, some kvs, dis⟩) =
          true := by
        cases args <;> rfl
      have hdis : isDisabledOc (mcpServerToOc ⟨some c, args, some kvs, dis⟩) =
          false := by
        cases args <;> rfl
      have hcmd2 : jvGet (mcpServerToOc ⟨some c, args, some kvs, dis⟩)
          ("command".data) =
          some (.arr (((some c).getD [] :: args.getD []).map JVal.str)) := by
        cases args <;> rfl
      cases args with
      | none =>
          simp only [ocExtractAux, hloc, hdis, hcmd2, he, jvStrList_map_str,
            Bool.not_true]
          simp
      | some xs =>
          obtain ⟨y, ys, hxs⟩ : ∃ y ys, xs = y :: ys := by
            cases hxx : xs with
            | nil => exact absurd hxx (ha xs rfl)
            | cons y ys => exact ⟨y, ys, rfl⟩
          subst hxs
          simp only [ocExtractAux, hloc, hdis, hcmd2, he, jvStrList_map_str,
            Bool.not_true]
          simp

theorem ocExtractAux_map (servers : List (JStr × McpServer)) :
    ∀ acc, (∀ p ∈ servers, okOcServer p.2) →
      ocExtractAux acc (servers.map (fun q => (q.1, mcpServerToOc q.2))) =
        some (servers.foldl (fun m q =>
          jset m q.1 { command := q.2.command, args := q.2.args,
                       env := q.2.env }) acc) := by
  induction servers with
  | nil => intro acc _; rfl
  | cons p r ih =>
      intro acc hok
      obtain ⟨⟨c, hc, _⟩, hargs, _⟩ := hok p (List.mem_cons_self _ _)
      rw [List.map_cons,
        ocExtractAux_entry acc p.1 p.2 _ c hc (fun xs hxs => (hargs xs hxs).1),
        ih _ (fun z hz => hok z (List.mem_cons_of_mem _ hz))]
      rfl

/-- The OpenCode dialect round trip against `{}` existing content: the
write succeeds, the written text re-parses, and the extraction loop of the
OpenCode read recovers every server's command, args and env under its
name. -/
theorem ocRoundTrip (config : McpConfig)
    (hnd : (config.mcpServers.map Prod.fst).Nodup)
    (hname : ∀ p ∈ config.mcpServers, okOcStr p.1)
    (hok : ∀ p ∈ config.mcpServers, okOcServer p.2) :
    ∃ out, serializeOpenCodeConfig config ("\x7b\x7d".data) = some out ∧
      ∃ doc, parseJsonc out = some doc ∧
        ocExtractAux [] (ocMcpEntries doc) =
          some (config.mcpServers.map (fun q =>
            (q.1, { command := q.2.command, args := q.2.args,
                    env := q.2.env }))) := by
  have hparse0 : parseJsonc ("\x7b\x7d".data) = some (.obj []) := rfl
  have hentries : ocNewMcp (.obj []) config =
      config.mcpServers.map (fun q => (q.1, mcpServerToOc q.2)) := by
    rw [ocNewMcp]
    have h2 := foldl_jset_map (fun q : JStr × McpServer => mcpServerToOc q.2)
      Prod.fst config.mcpServers [] hnd (by simp [jkeys])
    simpa using h2
  have hdoc : ocTransform (.obj []) config =
      .obj [("mcp".data, .obj (config.mcpServers.map
        (fun q => (q.1, mcpServerToOc q.2))))] := by
    rw [ocTransform, hentries]
    rfl
  have hokdoc : okJv (.obj [("mcp".data,
      .obj (config.mcpServers.map (fun q => (q.1, mcpServerToOc q.2))))]) :=
    ⟨(by simp only [okOcStr, okOcChar]; decide : okOcStr ("mcp".data)),
     okFields_entries config.mcpServers hname hok, trivial⟩
  refine ⟨jsonStringify 0 (ocTransform (.obj []) config) ++ ['\n'], ?_, ?_⟩
  · rw [serializeOpenCodeConfig, hparse0]
  · rw [hdoc]
    refine ⟨.obj [("mcp".data, .obj (config.mcpServers.map
      (fun q => (q.1, mcpServerToOc q.2))))], parseJsonc_stringify _ hokdoc, ?_⟩
    have hme : ocMcpEntries (.obj [("mcp".data,
        .obj (config.mcpServers.map (fun q => (q.1, mcpServerToOc q.2))))]) =
        config.mcpServers.map (fun q => (q.1, mcpServerToOc q.2)) := by
      rw [ocMcpEntries]
      rfl
    rw [hme, ocExtractAux_map config.mcpServers [] hok]
    congr 1
    rw [foldl_jset_map (fun q : JStr × McpServer =>
      ({ command := q.2.command, args := q.2.args, env := q.2.env } : McpServer))
      Prod.fst config.mcpServers [] hnd (by simp [jkeys])]
    simp

/-! ### C5: dialect round trips -/

/-- A concrete well-formed merged mapping for the C5 witness. -/
def cfgC5 : McpConfig :=
  ⟨[("srv".data,
     { command := some ("cmd".data), args := some [("a1".data)],
       env := some [("KEY".data, "val".data)] })]⟩

/-- A mapping whose only server has an empty-string command; the Codex
round trip drops it. -/
def cfgC5Empty : McpConfig := ⟨[("x".data, { command := some [] })]⟩

/-- Counterexample for C5: the round trip does not hold for every canonical
mapping and empty existing content.  The OpenCode serializer throws on empty
existing content (`JSON.parse("")` fails), so nothing can be read back at
all; and the Codex dialect drops a server whose command is the empty string
(its `if (command)` read guard rejects the falsy value), so the re-read
mapping loses the server. -/
theorem dialectRoundTrip_counterexample :
    serializeOpenCodeConfig cfgC5Empty [] = none ∧
    codexExtract (parseToml (serializeCodexConfig cfgC5Empty [])) = [] := by
  exact ⟨rfl, rfl⟩

/-- C5 (amended): the round trips hold for well-formed mappings, with the
OpenCode write going into `{}` (rather than empty) existing content.  Codex:
serializing into empty content and re-running the Codex extraction recovers
every server with its raw TOML values — the quoted command string, the args
array and the env inline table — provided names avoid `]` and newlines,
commands are present, non-empty and newline-free, args elements survive the
hand-rolled array scanner (non-blank, trim-stable, free of quotes, newlines
and a trailing backslash), and env bindings have word-character keys and
values without quotes, commas or newlines.  OpenCode: serializing into `{}`
succeeds, the emitted JSONC re-parses, and the extraction recovers every
server's command, args and env verbatim, provided all strings avoid the
characters the comment stripper and trailing-comma cleaner react to
(quotes, backslashes, braces, brackets, slashes, stars, commas, control
characters) and args, when present, are non-empty. -/
theorem dialectRoundTrip_amended (config : McpConfig)
    (hnd : (config.mcpServers.map Prod.fst).Nodup)
    (hcodexName : ∀ p ∈ config.mcpServers, ']' ∉ p.1 ∧ '\n' ∉ p.1)
    (hcodex : ∀ p ∈ config.mcpServers, okCodexServer p.2)
    (hocName : ∀ p ∈ config.mcpServers, okOcStr p.1)
    (hoc : ∀ p ∈ config.mcpServers, okOcServer p.2) :
    codexExtract (parseToml (serializeCodexConfig config [])) =
      config.mcpServers.map (fun q => (q.1, codexRawOf q.2)) ∧
    ∃ out, serializeOpenCodeConfig config ("\x7b\x7d".data) = some out ∧
      ∃ doc, parseJsonc out = some doc ∧
        ocExtractAux [] (ocMcpEntries doc) =
          some (config.mcpServers.map (fun q =>
            (q.1, { command := q.2.command, args := q.2.args,
                    env := q.2.env }))) :=
  ⟨codexRoundTrip config hnd hcodexName hcodex, ocRoundTrip config hnd hocName hoc⟩

/-- Witness for C5 (amended) at a concrete one-server mapping. -/
theorem dialectRoundTrip_amended_witness :
    codexExtract (parseToml (serializeCodexConfig cfgC5 [])) =
      cfgC5.mcpServers.map (fun q => (q.1, codexRawOf q.2)) ∧
    ∃ out, serializeOpenCodeConfig cfgC5 ("\x7b\x7d".data) = some out ∧
      ∃ doc, parseJsonc out = some doc ∧
        ocExtractAux [] (ocMcpEntries doc) =
          some (cfgC5.mcpServers.map (fun q =>
            (q.1, { command := q.2.command, args := q.2.args,
                    env := q.2.env }))) := by
  refine dialectRoundTrip_amended cfgC5 (by decide) (by decide) ?_ ?_ ?_
  · intro p hp
    rw [show cfgC5.mcpServers = [("srv".data,
      { command := some ("cmd".data), args := some [("a1".data)],
        env := some [("KEY".data, "val".data)] })] from rfl,
      List.mem_singleton] at hp
    subst hp
    refine ⟨⟨"cmd".data, rfl, by decide, by decide, by decide⟩, ?_, ?_⟩
    · intro xs hxs
      cases hxs
      simp only [okArg]
      decide
    · intro kvs hkvs
      cases hkvs
      refine ⟨by decide, ?_⟩
      simp only [okEnvPair]
      decide
  · intro p hp
    rw [show cfgC5.mcpServers = [("srv".data,
      { command := some ("cmd".data), args := some [("a1".data)],
        env := some [("KEY".data, "val".data)] })] from rfl,
      List.mem_singleton] at hp
    subst hp
    simp only [okOcStr, okOcChar]
    decide
  · intro p hp
    rw [show cfgC5.mcpServers = [("srv".data,
      { command := some ("cmd".data), args := some [("a1".data)],
        env := some [("KEY".data, "val".data)] })] from rfl,
      List.mem_singleton] at hp
    subst hp
    refine ⟨⟨"cmd".data, rfl, by simp only [okOcStr, okOcChar]; decide⟩, ?_, ?_⟩
    · intro xs hxs
      cases hxs
      refine ⟨by decide, ?_⟩
      intro x hx
      rw [List.mem_singleton] at hx
      subst hx
      simp only [okOcStr, okOcChar]
      decide
    · intro kvs hkvs
      cases hkvs
      intro p2 hp2
      rw [List.mem_singleton] at hp2
      subst hp2
      constructor
      · simp only [okOcStr, okOcChar]
        decide
      · simp only [okOcStr, okOcChar]
        decide

end SyncMcp
